import Mathlib

/-!
Verification of the mumble-web gateway sources against their specification.

The development shallowly embeds the gateway code:
* the Mumble varint codec and the legacy voice-packet codec
  (source file `voice-legacy.ts`),
* the OCB2-AES128 crypt state (source file `crypt-state-ocb2.ts`),
* the UDP voice client readiness logic (source file `udp-voice-client.ts`),
* the session orchestrator voice de-duplication (source file `mumble.ts`),
* the TLS client channel/user registry (source file `mumble-protocol/client.ts`).

Bytes are modelled as `Fin 256`; JavaScript `Buffer` values become `List Byte`.
The AES-128-ECB block cipher provided by `node:crypto` is external to the
repository and is modelled as an explicit pair of functions (an encryption
function and its inverse), passed as parameters and constrained by
hypotheses exactly where a theorem needs them.
JavaScript exceptions are modelled with `Except`; functions that can only
fail by throwing use `Option` with `none` for the thrown case.
-/

/-- Machine byte: a natural number below 256. -/
abbrev Byte := Fin 256

/-- Build a byte from a natural number, reducing modulo 256 exactly as a
JavaScript `Buffer` write or `Uint8Array` store (`& 0xff`) does. -/
def byte (n : Nat) : Byte := ⟨n % 256, Nat.mod_lt _ (by decide)⟩

/-- Read a byte of a buffer as a natural number; out-of-range reads yield 0.
Every use in the embedding is guarded by an explicit bounds check, mirroring
`requireBytes` in the source. -/
def byteAt (buf : List Byte) (i : Nat) : Nat := (buf.getD i (byte 0)).val

/-- Bitwise NOT of a `BigInt` in JavaScript: `~x = -x - 1`. -/
def intNot (x : Int) : Int := -x - 1

/-- Helper: a left shift OR-ed with a small remainder is plain addition. -/
theorem shiftLeft_lor_eq_add {a b k : Nat} (hb : b < 2 ^ k) :
    a <<< k ||| b = a * 2 ^ k + b := by
  apply Nat.eq_of_testBit_eq
  intro i
  rw [Nat.testBit_lor, Nat.testBit_shiftLeft]
  rcases Nat.lt_or_ge i k with hik | hik
  · have hge : decide (i ≥ k) = false := by simp; omega
    rw [hge]
    simp only [Bool.false_and, Bool.false_or]
    have hm : (a * 2 ^ k + b) % 2 ^ k = b := by
      rw [Nat.mul_comm, Nat.mul_add_mod]
      exact Nat.mod_eq_of_lt hb
    have ht := Nat.testBit_mod_two_pow (a * 2 ^ k + b) k i
    rw [hm] at ht
    rw [ht]
    simp [hik]
  · have hge : decide (i ≥ k) = true := by simp [hik]
    rw [hge]
    simp only [Bool.true_and]
    have hbf : b.testBit i = false :=
      Nat.testBit_lt_two_pow (lt_of_lt_of_le hb (Nat.pow_le_pow_right (by norm_num) hik))
    rw [hbf, Bool.or_false]
    rw [Nat.testBit_to_div_mod, Nat.testBit_to_div_mod]
    congr 2
    obtain ⟨j, rfl⟩ := Nat.exists_eq_add_of_le hik
    rw [Nat.pow_add, ← Nat.div_div_eq_div_mul]
    have hd : (a * 2 ^ k + b) / 2 ^ k = a := by
      rw [Nat.mul_comm, Nat.mul_add_div (Nat.two_pow_pos k)]
      simp [Nat.div_eq_of_lt hb]
    rw [hd, Nat.add_sub_cancel_left]

/-- Worker for the Mumble varint reader. The source while/recursion structure
is bounded by an explicit structural counter so that the definition reduces;
the public entry point `readMumbleVarint` passes a counter that is always
sufficient (each recursive step consumes one byte of the buffer), so the
zero-counter branch is unreachable from it. -/
def readMumbleVarintAux (buf : List Byte) : Nat → Nat → Option (Int × Nat)
  | 0, _ => none
  | fuel + 1, offset =>
    if offset + 1 > buf.length then none else
    let v := byteAt buf offset
    if v &&& 0x80 = 0x00 then
      some (((v &&& 0x7f : Nat) : Int), offset + 1)
    else if v &&& 0xc0 = 0x80 then
      if offset + 1 + 1 > buf.length then none else
      some ((((v &&& 0x3f) <<< 8 ||| byteAt buf (offset + 1) : Nat) : Int), offset + 1 + 1)
    else if v &&& 0xf0 = 0xf0 then
      if v &&& 0xfc = 0xf0 then
        if offset + 1 + 4 > buf.length then none else
        some (((byteAt buf (offset + 1) <<< 24 ||| byteAt buf (offset + 2) <<< 16 |||
          byteAt buf (offset + 3) <<< 8 ||| byteAt buf (offset + 4) : Nat) : Int),
          offset + 1 + 4)
      else if v &&& 0xfc = 0xf4 then
        if offset + 1 + 8 > buf.length then none else
        some ((((List.range 8).foldl
          (fun acc i => acc <<< 8 ||| byteAt buf (offset + 1 + i)) 0 : Nat) : Int),
          offset + 1 + 8)
      else if v &&& 0xfc = 0xf8 then
        match readMumbleVarintAux buf fuel (offset + 1) with
        | none => none
        | some (inner, o) => some (intNot inner, o)
      else
        some (intNot ((v &&& 0x03 : Nat) : Int), offset + 1)
    else if v &&& 0xf0 = 0xe0 then
      if offset + 1 + 3 > buf.length then none else
      some ((((v &&& 0x0f) <<< 24 ||| byteAt buf (offset + 1) <<< 16 |||
        byteAt buf (offset + 2) <<< 8 ||| byteAt buf (offset + 3) : Nat) : Int), offset + 1 + 3)
    else if v &&& 0xe0 = 0xc0 then
      if offset + 1 + 2 > buf.length then none else
      some ((((v &&& 0x1f) <<< 16 ||| byteAt buf (offset + 1) <<< 8 |||
        byteAt buf (offset + 2) : Nat) : Int), offset + 1 + 2)
    else none

/-- Mumble varint reader, after `readMumbleVarint` in `voice-legacy.ts`.
Returns the decoded value and the offset just past the encoding; `none`
models the thrown `Unexpected EOF` (the `Invalid mumble varint prefix`
throws in the source are unreachable: the lead-byte dispatch is total). -/
def readMumbleVarint (buf : List Byte) (offset : Nat) : Option (Int × Nat) :=
  readMumbleVarintAux buf (buf.length + 1 - offset) offset

/-- Mumble varint writer, after `writeMumbleVarint` in `voice-legacy.ts`.
Negative inputs are rejected with a throw (`none`); otherwise the shortest
positive form is emitted. -/
def writeMumbleVarint (value : Int) : Option (List Byte) :=
  if value < 0 then none else
  let i := value.toNat
  if i < 0x80 then some [byte i]
  else if i < 0x4000 then some [byte (i >>> 8 ||| 0x80), byte (i &&& 0xff)]
  else if i < 0x200000 then
    some [byte (i >>> 16 ||| 0xc0), byte (i >>> 8 &&& 0xff), byte (i &&& 0xff)]
  else if i < 0x10000000 then
    some [byte (i >>> 24 ||| 0xe0), byte (i >>> 16 &&& 0xff), byte (i >>> 8 &&& 0xff),
      byte (i &&& 0xff)]
  else if i < 0x100000000 then
    some [byte 0xf0, byte (i >>> 24 &&& 0xff), byte (i >>> 16 &&& 0xff),
      byte (i >>> 8 &&& 0xff), byte (i &&& 0xff)]
  else
    some [byte 0xf4, byte (i >>> 56 &&& 0xff), byte (i >>> 48 &&& 0xff),
      byte (i >>> 40 &&& 0xff), byte (i >>> 32 &&& 0xff), byte (i >>> 24 &&& 0xff),
      byte (i >>> 16 &&& 0xff), byte (i >>> 8 &&& 0xff), byte (i &&& 0xff)]

theorem byte_val (n : Nat) : (byte n).val = n % 256 := rfl

theorem byteAt_lt (buf : List Byte) (i : Nat) : byteAt buf i < 256 := (buf.getD i (byte 0)).isLt

theorem byteAt_zero (b0 : Byte) (l : List Byte) : byteAt (b0 :: l) 0 = b0.val := rfl

theorem byteAt_one (b0 b1 : Byte) (l : List Byte) : byteAt (b0 :: b1 :: l) 1 = b1.val := rfl

theorem byteAt_two (b0 b1 b2 : Byte) (l : List Byte) :
    byteAt (b0 :: b1 :: b2 :: l) 2 = b2.val := rfl

theorem byteAt_three (b0 b1 b2 b3 : Byte) (l : List Byte) :
    byteAt (b0 :: b1 :: b2 :: b3 :: l) 3 = b3.val := rfl

theorem byteAt_four (b0 b1 b2 b3 b4 : Byte) (l : List Byte) :
    byteAt (b0 :: b1 :: b2 :: b3 :: b4 :: l) 4 = b4.val := rfl

theorem byteAt_five (b0 b1 b2 b3 b4 b5 : Byte) (l : List Byte) :
    byteAt (b0 :: b1 :: b2 :: b3 :: b4 :: b5 :: l) 5 = b5.val := rfl

theorem byteAt_six (b0 b1 b2 b3 b4 b5 b6 : Byte) (l : List Byte) :
    byteAt (b0 :: b1 :: b2 :: b3 :: b4 :: b5 :: b6 :: l) 6 = b6.val := rfl

theorem byteAt_seven (b0 b1 b2 b3 b4 b5 b6 b7 : Byte) (l : List Byte) :
    byteAt (b0 :: b1 :: b2 :: b3 :: b4 :: b5 :: b6 :: b7 :: l) 7 = b7.val := rfl

theorem byteAt_eight (b0 b1 b2 b3 b4 b5 b6 b7 b8 : Byte) (l : List Byte) :
    byteAt (b0 :: b1 :: b2 :: b3 :: b4 :: b5 :: b6 :: b7 :: b8 :: l) 8 = b8.val := rfl

theorem mul_pow_lor_eq_add {a b k : Nat} (hb : b < 2 ^ k) :
    a * 2 ^ k ||| b = a * 2 ^ k + b := by
  have h := shiftLeft_lor_eq_add (a := a) (k := k) hb
  rwa [Nat.shiftLeft_eq] at h

theorem byteStep {acc c : Nat} (hc : c < 256) : acc <<< 8 ||| c = acc * 256 + c := by
  have h := shiftLeft_lor_eq_add (a := acc) (k := 8) (b := c) (by omega)
  rw [h]
  norm_num

theorem lor128_eq {x : Nat} (hx : x < 128) : x ||| 0x80 = 128 + x := by
  rw [Nat.lor_comm]
  have h := mul_pow_lor_eq_add (a := 1) (k := 7) (b := x) (by omega)
  norm_num at h
  exact h

theorem lor192_eq {x : Nat} (hx : x < 64) : x ||| 0xc0 = 192 + x := by
  rw [Nat.lor_comm]
  have h := mul_pow_lor_eq_add (a := 3) (k := 6) (b := x) (by omega)
  norm_num at h
  exact h

theorem lor224_eq {x : Nat} (hx : x < 32) : x ||| 0xe0 = 224 + x := by
  rw [Nat.lor_comm]
  have h := mul_pow_lor_eq_add (a := 7) (k := 5) (b := x) (by omega)
  norm_num at h
  exact h

theorem and_ff (n : Nat) : n &&& 0xff = n % 256 := Nat.and_pow_two_sub_one_eq_mod n 8

theorem byteTests1 : ∀ x < 128, (x &&& 0x80 = 0) ∧ (x &&& 0x7f = x) := by decide

theorem byteTests2 : ∀ x < 64, (¬((128 + x) &&& 0x80 = 0)) ∧ ((128 + x) &&& 0xc0 = 0x80)
    ∧ ((128 + x) &&& 0x3f = x) := by decide

theorem byteTests3 : ∀ x < 32, (¬((192 + x) &&& 0x80 = 0)) ∧ (¬((192 + x) &&& 0xc0 = 0x80))
    ∧ (¬((192 + x) &&& 0xf0 = 0xf0)) ∧ (¬((192 + x) &&& 0xf0 = 0xe0))
    ∧ ((192 + x) &&& 0xe0 = 0xc0) ∧ ((192 + x) &&& 0x1f = x) := by decide

theorem byteTests4 : ∀ x < 16, (¬((224 + x) &&& 0x80 = 0)) ∧ (¬((224 + x) &&& 0xc0 = 0x80))
    ∧ (¬((224 + x) &&& 0xf0 = 0xf0)) ∧ ((224 + x) &&& 0xf0 = 0xe0)
    ∧ ((224 + x) &&& 0x0f = x) := by decide

/-- Generic evaluation: one-byte varint form. -/
theorem readMumbleVarint_case1 (b0 : Byte) (l : List Byte) (h : b0.val < 128) :
    readMumbleVarint (b0 :: l) 0 = some ((b0.val : Int), 1) := by
  obtain ⟨ht1, ht2⟩ := byteTests1 b0.val h
  rw [readMumbleVarint]
  simp only [List.length_cons, Nat.sub_zero]
  rw [readMumbleVarintAux]
  simp only [List.length_cons, byteAt_zero]
  rw [if_neg (by omega)]
  rw [if_pos ht1, ht2]

/-- Generic evaluation: two-byte varint form. -/
theorem readMumbleVarint_case2 (b0 b1 : Byte) (l : List Byte)
    (h1 : 128 ≤ b0.val) (h2 : b0.val < 192) :
    readMumbleVarint (b0 :: b1 :: l) 0
      = some ((((b0.val - 128) * 256 + b1.val : Nat) : Int), 2) := by
  obtain ⟨ht1, ht2, ht3⟩ := byteTests2 (b0.val - 128) (by omega)
  rw [show 128 + (b0.val - 128) = b0.val by omega] at ht1 ht2 ht3
  rw [readMumbleVarint]
  simp only [List.length_cons, Nat.sub_zero]
  rw [readMumbleVarintAux]
  simp only [List.length_cons, byteAt_zero]
  rw [if_neg (by omega)]
  rw [if_neg ht1, if_pos ht2]
  rw [if_neg (by omega)]
  show some ((((b0.val &&& 0x3f) <<< 8 ||| b1.val : Nat) : Int), 2) = _
  rw [ht3, byteStep b1.isLt]

/-- Generic evaluation: three-byte varint form. -/
theorem readMumbleVarint_case3 (b0 b1 b2 : Byte) (l : List Byte)
    (h1 : 192 ≤ b0.val) (h2 : b0.val < 224) :
    readMumbleVarint (b0 :: b1 :: b2 :: l) 0
      = some (((((b0.val - 192) * 256 + b1.val) * 256 + b2.val : Nat) : Int), 3) := by
  obtain ⟨ht1, ht2, ht3, ht4, ht5, ht6⟩ := byteTests3 (b0.val - 192) (by omega)
  rw [show 192 + (b0.val - 192) = b0.val by omega] at ht1 ht2 ht3 ht4 ht5 ht6
  rw [readMumbleVarint]
  simp only [List.length_cons, Nat.sub_zero]
  rw [readMumbleVarintAux]
  simp only [List.length_cons, byteAt_zero]
  rw [if_neg (by omega)]
  rw [if_neg ht1, if_neg ht2, if_neg ht3, if_neg ht4, if_pos ht5]
  rw [if_neg (by omega)]
  show some ((((b0.val &&& 0x1f) <<< 16 ||| b1.val <<< 8 ||| b2.val : Nat) : Int), 3) = _
  rw [ht6]
  rw [Nat.shiftLeft_eq, Nat.shiftLeft_eq]
  rw [mul_pow_lor_eq_add (k := 16) (by have := b1.isLt; norm_num; try omega)]
  rw [show (b0.val - 192) * 2 ^ 16 + b1.val * 2 ^ 8
      = ((b0.val - 192) * 256 + b1.val) * 2 ^ 8 by ring]
  rw [mul_pow_lor_eq_add (k := 8) (by have := b2.isLt; norm_num; try omega)]
  norm_num

/-- Generic evaluation: four-byte varint form. -/
theorem readMumbleVarint_case4 (b0 b1 b2 b3 : Byte) (l : List Byte)
    (h1 : 224 ≤ b0.val) (h2 : b0.val < 240) :
    readMumbleVarint (b0 :: b1 :: b2 :: b3 :: l) 0
      = some ((((((b0.val - 224) * 256 + b1.val) * 256 + b2.val) * 256 + b3.val : Nat)
        : Int), 4) := by
  obtain ⟨ht1, ht2, ht3, ht4, ht5⟩ := byteTests4 (b0.val - 224) (by omega)
  rw [show 224 + (b0.val - 224) = b0.val by omega] at ht1 ht2 ht3 ht4 ht5
  rw [readMumbleVarint]
  simp only [List.length_cons, Nat.sub_zero]
  rw [readMumbleVarintAux]
  simp only [List.length_cons, byteAt_zero]
  rw [if_neg (by omega)]
  rw [if_neg ht1, if_neg ht2, if_neg ht3, if_pos ht4]
  rw [if_neg (by omega)]
  show some ((((b0.val &&& 0x0f) <<< 24 ||| b1.val <<< 16 ||| b2.val <<< 8 ||| b3.val
    : Nat) : Int), 4) = _
  rw [ht5]
  rw [Nat.shiftLeft_eq, Nat.shiftLeft_eq, Nat.shiftLeft_eq]
  rw [mul_pow_lor_eq_add (k := 24) (by have := b1.isLt; norm_num; try omega)]
  rw [show (b0.val - 224) * 2 ^ 24 + b1.val * 2 ^ 16
      = ((b0.val - 224) * 256 + b1.val) * 2 ^ 16 by ring]
  rw [mul_pow_lor_eq_add (k := 16) (by have := b2.isLt; norm_num; try omega)]
  rw [show ((b0.val - 224) * 256 + b1.val) * 2 ^ 16 + b2.val * 2 ^ 8
      = (((b0.val - 224) * 256 + b1.val) * 256 + b2.val) * 2 ^ 8 by ring]
  rw [mul_pow_lor_eq_add (k := 8) (by have := b3.isLt; norm_num; try omega)]
  norm_num

/-- Generic evaluation: five-byte (32-bit) varint form. -/
theorem readMumbleVarint_case5 (b0 b1 b2 b3 b4 : Byte) (l : List Byte)
    (h0 : b0.val = 0xf0) :
    readMumbleVarint (b0 :: b1 :: b2 :: b3 :: b4 :: l) 0
      = some (((((b1.val * 256 + b2.val) * 256 + b3.val) * 256 + b4.val : Nat) : Int), 5) := by
  rw [readMumbleVarint]
  simp only [List.length_cons, Nat.sub_zero]
  rw [readMumbleVarintAux]
  simp only [List.length_cons, byteAt_zero, h0]
  rw [if_neg (by omega)]
  rw [if_neg (by decide), if_neg (by decide), if_pos (by decide), if_pos (by decide)]
  rw [if_neg (by omega)]
  show some (((b1.val <<< 24 ||| b2.val <<< 16 ||| b3.val <<< 8 ||| b4.val : Nat) : Int), 5)
    = _
  rw [Nat.shiftLeft_eq, Nat.shiftLeft_eq, Nat.shiftLeft_eq]
  rw [mul_pow_lor_eq_add (k := 24) (by have := b2.isLt; norm_num; try omega)]
  rw [show b1.val * 2 ^ 24 + b2.val * 2 ^ 16 = (b1.val * 256 + b2.val) * 2 ^ 16 by ring]
  rw [mul_pow_lor_eq_add (k := 16) (by have := b3.isLt; norm_num; try omega)]
  rw [show (b1.val * 256 + b2.val) * 2 ^ 16 + b3.val * 2 ^ 8
      = ((b1.val * 256 + b2.val) * 256 + b3.val) * 2 ^ 8 by ring]
  rw [mul_pow_lor_eq_add (k := 8) (by have := b4.isLt; norm_num; try omega)]
  norm_num

/-- Generic evaluation: nine-byte (64-bit) varint form. -/
theorem readMumbleVarint_case6 (b0 b1 b2 b3 b4 b5 b6 b7 b8 : Byte) (l : List Byte)
    (h0 : b0.val = 0xf4) :
    readMumbleVarint (b0 :: b1 :: b2 :: b3 :: b4 :: b5 :: b6 :: b7 :: b8 :: l) 0
      = some (((((((((b1.val * 256 + b2.val) * 256 + b3.val) * 256 + b4.val) * 256 + b5.val)
        * 256 + b6.val) * 256 + b7.val) * 256 + b8.val : Nat) : Int), 9) := by
  rw [readMumbleVarint]
  simp only [List.length_cons, Nat.sub_zero]
  rw [readMumbleVarintAux]
  simp only [List.length_cons, byteAt_zero, h0]
  rw [if_neg (by omega)]
  rw [if_neg (by decide), if_neg (by decide), if_pos (by decide), if_neg (by decide),
    if_pos (by decide)]
  rw [if_neg (by omega)]
  show some ((((((((((0 <<< 8 ||| b1.val) <<< 8 ||| b2.val) <<< 8 ||| b3.val) <<< 8
    ||| b4.val) <<< 8 ||| b5.val) <<< 8 ||| b6.val) <<< 8 ||| b7.val) <<< 8 ||| b8.val
    : Nat) : Int), 9) = _
  rw [byteStep b8.isLt, byteStep b7.isLt, byteStep b6.isLt, byteStep b5.isLt,
    byteStep b4.isLt, byteStep b3.isLt, byteStep b2.isLt, byteStep b1.isLt]
  norm_num

/-- Round trip of the Mumble varint codec: reading back a written value
recovers it, positioned right past the encoding. -/
theorem writeMumbleVarint_roundtrip (n : Nat) (hn : n < 2 ^ 64) :
    ∃ w, writeMumbleVarint (n : Int) = some w ∧
      readMumbleVarint w 0 = some ((n : Int), w.length) := by
  have hznn : ¬((n : Int) < 0) := by omega
  have htn : ((n : Int)).toNat = n := Int.toNat_natCast n
  have hsr8 : n >>> 8 = n / 256 := by rw [Nat.shiftRight_eq_div_pow]
  have hsr16 : n >>> 16 = n / 65536 := by rw [Nat.shiftRight_eq_div_pow]
  have hsr24 : n >>> 24 = n / 16777216 := by rw [Nat.shiftRight_eq_div_pow]
  have hsr32 : n >>> 32 = n / 4294967296 := by rw [Nat.shiftRight_eq_div_pow]
  have hsr40 : n >>> 40 = n / 1099511627776 := by rw [Nat.shiftRight_eq_div_pow]
  have hsr48 : n >>> 48 = n / 281474976710656 := by rw [Nat.shiftRight_eq_div_pow]
  have hsr56 : n >>> 56 = n / 72057594037927936 := by rw [Nat.shiftRight_eq_div_pow]
  rcases Nat.lt_or_ge n 0x80 with hc | hc1
  · refine ⟨[byte n], ?_, ?_⟩
    · rw [writeMumbleVarint, if_neg hznn]
      simp only [htn]
      rw [if_pos hc]
    · have hbv : (byte n).val = n := by rw [byte_val]; omega
      rw [readMumbleVarint_case1 _ _ (by rw [hbv]; omega)]
      rw [hbv]
      norm_num
  · rcases Nat.lt_or_ge n 0x4000 with hc | hc2
    · refine ⟨[byte (n >>> 8 ||| 0x80), byte (n &&& 0xff)], ?_, ?_⟩
      · rw [writeMumbleVarint, if_neg hznn]
        simp only [htn]
        rw [if_neg (by omega), if_pos hc]
      · have hA : (byte (n >>> 8 ||| 0x80)).val = 128 + n / 256 := by
          rw [byte_val, hsr8, lor128_eq (by omega)]
          exact Nat.mod_eq_of_lt (by omega)
        have hB : (byte (n &&& 0xff)).val = n % 256 := by
          rw [byte_val, and_ff]; omega
        rw [readMumbleVarint_case2 _ _ _ (by rw [hA]; omega) (by rw [hA]; omega)]
        rw [hA, hB]
        simp only [List.length_cons, List.length_nil, Option.some.injEq, Prod.mk.injEq]
        refine ⟨?_, by norm_num⟩
        push_cast
        omega
    · rcases Nat.lt_or_ge n 0x200000 with hc | hc3
      · refine ⟨[byte (n >>> 16 ||| 0xc0), byte (n >>> 8 &&& 0xff), byte (n &&& 0xff)],
          ?_, ?_⟩
        · rw [writeMumbleVarint, if_neg hznn]
          simp only [htn]
          rw [if_neg (by omega), if_neg (by omega), if_pos hc]
        · have hA : (byte (n >>> 16 ||| 0xc0)).val = 192 + n / 65536 := by
            rw [byte_val, hsr16, lor192_eq (by omega)]
            exact Nat.mod_eq_of_lt (by omega)
          have hB : (byte (n >>> 8 &&& 0xff)).val = n / 256 % 256 := by
            rw [byte_val, and_ff, hsr8]; omega
          have hC : (byte (n &&& 0xff)).val = n % 256 := by
            rw [byte_val, and_ff]; omega
          rw [readMumbleVarint_case3 _ _ _ _ (by rw [hA]; omega) (by rw [hA]; omega)]
          rw [hA, hB, hC]
          simp only [List.length_cons, List.length_nil, Option.some.injEq, Prod.mk.injEq]
          refine ⟨?_, by norm_num⟩
          push_cast
          omega
      · rcases Nat.lt_or_ge n 0x10000000 with hc | hc4
        · refine ⟨[byte (n >>> 24 ||| 0xe0), byte (n >>> 16 &&& 0xff),
            byte (n >>> 8 &&& 0xff), byte (n &&& 0xff)], ?_, ?_⟩
          · rw [writeMumbleVarint, if_neg hznn]
            simp only [htn]
            rw [if_neg (by omega), if_neg (by omega), if_neg (by omega), if_pos hc]
          · have hA : (byte (n >>> 24 ||| 0xe0)).val = 224 + n / 16777216 := by
              rw [byte_val, hsr24, lor224_eq (by omega)]
              exact Nat.mod_eq_of_lt (by omega)
            have hB : (byte (n >>> 16 &&& 0xff)).val = n / 65536 % 256 := by
              rw [byte_val, and_ff, hsr16]; omega
            have hC : (byte (n >>> 8 &&& 0xff)).val = n / 256 % 256 := by
              rw [byte_val, and_ff, hsr8]; omega
            have hD : (byte (n &&& 0xff)).val = n % 256 := by
              rw [byte_val, and_ff]; omega
            rw [readMumbleVarint_case4 _ _ _ _ _ (by rw [hA]; omega) (by rw [hA]; omega)]
            rw [hA, hB, hC, hD]
            simp only [List.length_cons, List.length_nil, Option.some.injEq, Prod.mk.injEq]
            refine ⟨?_, by norm_num⟩
            push_cast
            omega
        · rcases Nat.lt_or_ge n 0x100000000 with hc | hc5
          · refine ⟨[byte 0xf0, byte (n >>> 24 &&& 0xff), byte (n >>> 16 &&& 0xff),
              byte (n >>> 8 &&& 0xff), byte (n &&& 0xff)], ?_, ?_⟩
            · rw [writeMumbleVarint, if_neg hznn]
              simp only [htn]
              rw [if_neg (by omega), if_neg (by omega), if_neg (by omega),
                if_neg (by omega), if_pos hc]
            · have hA : (byte (n >>> 24 &&& 0xff)).val = n / 16777216 % 256 := by
                rw [byte_val, and_ff, hsr24]; omega
              have hB : (byte (n >>> 16 &&& 0xff)).val = n / 65536 % 256 := by
                rw [byte_val, and_ff, hsr16]; omega
              have hC : (byte (n >>> 8 &&& 0xff)).val = n / 256 % 256 := by
                rw [byte_val, and_ff, hsr8]; omega
              have hD : (byte (n &&& 0xff)).val = n % 256 := by
                rw [byte_val, and_ff]; omega
              rw [readMumbleVarint_case5 _ _ _ _ _ _ rfl]
              rw [hA, hB, hC, hD]
              simp only [List.length_cons, List.length_nil, Option.some.injEq, Prod.mk.injEq]
              refine ⟨?_, by norm_num⟩
              push_cast
              omega
          · refine ⟨[byte 0xf4, byte (n >>> 56 &&& 0xff), byte (n >>> 48 &&& 0xff),
              byte (n >>> 40 &&& 0xff), byte (n >>> 32 &&& 0xff), byte (n >>> 24 &&& 0xff),
              byte (n >>> 16 &&& 0xff), byte (n >>> 8 &&& 0xff), byte (n &&& 0xff)], ?_, ?_⟩
            · rw [writeMumbleVarint, if_neg hznn]
              simp only [htn]
              rw [if_neg (by omega), if_neg (by omega), if_neg (by omega),
                if_neg (by omega), if_neg (by omega)]
            · have hB1 : (byte (n >>> 56 &&& 0xff)).val = n / 72057594037927936 % 256 := by
                rw [byte_val, and_ff, hsr56]; omega
              have hB2 : (byte (n >>> 48 &&& 0xff)).val = n / 281474976710656 % 256 := by
                rw [byte_val, and_ff, hsr48]; omega
              have hB3 : (byte (n >>> 40 &&& 0xff)).val = n / 1099511627776 % 256 := by
                rw [byte_val, and_ff, hsr40]; omega
              have hB4 : (byte (n >>> 32 &&& 0xff)).val = n / 4294967296 % 256 := by
                rw [byte_val, and_ff, hsr32]; omega
              have hB5 : (byte (n >>> 24 &&& 0xff)).val = n / 16777216 % 256 := by
                rw [byte_val, and_ff, hsr24]; omega
              have hB6 : (byte (n >>> 16 &&& 0xff)).val = n / 65536 % 256 := by
                rw [byte_val, and_ff, hsr16]; omega
              have hB7 : (byte (n >>> 8 &&& 0xff)).val = n / 256 % 256 := by
                rw [byte_val, and_ff, hsr8]; omega
              have hB8 : (byte (n &&& 0xff)).val = n % 256 := by
                rw [byte_val, and_ff]; omega
              rw [readMumbleVarint_case6 _ _ _ _ _ _ _ _ _ _ rfl]
              rw [hB1, hB2, hB3, hB4, hB5, hB6, hB7, hB8]
              rw [Nat.mod_eq_of_lt (show n / 72057594037927936 < 256 by omega)]
              rw [show n / 72057594037927936 = n / 281474976710656 / 256 by
                rw [Nat.div_div_eq_div_mul]]
              rw [show n / 281474976710656 / 256 * 256 + n / 281474976710656 % 256
                  = n / 281474976710656 by omega]
              rw [show n / 281474976710656 = n / 1099511627776 / 256 by
                rw [Nat.div_div_eq_div_mul]]
              rw [show n / 1099511627776 / 256 * 256 + n / 1099511627776 % 256
                  = n / 1099511627776 by omega]
              rw [show n / 1099511627776 = n / 4294967296 / 256 by
                rw [Nat.div_div_eq_div_mul]]
              rw [show n / 4294967296 / 256 * 256 + n / 4294967296 % 256
                  = n / 4294967296 by omega]
              rw [show n / 4294967296 = n / 16777216 / 256 by
                rw [Nat.div_div_eq_div_mul]]
              rw [show n / 16777216 / 256 * 256 + n / 16777216 % 256
                  = n / 16777216 by omega]
              rw [show n / 16777216 = n / 65536 / 256 by
                rw [Nat.div_div_eq_div_mul]]
              rw [show n / 65536 / 256 * 256 + n / 65536 % 256 = n / 65536 by omega]
              rw [show n / 65536 = n / 256 / 256 by
                rw [Nat.div_div_eq_div_mul]]
              rw [show n / 256 / 256 * 256 + n / 256 % 256 = n / 256 by omega]
              rw [show n / 256 * 256 + n % 256 = n by omega]
              norm_num

/-- Reading consumes at least one byte and stays within the buffer. -/
theorem readMumbleVarintAux_bounds (buf : List Byte) : ∀ (fuel0 x0 : Nat) (v : Int) (k : Nat),
    readMumbleVarintAux buf fuel0 x0 = some (v, k) → x0 < k ∧ k ≤ buf.length := by
  intro fuel0 x0
  induction fuel0, x0 using readMumbleVarintAux.induct buf with
  | case1 x =>
    intro v k h
    rw [readMumbleVarintAux] at h
    exact absurd h (by simp)
  | case2 fuel x hx =>
    intro v k h
    rw [readMumbleVarintAux, if_pos hx] at h
    exact absurd h (by simp)
  | case3 fuel x hx v0 h1 =>
    intro v k h
    rw [readMumbleVarintAux, if_neg hx, if_pos h1] at h
    simp only [Option.some.injEq, Prod.mk.injEq] at h
    omega
  | case4 fuel x hx v0 h1 h2 hg =>
    intro v k h
    rw [readMumbleVarintAux, if_neg hx, if_neg h1, if_pos h2, if_pos hg] at h
    exact absurd h (by simp)
  | case5 fuel x hx v0 h1 h2 hg =>
    intro v k h
    rw [readMumbleVarintAux, if_neg hx, if_neg h1, if_pos h2, if_neg hg] at h
    simp only [Option.some.injEq, Prod.mk.injEq] at h
    omega
  | case6 fuel x hx v0 h1 h2 h3 h4 hg =>
    intro v k h
    rw [readMumbleVarintAux, if_neg hx, if_neg h1, if_neg h2, if_pos h3, if_pos h4,
      if_pos hg] at h
    exact absurd h (by simp)
  | case7 fuel x hx v0 h1 h2 h3 h4 hg =>
    intro v k h
    rw [readMumbleVarintAux, if_neg hx, if_neg h1, if_neg h2, if_pos h3, if_pos h4,
      if_neg hg] at h
    simp only [Option.some.injEq, Prod.mk.injEq] at h
    omega
  | case8 fuel x hx v0 h1 h2 h3 h4 h5 hg =>
    intro v k h
    rw [readMumbleVarintAux, if_neg hx, if_neg h1, if_neg h2, if_pos h3, if_neg h4, if_pos h5,
      if_pos hg] at h
    exact absurd h (by simp)
  | case9 fuel x hx v0 h1 h2 h3 h4 h5 hg =>
    intro v k h
    rw [readMumbleVarintAux, if_neg hx, if_neg h1, if_neg h2, if_pos h3, if_neg h4, if_pos h5,
      if_neg hg] at h
    simp only [Option.some.injEq, Prod.mk.injEq] at h
    omega
  | case10 fuel x hx v0 h1 h2 h3 h4 h5 h6 hrec ih =>
    intro v k h
    rw [readMumbleVarintAux, if_neg hx, if_neg h1, if_neg h2, if_pos h3, if_neg h4, if_neg h5,
      if_pos h6, hrec] at h
    exact absurd h (by simp)
  | case11 fuel x hx v0 h1 h2 h3 h4 h5 h6 inner o hrec ih =>
    intro v k h
    rw [readMumbleVarintAux, if_neg hx, if_neg h1, if_neg h2, if_pos h3, if_neg h4, if_neg h5,
      if_pos h6, hrec] at h
    simp only [Option.some.injEq, Prod.mk.injEq] at h
    have hb := ih inner o hrec
    omega
  | case12 fuel x hx v0 h1 h2 h3 h4 h5 h6 =>
    intro v k h
    rw [readMumbleVarintAux, if_neg hx, if_neg h1, if_neg h2, if_pos h3, if_neg h4, if_neg h5,
      if_neg h6] at h
    simp only [Option.some.injEq, Prod.mk.injEq] at h
    omega
  | case13 fuel x hx v0 h1 h2 h3 h4 hg =>
    intro v k h
    rw [readMumbleVarintAux, if_neg hx, if_neg h1, if_neg h2, if_neg h3, if_pos h4,
      if_pos hg] at h
    exact absurd h (by simp)
  | case14 fuel x hx v0 h1 h2 h3 h4 hg =>
    intro v k h
    rw [readMumbleVarintAux, if_neg hx, if_neg h1, if_neg h2, if_neg h3, if_pos h4,
      if_neg hg] at h
    simp only [Option.some.injEq, Prod.mk.injEq] at h
    omega
  | case15 fuel x hx v0 h1 h2 h3 h4 h5 hg =>
    intro v k h
    rw [readMumbleVarintAux, if_neg hx, if_neg h1, if_neg h2, if_neg h3, if_neg h4, if_pos h5,
      if_pos hg] at h
    exact absurd h (by simp)
  | case16 fuel x hx v0 h1 h2 h3 h4 h5 hg =>
    intro v k h
    rw [readMumbleVarintAux, if_neg hx, if_neg h1, if_neg h2, if_neg h3, if_neg h4, if_pos h5,
      if_neg hg] at h
    simp only [Option.some.injEq, Prod.mk.injEq] at h
    omega
  | case17 fuel x hx v0 h1 h2 h3 h4 h5 =>
    intro v k h
    rw [readMumbleVarintAux, if_neg hx, if_neg h1, if_neg h2, if_neg h3, if_neg h4,
      if_neg h5] at h
    exact absurd h (by simp)
theorem readMumbleVarint_bounds (buf : List Byte) (x : Nat) (v : Int) (k : Nat)
    (h : readMumbleVarint buf x = some (v, k)) : x < k ∧ k ≤ buf.length :=
  readMumbleVarintAux_bounds buf _ x v k h


theorem orBytes3 {a b c : Nat} (hb : b < 256) (hc : c < 256) :
    a <<< 16 ||| b <<< 8 ||| c = (a * 256 + b) * 256 + c := by
  rw [Nat.shiftLeft_eq, Nat.shiftLeft_eq]
  rw [mul_pow_lor_eq_add (k := 16) (by norm_num; try omega)]
  rw [show a * 2 ^ 16 + b * 2 ^ 8 = (a * 256 + b) * 2 ^ 8 by ring]
  rw [mul_pow_lor_eq_add (k := 8) (by norm_num; try omega)]
  norm_num

theorem orBytes4 {a b c d : Nat} (hb : b < 256) (hc : c < 256) (hd : d < 256) :
    a <<< 24 ||| b <<< 16 ||| c <<< 8 ||| d = ((a * 256 + b) * 256 + c) * 256 + d := by
  rw [Nat.shiftLeft_eq, Nat.shiftLeft_eq, Nat.shiftLeft_eq]
  rw [mul_pow_lor_eq_add (k := 24) (by norm_num; try omega)]
  rw [show a * 2 ^ 24 + b * 2 ^ 16 = (a * 256 + b) * 2 ^ 16 by ring]
  rw [mul_pow_lor_eq_add (k := 16) (by norm_num; try omega)]
  rw [show (a * 256 + b) * 2 ^ 16 + c * 2 ^ 8 = ((a * 256 + b) * 256 + c) * 2 ^ 8 by ring]
  rw [mul_pow_lor_eq_add (k := 8) (by norm_num; try omega)]
  norm_num

theorem intNot_intNot (v : Int) : intNot (intNot v) = v := by
  simp only [intNot]
  ring

/-- Length of the shortest admissible Mumble varint encoding of a value. -/
def varintMinLen (v : Int) : Nat :=
  if 0 ≤ v then
    if v < 0x80 then 1 else if v < 0x4000 then 2 else if v < 0x200000 then 3
    else if v < 0x10000000 then 4 else if v < 0x100000000 then 5 else 9
  else if intNot v ≤ 3 then 1 else 1 + varintMinLen (intNot v)
termination_by v.natAbs
decreasing_by
  simp only [intNot]
  omega

theorem varintMinLen_le1 {v : Int} (h0 : 0 ≤ v) (h1 : v < 0x80) : varintMinLen v = 1 := by
  rw [varintMinLen, if_pos h0, if_pos h1]

theorem varintMinLen_le2 {v : Int} (h0 : 0 ≤ v) (h1 : v < 0x4000) : varintMinLen v ≤ 2 := by
  rw [varintMinLen, if_pos h0]
  split_ifs <;> omega

theorem varintMinLen_le3 {v : Int} (h0 : 0 ≤ v) (h1 : v < 0x200000) : varintMinLen v ≤ 3 := by
  rw [varintMinLen, if_pos h0]
  split_ifs <;> omega

theorem varintMinLen_le4 {v : Int} (h0 : 0 ≤ v) (h1 : v < 0x10000000) :
    varintMinLen v ≤ 4 := by
  rw [varintMinLen, if_pos h0]
  split_ifs <;> omega

theorem varintMinLen_le5 {v : Int} (h0 : 0 ≤ v) (h1 : v < 0x100000000) :
    varintMinLen v ≤ 5 := by
  rw [varintMinLen, if_pos h0]
  split_ifs <;> omega

theorem varintMinLen_le9 {v : Int} (h0 : 0 ≤ v) : varintMinLen v ≤ 9 := by
  rw [varintMinLen, if_pos h0]
  split_ifs <;> omega

theorem varintMinLen_neg_small (m : Nat) (hm : m ≤ 3) :
    varintMinLen (intNot (m : Nat)) = 1 := by
  rw [varintMinLen, if_neg (by simp only [intNot]; omega), if_pos]
  rw [intNot_intNot]
  exact_mod_cast hm

theorem varintMinLen_not (w : Int) : varintMinLen (intNot w) ≤ 1 + varintMinLen w := by
  rcases le_or_lt 0 w with hw | hw
  · rw [varintMinLen]
    rw [if_neg (by simp only [intNot]; omega)]
    rw [intNot_intNot]
    split_ifs <;> omega
  · conv_rhs => rw [varintMinLen]
    rw [if_neg (by omega)]
    have hnn : 0 ≤ intNot w := by simp only [intNot]; omega
    split_ifs with hsm
    · rw [varintMinLen, if_pos hnn, if_pos (by omega)]
      omega
    · omega

/-- Any successful read of a value consumes at least the shortest encoding length. -/
theorem readMumbleVarintAux_minLen (buf : List Byte) : ∀ (fuel0 x0 : Nat) (v : Int) (k : Nat),
    readMumbleVarintAux buf fuel0 x0 = some (v, k) → varintMinLen v ≤ k - x0 := by
  intro fuel0 x0
  induction fuel0, x0 using readMumbleVarintAux.induct buf with
  | case1 x =>
    intro v k h
    rw [readMumbleVarintAux] at h
    exact absurd h (by simp)
  | case2 fuel x hx =>
    intro v k h
    rw [readMumbleVarintAux, if_pos hx] at h
    exact absurd h (by simp)
  | case3 fuel x hx v0 h1 =>
    intro v k h
    rw [readMumbleVarintAux, if_neg hx, if_pos h1] at h
    simp only [Option.some.injEq, Prod.mk.injEq] at h
    obtain ⟨hv, hk⟩ := h
    have hle : byteAt buf x &&& 127 ≤ 127 := Nat.and_le_right
    rw [varintMinLen_le1 (by omega) (by omega)]
    omega
  | case4 fuel x hx v0 h1 h2 hg =>
    intro v k h
    rw [readMumbleVarintAux, if_neg hx, if_neg h1, if_pos h2, if_pos hg] at h
    exact absurd h (by simp)
  | case5 fuel x hx v0 h1 h2 hg =>
    intro v k h
    rw [readMumbleVarintAux, if_neg hx, if_neg h1, if_pos h2, if_neg hg] at h
    simp only [Option.some.injEq, Prod.mk.injEq] at h
    obtain ⟨hv, hk⟩ := h
    have hm : byteAt buf x &&& 63 ≤ 63 := Nat.and_le_right
    have hb := byteAt_lt buf (x + 1)
    rw [byteStep hb] at hv
    have h2b : varintMinLen v ≤ 2 := varintMinLen_le2 (by omega) (by omega)
    omega
  | case6 fuel x hx v0 h1 h2 h3 h4 hg =>
    intro v k h
    rw [readMumbleVarintAux, if_neg hx, if_neg h1, if_neg h2, if_pos h3, if_pos h4,
      if_pos hg] at h
    exact absurd h (by simp)
  | case7 fuel x hx v0 h1 h2 h3 h4 hg =>
    intro v k h
    rw [readMumbleVarintAux, if_neg hx, if_neg h1, if_neg h2, if_pos h3, if_pos h4,
      if_neg hg] at h
    simp only [Option.some.injEq, Prod.mk.injEq] at h
    obtain ⟨hv, hk⟩ := h
    have hb1 := byteAt_lt buf (x + 1)
    have hb2 := byteAt_lt buf (x + 2)
    have hb3 := byteAt_lt buf (x + 3)
    have hb4 := byteAt_lt buf (x + 4)
    rw [orBytes4 hb2 hb3 hb4] at hv
    have h5b : varintMinLen v ≤ 5 := varintMinLen_le5 (by omega) (by push_cast [← hv]; omega)
    omega
  | case8 fuel x hx v0 h1 h2 h3 h4 h5 hg =>
    intro v k h
    rw [readMumbleVarintAux, if_neg hx, if_neg h1, if_neg h2, if_pos h3, if_neg h4, if_pos h5,
      if_pos hg] at h
    exact absurd h (by simp)
  | case9 fuel x hx v0 h1 h2 h3 h4 h5 hg =>
    intro v k h
    rw [readMumbleVarintAux, if_neg hx, if_neg h1, if_neg h2, if_pos h3, if_neg h4, if_pos h5,
      if_neg hg] at h
    simp only [Option.some.injEq, Prod.mk.injEq] at h
    obtain ⟨hv, hk⟩ := h
    have h9b : varintMinLen v ≤ 9 := varintMinLen_le9 (by omega)
    omega
  | case10 fuel x hx v0 h1 h2 h3 h4 h5 h6 hrec ih =>
    intro v k h
    rw [readMumbleVarintAux, if_neg hx, if_neg h1, if_neg h2, if_pos h3, if_neg h4, if_neg h5,
      if_pos h6, hrec] at h
    exact absurd h (by simp)
  | case11 fuel x hx v0 h1 h2 h3 h4 h5 h6 inner o hrec ih =>
    intro v k h
    rw [readMumbleVarintAux, if_neg hx, if_neg h1, if_neg h2, if_pos h3, if_neg h4, if_neg h5,
      if_pos h6, hrec] at h
    simp only [Option.some.injEq, Prod.mk.injEq] at h
    obtain ⟨hv, hk⟩ := h
    have hmin := ih inner o hrec
    have hnot := varintMinLen_not inner
    have hb := readMumbleVarintAux_bounds buf fuel (x + 1) inner o hrec
    subst hv hk
    omega
  | case12 fuel x hx v0 h1 h2 h3 h4 h5 h6 =>
    intro v k h
    rw [readMumbleVarintAux, if_neg hx, if_neg h1, if_neg h2, if_pos h3, if_neg h4, if_neg h5,
      if_neg h6] at h
    simp only [Option.some.injEq, Prod.mk.injEq] at h
    obtain ⟨hv, hk⟩ := h
    have hm : byteAt buf x &&& 3 ≤ 3 := Nat.and_le_right
    rw [← hv, varintMinLen_neg_small _ hm]
    omega
  | case13 fuel x hx v0 h1 h2 h3 h4 hg =>
    intro v k h
    rw [readMumbleVarintAux, if_neg hx, if_neg h1, if_neg h2, if_neg h3, if_pos h4,
      if_pos hg] at h
    exact absurd h (by simp)
  | case14 fuel x hx v0 h1 h2 h3 h4 hg =>
    intro v k h
    rw [readMumbleVarintAux, if_neg hx, if_neg h1, if_neg h2, if_neg h3, if_pos h4,
      if_neg hg] at h
    simp only [Option.some.injEq, Prod.mk.injEq] at h
    obtain ⟨hv, hk⟩ := h
    have hm : byteAt buf x &&& 15 ≤ 15 := Nat.and_le_right
    have hb1 := byteAt_lt buf (x + 1)
    have hb2 := byteAt_lt buf (x + 2)
    have hb3 := byteAt_lt buf (x + 3)
    rw [orBytes4 hb1 hb2 hb3] at hv
    have h4b : varintMinLen v ≤ 4 := varintMinLen_le4 (by omega) (by push_cast [← hv]; omega)
    omega
  | case15 fuel x hx v0 h1 h2 h3 h4 h5 hg =>
    intro v k h
    rw [readMumbleVarintAux, if_neg hx, if_neg h1, if_neg h2, if_neg h3, if_neg h4, if_pos h5,
      if_pos hg] at h
    exact absurd h (by simp)
  | case16 fuel x hx v0 h1 h2 h3 h4 h5 hg =>
    intro v k h
    rw [readMumbleVarintAux, if_neg hx, if_neg h1, if_neg h2, if_neg h3, if_neg h4, if_pos h5,
      if_neg hg] at h
    simp only [Option.some.injEq, Prod.mk.injEq] at h
    obtain ⟨hv, hk⟩ := h
    have hm : byteAt buf x &&& 31 ≤ 31 := Nat.and_le_right
    have hb1 := byteAt_lt buf (x + 1)
    have hb2 := byteAt_lt buf (x + 2)
    rw [orBytes3 hb1 hb2] at hv
    have h3b : varintMinLen v ≤ 3 := varintMinLen_le3 (by omega) (by push_cast [← hv]; omega)
    omega
  | case17 fuel x hx v0 h1 h2 h3 h4 h5 =>
    intro v k h
    rw [readMumbleVarintAux, if_neg hx, if_neg h1, if_neg h2, if_neg h3, if_neg h4,
      if_neg h5] at h
    exact absurd h (by simp)

theorem readMumbleVarint_minLen (buf : List Byte) (x : Nat) (v : Int) (k : Nat)
    (h : readMumbleVarint buf x = some (v, k)) : varintMinLen v ≤ k - x :=
  readMumbleVarintAux_minLen buf _ x v k h


theorem writeMumbleVarint_length (n : Nat) (w : List Byte)
    (hw : writeMumbleVarint (n : Int) = some w) : w.length = varintMinLen (n : Int) := by
  rw [writeMumbleVarint, if_neg (by omega)] at hw
  simp only [Int.toNat_natCast] at hw
  rw [varintMinLen, if_pos (by omega)]
  split_ifs at hw with h1 h2 h3 h4 h5 <;>
    (simp only [Option.some.injEq] at hw; subst hw) <;>
    simp only [List.length_cons, List.length_nil]
  · rw [if_pos (by omega)]
  · rw [if_neg (by omega), if_pos (by omega)]
  · rw [if_neg (by omega), if_neg (by omega), if_pos (by omega)]
  · rw [if_neg (by omega), if_neg (by omega), if_neg (by omega), if_pos (by omega)]
  · rw [if_neg (by omega), if_neg (by omega), if_neg (by omega), if_neg (by omega),
      if_pos (by omega)]
  · rw [if_neg (by omega), if_neg (by omega), if_neg (by omega), if_neg (by omega),
      if_neg (by omega)]

/-- C3: for every non-negative integer n below 2^64, reading back the written
Mumble varint returns value n with ending offset equal to the encoding length,
and the written encoding is the shortest admissible one: no buffer read at
offset 0 can produce the value n while consuming fewer bytes. -/
theorem claimC3_varint_roundtrip_shortest (n : Nat) (hn : n < 2 ^ 64) :
    ∃ w, writeMumbleVarint (n : Int) = some w ∧
      readMumbleVarint w 0 = some ((n : Int), w.length) ∧
      ∀ (b : List Byte) (k : Nat), readMumbleVarint b 0 = some ((n : Int), k) →
        w.length ≤ k := by
  obtain ⟨w, hw, hr⟩ := writeMumbleVarint_roundtrip n hn
  refine ⟨w, hw, hr, ?_⟩
  intro b k hb
  have hmin := readMumbleVarint_minLen b 0 _ _ hb
  have hlen := writeMumbleVarint_length n w hw
  omega

/-- Witness for C3 at the concrete input n = 1234567. -/
theorem claimC3_varint_roundtrip_shortest_witness :
    1234567 < 2 ^ 64 ∧
    (∃ w, writeMumbleVarint ((1234567 : Nat) : Int) = some w ∧
      readMumbleVarint w 0 = some (((1234567 : Nat) : Int), w.length) ∧
      ∀ (b : List Byte) (k : Nat),
        readMumbleVarint b 0 = some (((1234567 : Nat) : Int), k) → w.length ≤ k) :=
  ⟨by norm_num, claimC3_varint_roundtrip_shortest 1234567 (by norm_num)⟩

theorem byteAt_append_left {buf : List Byte} (ext : List Byte) {i : Nat}
    (h : i < buf.length) : byteAt (buf ++ ext) i = byteAt buf i :=
  congrArg Fin.val (List.getD_append buf ext (byte 0) i h)

theorem byteAt_append_right (pre : List Byte) {rest : List Byte} (i : Nat) :
    byteAt (pre ++ rest) (pre.length + i) = byteAt rest i := by
  unfold byteAt
  rw [List.getD_append_right pre rest (byte 0) (pre.length + i) (by omega)]
  rw [show pre.length + i - pre.length = i by omega]

/-- Appending extra bytes after a buffer does not change a successful read. -/
theorem readMumbleVarintAux_ext (buf ext : List Byte) : ∀ (fuel0 x0 : Nat) (v : Int) (k : Nat)
    (fuel2 : Nat), fuel0 ≤ fuel2 → readMumbleVarintAux buf fuel0 x0 = some (v, k) →
    readMumbleVarintAux (buf ++ ext) fuel2 x0 = some (v, k) := by
  intro fuel0 x0
  induction fuel0, x0 using readMumbleVarintAux.induct buf with
  | case1 x =>
    intro v k fuel2 hf2 h
    rw [readMumbleVarintAux] at h
    exact absurd h (by simp)
  | case2 fuel x hx =>
    intro v k fuel2 hf2 h
    obtain ⟨f2, rfl⟩ : ∃ f2, fuel2 = f2 + 1 := ⟨fuel2 - 1, by omega⟩
    rw [readMumbleVarintAux, if_pos hx] at h
    exact absurd h (by simp)
  | case3 fuel x hx v0 h1 =>
    intro v k fuel2 hf2 h
    obtain ⟨f2, rfl⟩ : ∃ f2, fuel2 = f2 + 1 := ⟨fuel2 - 1, by omega⟩
    rw [readMumbleVarintAux, if_neg hx, if_pos h1] at h
    have e0 : byteAt (buf ++ ext) x = byteAt buf x := byteAt_append_left ext (by omega)
    rw [readMumbleVarintAux, if_neg (by simp only [List.length_append]; omega)]
    simp only [e0]
    rw [if_pos h1]
    exact h
  | case4 fuel x hx v0 h1 h2 hg =>
    intro v k fuel2 hf2 h
    obtain ⟨f2, rfl⟩ : ∃ f2, fuel2 = f2 + 1 := ⟨fuel2 - 1, by omega⟩
    rw [readMumbleVarintAux, if_neg hx, if_neg h1, if_pos h2, if_pos hg] at h
    exact absurd h (by simp)
  | case5 fuel x hx v0 h1 h2 hg =>
    intro v k fuel2 hf2 h
    obtain ⟨f2, rfl⟩ : ∃ f2, fuel2 = f2 + 1 := ⟨fuel2 - 1, by omega⟩
    rw [readMumbleVarintAux, if_neg hx, if_neg h1, if_pos h2, if_neg hg] at h
    have e0 : byteAt (buf ++ ext) x = byteAt buf x := byteAt_append_left ext (by omega)
    have e1 : byteAt (buf ++ ext) (x + 1) = byteAt buf (x + 1) :=
      byteAt_append_left ext (by omega)
    rw [readMumbleVarintAux, if_neg (by simp only [List.length_append]; omega)]
    simp only [e0, e1]
    rw [if_neg h1, if_pos h2, if_neg (by simp only [List.length_append]; omega)]
    exact h
  | case6 fuel x hx v0 h1 h2 h3 h4 hg =>
    intro v k fuel2 hf2 h
    obtain ⟨f2, rfl⟩ : ∃ f2, fuel2 = f2 + 1 := ⟨fuel2 - 1, by omega⟩
    rw [readMumbleVarintAux, if_neg hx, if_neg h1, if_neg h2, if_pos h3, if_pos h4,
      if_pos hg] at h
    exact absurd h (by simp)
  | case7 fuel x hx v0 h1 h2 h3 h4 hg =>
    intro v k fuel2 hf2 h
    obtain ⟨f2, rfl⟩ : ∃ f2, fuel2 = f2 + 1 := ⟨fuel2 - 1, by omega⟩
    rw [readMumbleVarintAux, if_neg hx, if_neg h1, if_neg h2, if_pos h3, if_pos h4,
      if_neg hg] at h
    have e0 : byteAt (buf ++ ext) x = byteAt buf x := byteAt_append_left ext (by omega)
    have e1 : byteAt (buf ++ ext) (x + 1) = byteAt buf (x + 1) :=
      byteAt_append_left ext (by omega)
    have e2 : byteAt (buf ++ ext) (x + 2) = byteAt buf (x + 2) :=
      byteAt_append_left ext (by omega)
    have e3 : byteAt (buf ++ ext) (x + 3) = byteAt buf (x + 3) :=
      byteAt_append_left ext (by omega)
    have e4 : byteAt (buf ++ ext) (x + 4) = byteAt buf (x + 4) :=
      byteAt_append_left ext (by omega)
    rw [readMumbleVarintAux, if_neg (by simp only [List.length_append]; omega)]
    simp only [e0, e1, e2, e3, e4]
    rw [if_neg h1, if_neg h2, if_pos h3, if_pos h4,
      if_neg (by simp only [List.length_append]; omega)]
    exact h
  | case8 fuel x hx v0 h1 h2 h3 h4 h5 hg =>
    intro v k fuel2 hf2 h
    obtain ⟨f2, rfl⟩ : ∃ f2, fuel2 = f2 + 1 := ⟨fuel2 - 1, by omega⟩
    rw [readMumbleVarintAux, if_neg hx, if_neg h1, if_neg h2, if_pos h3, if_neg h4, if_pos h5,
      if_pos hg] at h
    exact absurd h (by simp)
  | case9 fuel x hx v0 h1 h2 h3 h4 h5 hg =>
    intro v k fuel2 hf2 h
    obtain ⟨f2, rfl⟩ : ∃ f2, fuel2 = f2 + 1 := ⟨fuel2 - 1, by omega⟩
    rw [readMumbleVarintAux, if_neg hx, if_neg h1, if_neg h2, if_pos h3, if_neg h4, if_pos h5,
      if_neg hg] at h
    have e0 : byteAt (buf ++ ext) x = byteAt buf x := byteAt_append_left ext (by omega)
    rw [readMumbleVarintAux, if_neg (by simp only [List.length_append]; omega)]
    simp only [e0]
    rw [if_neg h1, if_neg h2, if_pos h3, if_neg h4, if_pos h5,
      if_neg (by simp only [List.length_append]; omega)]
    rw [show List.range 8 = [0, 1, 2, 3, 4, 5, 6, 7] from by decide] at h ⊢
    simp only [List.foldl_cons, List.foldl_nil] at h ⊢
    have f0 : byteAt (buf ++ ext) (x + 1 + 0) = byteAt buf (x + 1 + 0) :=
      byteAt_append_left ext (by omega)
    have f1 : byteAt (buf ++ ext) (x + 1 + 1) = byteAt buf (x + 1 + 1) :=
      byteAt_append_left ext (by omega)
    have f2 : byteAt (buf ++ ext) (x + 1 + 2) = byteAt buf (x + 1 + 2) :=
      byteAt_append_left ext (by omega)
    have f3 : byteAt (buf ++ ext) (x + 1 + 3) = byteAt buf (x + 1 + 3) :=
      byteAt_append_left ext (by omega)
    have f4 : byteAt (buf ++ ext) (x + 1 + 4) = byteAt buf (x + 1 + 4) :=
      byteAt_append_left ext (by omega)
    have f5 : byteAt (buf ++ ext) (x + 1 + 5) = byteAt buf (x + 1 + 5) :=
      byteAt_append_left ext (by omega)
    have f6 : byteAt (buf ++ ext) (x + 1 + 6) = byteAt buf (x + 1 + 6) :=
      byteAt_append_left ext (by omega)
    have f7 : byteAt (buf ++ ext) (x + 1 + 7) = byteAt buf (x + 1 + 7) :=
      byteAt_append_left ext (by omega)
    simp only [f0, f1, f2, f3, f4, f5, f6, f7]
    exact h
  | case10 fuel x hx v0 h1 h2 h3 h4 h5 h6 hrec ih =>
    intro v k fuel2 hf2 h
    obtain ⟨f2, rfl⟩ : ∃ f2, fuel2 = f2 + 1 := ⟨fuel2 - 1, by omega⟩
    rw [readMumbleVarintAux, if_neg hx, if_neg h1, if_neg h2, if_pos h3, if_neg h4, if_neg h5,
      if_pos h6, hrec] at h
    exact absurd h (by simp)
  | case11 fuel x hx v0 h1 h2 h3 h4 h5 h6 inner o hrec ih =>
    intro v k fuel2 hf2 h
    obtain ⟨f2, rfl⟩ : ∃ f2, fuel2 = f2 + 1 := ⟨fuel2 - 1, by omega⟩
    rw [readMumbleVarintAux, if_neg hx, if_neg h1, if_neg h2, if_pos h3, if_neg h4, if_neg h5,
      if_pos h6, hrec] at h
    have e0 : byteAt (buf ++ ext) x = byteAt buf x := byteAt_append_left ext (by omega)
    rw [readMumbleVarintAux, if_neg (by simp only [List.length_append]; omega)]
    simp only [e0]
    rw [if_neg h1, if_neg h2, if_pos h3, if_neg h4, if_neg h5, if_pos h6,
      ih inner o f2 (by omega) hrec]
    exact h
  | case12 fuel x hx v0 h1 h2 h3 h4 h5 h6 =>
    intro v k fuel2 hf2 h
    obtain ⟨f2, rfl⟩ : ∃ f2, fuel2 = f2 + 1 := ⟨fuel2 - 1, by omega⟩
    rw [readMumbleVarintAux, if_neg hx, if_neg h1, if_neg h2, if_pos h3, if_neg h4, if_neg h5,
      if_neg h6] at h
    have e0 : byteAt (buf ++ ext) x = byteAt buf x := byteAt_append_left ext (by omega)
    rw [readMumbleVarintAux, if_neg (by simp only [List.length_append]; omega)]
    simp only [e0]
    rw [if_neg h1, if_neg h2, if_pos h3, if_neg h4, if_neg h5, if_neg h6]
    exact h
  | case13 fuel x hx v0 h1 h2 h3 h4 hg =>
    intro v k fuel2 hf2 h
    obtain ⟨f2, rfl⟩ : ∃ f2, fuel2 = f2 + 1 := ⟨fuel2 - 1, by omega⟩
    rw [readMumbleVarintAux, if_neg hx, if_neg h1, if_neg h2, if_neg h3, if_pos h4,
      if_pos hg] at h
    exact absurd h (by simp)
  | case14 fuel x hx v0 h1 h2 h3 h4 hg =>
    intro v k fuel2 hf2 h
    obtain ⟨f2, rfl⟩ : ∃ f2, fuel2 = f2 + 1 := ⟨fuel2 - 1, by omega⟩
    rw [readMumbleVarintAux, if_neg hx, if_neg h1, if_neg h2, if_neg h3, if_pos h4,
      if_neg hg] at h
    have e0 : byteAt (buf ++ ext) x = byteAt buf x := byteAt_append_left ext (by omega)
    have e1 : byteAt (buf ++ ext) (x + 1) = byteAt buf (x + 1) :=
      byteAt_append_left ext (by omega)
    have e2 : byteAt (buf ++ ext) (x + 2) = byteAt buf (x + 2) :=
      byteAt_append_left ext (by omega)
    have e3 : byteAt (buf ++ ext) (x + 3) = byteAt buf (x + 3) :=
      byteAt_append_left ext (by omega)
    rw [readMumbleVarintAux, if_neg (by simp only [List.length_append]; omega)]
    simp only [e0, e1, e2, e3]
    rw [if_neg h1, if_neg h2, if_neg h3, if_pos h4,
      if_neg (by simp only [List.length_append]; omega)]
    exact h
  | case15 fuel x hx v0 h1 h2 h3 h4 h5 hg =>
    intro v k fuel2 hf2 h
    obtain ⟨f2, rfl⟩ : ∃ f2, fuel2 = f2 + 1 := ⟨fuel2 - 1, by omega⟩
    rw [readMumbleVarintAux, if_neg hx, if_neg h1, if_neg h2, if_neg h3, if_neg h4, if_pos h5,
      if_pos hg] at h
    exact absurd h (by simp)
  | case16 fuel x hx v0 h1 h2 h3 h4 h5 hg =>
    intro v k fuel2 hf2 h
    obtain ⟨f2, rfl⟩ : ∃ f2, fuel2 = f2 + 1 := ⟨fuel2 - 1, by omega⟩
    rw [readMumbleVarintAux, if_neg hx, if_neg h1, if_neg h2, if_neg h3, if_neg h4, if_pos h5,
      if_neg hg] at h
    have e0 : byteAt (buf ++ ext) x = byteAt buf x := byteAt_append_left ext (by omega)
    have e1 : byteAt (buf ++ ext) (x + 1) = byteAt buf (x + 1) :=
      byteAt_append_left ext (by omega)
    have e2 : byteAt (buf ++ ext) (x + 2) = byteAt buf (x + 2) :=
      byteAt_append_left ext (by omega)
    rw [readMumbleVarintAux, if_neg (by simp only [List.length_append]; omega)]
    simp only [e0, e1, e2]
    rw [if_neg h1, if_neg h2, if_neg h3, if_neg h4, if_pos h5,
      if_neg (by simp only [List.length_append]; omega)]
    exact h
  | case17 fuel x hx v0 h1 h2 h3 h4 h5 =>
    intro v k fuel2 hf2 h
    obtain ⟨f2, rfl⟩ : ∃ f2, fuel2 = f2 + 1 := ⟨fuel2 - 1, by omega⟩
    rw [readMumbleVarintAux, if_neg hx, if_neg h1, if_neg h2, if_neg h3, if_neg h4,
      if_neg h5] at h
    exact absurd h (by simp)
theorem readMumbleVarint_ext (buf ext : List Byte) (x : Nat) (v : Int) (k : Nat)
    (h : readMumbleVarint buf x = some (v, k)) :
    readMumbleVarint (buf ++ ext) x = some (v, k) :=
  readMumbleVarintAux_ext buf ext _ x v k _ (by simp only [List.length_append]; omega) h


/-- Reading at an offset past a known leading block only depends on the suffix. -/
theorem readMumbleVarintAux_shift (pre rest : List Byte) : ∀ (fuel0 x0 : Nat) (v : Int)
    (k : Nat) (fuel2 : Nat), fuel0 ≤ fuel2 →
    readMumbleVarintAux rest fuel0 x0 = some (v, k) →
    readMumbleVarintAux (pre ++ rest) fuel2 (pre.length + x0) = some (v, pre.length + k) := by
  intro fuel0 x0
  induction fuel0, x0 using readMumbleVarintAux.induct rest with
  | case1 x =>
    intro v k fuel2 hf2 h
    rw [readMumbleVarintAux] at h
    exact absurd h (by simp)
  | case2 fuel x hx =>
    intro v k fuel2 hf2 h
    obtain ⟨f2, rfl⟩ : ∃ f2, fuel2 = f2 + 1 := ⟨fuel2 - 1, by omega⟩
    rw [readMumbleVarintAux, if_pos hx] at h
    exact absurd h (by simp)
  | case3 fuel x hx v0 h1 =>
    intro v k fuel2 hf2 h
    obtain ⟨f2, rfl⟩ : ∃ f2, fuel2 = f2 + 1 := ⟨fuel2 - 1, by omega⟩
    rw [readMumbleVarintAux, if_neg hx, if_pos h1] at h
    simp only [Option.some.injEq, Prod.mk.injEq] at h
    rw [readMumbleVarintAux, if_neg (by simp only [List.length_append]; omega)]
    simp only [byteAt_append_right pre x]
    rw [if_pos h1]
    simp only [Option.some.injEq, Prod.mk.injEq]
    exact ⟨h.1, by omega⟩
  | case4 fuel x hx v0 h1 h2 hg =>
    intro v k fuel2 hf2 h
    obtain ⟨f2, rfl⟩ : ∃ f2, fuel2 = f2 + 1 := ⟨fuel2 - 1, by omega⟩
    rw [readMumbleVarintAux, if_neg hx, if_neg h1, if_pos h2, if_pos hg] at h
    exact absurd h (by simp)
  | case5 fuel x hx v0 h1 h2 hg =>
    intro v k fuel2 hf2 h
    obtain ⟨f2, rfl⟩ : ∃ f2, fuel2 = f2 + 1 := ⟨fuel2 - 1, by omega⟩
    rw [readMumbleVarintAux, if_neg hx, if_neg h1, if_pos h2, if_neg hg] at h
    simp only [Option.some.injEq, Prod.mk.injEq] at h
    have g1 : byteAt (pre ++ rest) (pre.length + x + 1) = byteAt rest (x + 1) := by
      rw [show pre.length + x + 1 = pre.length + (x + 1) by omega]
      exact byteAt_append_right pre (x + 1)
    rw [readMumbleVarintAux, if_neg (by simp only [List.length_append]; omega)]
    simp only [byteAt_append_right pre x, g1]
    rw [if_neg h1, if_pos h2, if_neg (by simp only [List.length_append]; omega)]
    simp only [Option.some.injEq, Prod.mk.injEq]
    exact ⟨h.1, by omega⟩
  | case6 fuel x hx v0 h1 h2 h3 h4 hg =>
    intro v k fuel2 hf2 h
    obtain ⟨f2, rfl⟩ : ∃ f2, fuel2 = f2 + 1 := ⟨fuel2 - 1, by omega⟩
    rw [readMumbleVarintAux, if_neg hx, if_neg h1, if_neg h2, if_pos h3, if_pos h4,
      if_pos hg] at h
    exact absurd h (by simp)
  | case7 fuel x hx v0 h1 h2 h3 h4 hg =>
    intro v k fuel2 hf2 h
    obtain ⟨f2, rfl⟩ : ∃ f2, fuel2 = f2 + 1 := ⟨fuel2 - 1, by omega⟩
    rw [readMumbleVarintAux, if_neg hx, if_neg h1, if_neg h2, if_pos h3, if_pos h4,
      if_neg hg] at h
    simp only [Option.some.injEq, Prod.mk.injEq] at h
    have g1 : byteAt (pre ++ rest) (pre.length + x + 1) = byteAt rest (x + 1) := by
      rw [show pre.length + x + 1 = pre.length + (x + 1) by omega]
      exact byteAt_append_right pre (x + 1)
    have g2 : byteAt (pre ++ rest) (pre.length + x + 2) = byteAt rest (x + 2) := by
      rw [show pre.length + x + 2 = pre.length + (x + 2) by omega]
      exact byteAt_append_right pre (x + 2)
    have g3 : byteAt (pre ++ rest) (pre.length + x + 3) = byteAt rest (x + 3) := by
      rw [show pre.length + x + 3 = pre.length + (x + 3) by omega]
      exact byteAt_append_right pre (x + 3)
    have g4 : byteAt (pre ++ rest) (pre.length + x + 4) = byteAt rest (x + 4) := by
      rw [show pre.length + x + 4 = pre.length + (x + 4) by omega]
      exact byteAt_append_right pre (x + 4)
    rw [readMumbleVarintAux, if_neg (by simp only [List.length_append]; omega)]
    simp only [byteAt_append_right pre x, g1, g2, g3, g4]
    rw [if_neg h1, if_neg h2, if_pos h3, if_pos h4,
      if_neg (by simp only [List.length_append]; omega)]
    simp only [Option.some.injEq, Prod.mk.injEq]
    exact ⟨h.1, by omega⟩
  | case8 fuel x hx v0 h1 h2 h3 h4 h5 hg =>
    intro v k fuel2 hf2 h
    obtain ⟨f2, rfl⟩ : ∃ f2, fuel2 = f2 + 1 := ⟨fuel2 - 1, by omega⟩
    rw [readMumbleVarintAux, if_neg hx, if_neg h1, if_neg h2, if_pos h3, if_neg h4, if_pos h5,
      if_pos hg] at h
    exact absurd h (by simp)
  | case9 fuel x hx v0 h1 h2 h3 h4 h5 hg =>
    intro v k fuel2 hf2 h
    obtain ⟨f2, rfl⟩ : ∃ f2, fuel2 = f2 + 1 := ⟨fuel2 - 1, by omega⟩
    rw [readMumbleVarintAux, if_neg hx, if_neg h1, if_neg h2, if_pos h3, if_neg h4, if_pos h5,
      if_neg hg] at h
    rw [show List.range 8 = [0, 1, 2, 3, 4, 5, 6, 7] from by decide] at h
    simp only [List.foldl_cons, List.foldl_nil, Option.some.injEq, Prod.mk.injEq] at h
    have g0 : byteAt (pre ++ rest) (pre.length + x + 1 + 0) = byteAt rest (x + 1 + 0) := by
      rw [show pre.length + x + 1 + 0 = pre.length + (x + 1 + 0) by omega]
      exact byteAt_append_right pre (x + 1 + 0)
    have g1 : byteAt (pre ++ rest) (pre.length + x + 1 + 1) = byteAt rest (x + 1 + 1) := by
      rw [show pre.length + x + 1 + 1 = pre.length + (x + 1 + 1) by omega]
      exact byteAt_append_right pre (x + 1 + 1)
    have g2 : byteAt (pre ++ rest) (pre.length + x + 1 + 2) = byteAt rest (x + 1 + 2) := by
      rw [show pre.length + x + 1 + 2 = pre.length + (x + 1 + 2) by omega]
      exact byteAt_append_right pre (x + 1 + 2)
    have g3 : byteAt (pre ++ rest) (pre.length + x + 1 + 3) = byteAt rest (x + 1 + 3) := by
      rw [show pre.length + x + 1 + 3 = pre.length + (x + 1 + 3) by omega]
      exact byteAt_append_right pre (x + 1 + 3)
    have g4 : byteAt (pre ++ rest) (pre.length + x + 1 + 4) = byteAt rest (x + 1 + 4) := by
      rw [show pre.length + x + 1 + 4 = pre.length + (x + 1 + 4) by omega]
      exact byteAt_append_right pre (x + 1 + 4)
    have g5 : byteAt (pre ++ rest) (pre.length + x + 1 + 5) = byteAt rest (x + 1 + 5) := by
      rw [show pre.length + x + 1 + 5 = pre.length + (x + 1 + 5) by omega]
      exact byteAt_append_right pre (x + 1 + 5)
    have g6 : byteAt (pre ++ rest) (pre.length + x + 1 + 6) = byteAt rest (x + 1 + 6) := by
      rw [show pre.length + x + 1 + 6 = pre.length + (x + 1 + 6) by omega]
      exact byteAt_append_right pre (x + 1 + 6)
    have g7 : byteAt (pre ++ rest) (pre.length + x + 1 + 7) = byteAt rest (x + 1 + 7) := by
      rw [show pre.length + x + 1 + 7 = pre.length + (x + 1 + 7) by omega]
      exact byteAt_append_right pre (x + 1 + 7)
    rw [readMumbleVarintAux, if_neg (by simp only [List.length_append]; omega)]
    simp only [byteAt_append_right pre x]
    rw [if_neg h1, if_neg h2, if_pos h3, if_neg h4, if_pos h5,
      if_neg (by simp only [List.length_append]; omega)]
    rw [show List.range 8 = [0, 1, 2, 3, 4, 5, 6, 7] from by decide]
    simp only [List.foldl_cons, List.foldl_nil, g0, g1, g2, g3, g4, g5, g6, g7]
    simp only [Option.some.injEq, Prod.mk.injEq]
    exact ⟨h.1, by omega⟩
  | case10 fuel x hx v0 h1 h2 h3 h4 h5 h6 hrec ih =>
    intro v k fuel2 hf2 h
    obtain ⟨f2, rfl⟩ : ∃ f2, fuel2 = f2 + 1 := ⟨fuel2 - 1, by omega⟩
    rw [readMumbleVarintAux, if_neg hx, if_neg h1, if_neg h2, if_pos h3, if_neg h4, if_neg h5,
      if_pos h6, hrec] at h
    exact absurd h (by simp)
  | case11 fuel x hx v0 h1 h2 h3 h4 h5 h6 inner o hrec ih =>
    intro v k fuel2 hf2 h
    obtain ⟨f2, rfl⟩ : ∃ f2, fuel2 = f2 + 1 := ⟨fuel2 - 1, by omega⟩
    rw [readMumbleVarintAux, if_neg hx, if_neg h1, if_neg h2, if_pos h3, if_neg h4, if_neg h5,
      if_pos h6, hrec] at h
    simp only [Option.some.injEq, Prod.mk.injEq] at h
    rw [readMumbleVarintAux, if_neg (by simp only [List.length_append]; omega)]
    simp only [byteAt_append_right pre x]
    rw [if_neg h1, if_neg h2, if_pos h3, if_neg h4, if_neg h5, if_pos h6]
    rw [show pre.length + x + 1 = pre.length + (x + 1) by omega]
    rw [ih inner o f2 (by omega) hrec]
    simp only [Option.some.injEq, Prod.mk.injEq]
    exact ⟨h.1, by omega⟩
  | case12 fuel x hx v0 h1 h2 h3 h4 h5 h6 =>
    intro v k fuel2 hf2 h
    obtain ⟨f2, rfl⟩ : ∃ f2, fuel2 = f2 + 1 := ⟨fuel2 - 1, by omega⟩
    rw [readMumbleVarintAux, if_neg hx, if_neg h1, if_neg h2, if_pos h3, if_neg h4, if_neg h5,
      if_neg h6] at h
    simp only [Option.some.injEq, Prod.mk.injEq] at h
    rw [readMumbleVarintAux, if_neg (by simp only [List.length_append]; omega)]
    simp only [byteAt_append_right pre x]
    rw [if_neg h1, if_neg h2, if_pos h3, if_neg h4, if_neg h5, if_neg h6]
    simp only [Option.some.injEq, Prod.mk.injEq]
    exact ⟨h.1, by omega⟩
  | case13 fuel x hx v0 h1 h2 h3 h4 hg =>
    intro v k fuel2 hf2 h
    obtain ⟨f2, rfl⟩ : ∃ f2, fuel2 = f2 + 1 := ⟨fuel2 - 1, by omega⟩
    rw [readMumbleVarintAux, if_neg hx, if_neg h1, if_neg h2, if_neg h3, if_pos h4,
      if_pos hg] at h
    exact absurd h (by simp)
  | case14 fuel x hx v0 h1 h2 h3 h4 hg =>
    intro v k fuel2 hf2 h
    obtain ⟨f2, rfl⟩ : ∃ f2, fuel2 = f2 + 1 := ⟨fuel2 - 1, by omega⟩
    rw [readMumbleVarintAux, if_neg hx, if_neg h1, if_neg h2, if_neg h3, if_pos h4,
      if_neg hg] at h
    simp only [Option.some.injEq, Prod.mk.injEq] at h
    have g1 : byteAt (pre ++ rest) (pre.length + x + 1) = byteAt rest (x + 1) := by
      rw [show pre.length + x + 1 = pre.length + (x + 1) by omega]
      exact byteAt_append_right pre (x + 1)
    have g2 : byteAt (pre ++ rest) (pre.length + x + 2) = byteAt rest (x + 2) := by
      rw [show pre.length + x + 2 = pre.length + (x + 2) by omega]
      exact byteAt_append_right pre (x + 2)
    have g3 : byteAt (pre ++ rest) (pre.length + x + 3) = byteAt rest (x + 3) := by
      rw [show pre.length + x + 3 = pre.length + (x + 3) by omega]
      exact byteAt_append_right pre (x + 3)
    rw [readMumbleVarintAux, if_neg (by simp only [List.length_append]; omega)]
    simp only [byteAt_append_right pre x, g1, g2, g3]
    rw [if_neg h1, if_neg h2, if_neg h3, if_pos h4,
      if_neg (by simp only [List.length_append]; omega)]
    simp only [Option.some.injEq, Prod.mk.injEq]
    exact ⟨h.1, by omega⟩
  | case15 fuel x hx v0 h1 h2 h3 h4 h5 hg =>
    intro v k fuel2 hf2 h
    obtain ⟨f2, rfl⟩ : ∃ f2, fuel2 = f2 + 1 := ⟨fuel2 - 1, by omega⟩
    rw [readMumbleVarintAux, if_neg hx, if_neg h1, if_neg h2, if_neg h3, if_neg h4, if_pos h5,
      if_pos hg] at h
    exact absurd h (by simp)
  | case16 fuel x hx v0 h1 h2 h3 h4 h5 hg =>
    intro v k fuel2 hf2 h
    obtain ⟨f2, rfl⟩ : ∃ f2, fuel2 = f2 + 1 := ⟨fuel2 - 1, by omega⟩
    rw [readMumbleVarintAux, if_neg hx, if_neg h1, if_neg h2, if_neg h3, if_neg h4, if_pos h5,
      if_neg hg] at h
    simp only [Option.some.injEq, Prod.mk.injEq] at h
    have g1 : byteAt (pre ++ rest) (pre.length + x + 1) = byteAt rest (x + 1) := by
      rw [show pre.length + x + 1 = pre.length + (x + 1) by omega]
      exact byteAt_append_right pre (x + 1)
    have g2 : byteAt (pre ++ rest) (pre.length + x + 2) = byteAt rest (x + 2) := by
      rw [show pre.length + x + 2 = pre.length + (x + 2) by omega]
      exact byteAt_append_right pre (x + 2)
    rw [readMumbleVarintAux, if_neg (by simp only [List.length_append]; omega)]
    simp only [byteAt_append_right pre x, g1, g2]
    rw [if_neg h1, if_neg h2, if_neg h3, if_neg h4, if_pos h5,
      if_neg (by simp only [List.length_append]; omega)]
    simp only [Option.some.injEq, Prod.mk.injEq]
    exact ⟨h.1, by omega⟩
  | case17 fuel x hx v0 h1 h2 h3 h4 h5 =>
    intro v k fuel2 hf2 h
    obtain ⟨f2, rfl⟩ : ∃ f2, fuel2 = f2 + 1 := ⟨fuel2 - 1, by omega⟩
    rw [readMumbleVarintAux, if_neg hx, if_neg h1, if_neg h2, if_neg h3, if_neg h4,
      if_neg h5] at h
    exact absurd h (by simp)
theorem readMumbleVarint_shift (pre rest : List Byte) (x : Nat) (v : Int) (k : Nat)
    (h : readMumbleVarint rest x = some (v, k)) :
    readMumbleVarint (pre ++ rest) (pre.length + x) = some (v, pre.length + k) :=
  readMumbleVarintAux_shift pre rest _ x v k _ (by simp only [List.length_append]; omega) h


/-! ## Legacy voice-packet codec (`voice-legacy.ts`) -/

/-- Decoded legacy voice packet, after `DecodedLegacyVoicePacket` in the source. -/
inductive DecodedLegacyVoicePacket where
  | opus (target : Nat) (sessionId : Int) (sequence : Int) (isLastFrame : Bool)
      (opusData : List Byte)
  | ping (timestamp : Int)
deriving DecidableEq

/-- JavaScript `a & mask` on a Number holding an integer: both operands are
converted to 32-bit two's complement first; for a non-negative mask below
2^31 the result is the masked low 32 bits of the integer. -/
def jsAnd (a : Int) (mask : Nat) : Nat := (a.emod 4294967296).toNat &&& mask

/-- Node `Buffer.subarray(s, e)` for in-range arguments. -/
def subarray (buf : List Byte) (s e : Nat) : List Byte := (buf.take e).drop s

/-- Decoder for server-form legacy voice packets, after
`decodeLegacyVoicePacketFromServer`. `Except.error` models a thrown
exception escaping the function (the varint reader throws on truncation);
`Except.ok none` models the `return null` packet drops. The source also
checks `size < 0`, which is vacuous since `size` is masked non-negative. -/
def decodeLegacyVoicePacketFromServer (buf : List Byte) :
    Except String (Option DecodedLegacyVoicePacket) :=
  if buf.length = 0 then .ok none else
  let header := byteAt buf 0
  let type := header >>> 5
  let target := header &&& 0x1f
  if type = 1 then
    match readMumbleVarint buf 1 with
    | none => .error "Unexpected EOF"
    | some (ts, _) => .ok (some (.ping ts))
  else if type ≠ 4 then .ok none
  else
    match readMumbleVarint buf 1 with
    | none => .error "Unexpected EOF"
    | some (session, o1) =>
      match readMumbleVarint buf o1 with
      | none => .error "Unexpected EOF"
      | some (seq, o2) =>
        match readMumbleVarint buf o2 with
        | none => .error "Unexpected EOF"
        | some (sizeTerm, o3) =>
          let isLastFrame := jsAnd sizeTerm 8192 != 0
          let size := jsAnd sizeTerm 0x1fff
          if o3 + size > buf.length then .ok none
          else .ok (some (.opus target session seq isLastFrame (subarray buf o3 (o3 + size))))

/-- Encoder for the legacy ping packet, after `encodeLegacyPingPacket`. -/
def encodeLegacyPingPacket (timestamp : Int) : Option (List Byte) :=
  (writeMumbleVarint timestamp).map (fun w => byte 0x20 :: w)

/-- Encoder for client-form opus packets, after `encodeLegacyOpusPacketFromClient`.
`none` models the throws (oversized payload, negative varint input). -/
def encodeLegacyOpusPacketFromClient (target : Nat) (sequence : Int)
    (opusData : Option (List Byte)) (isLastFrame : Bool) : Option (List Byte) :=
  let target1 := target &&& 0x1f
  let header := ((4 &&& 0x07) <<< 5) ||| target1
  let opus := opusData.getD []
  if opus.length > 0x1fff then none else
  let sizeTerm : Int := if isLastFrame then ((opus.length ||| (1 <<< 13) : Nat) : Int)
    else (opus.length : Int)
  match writeMumbleVarint sequence, writeMumbleVarint sizeTerm with
  | some ws, some wz => some (byte header :: (ws ++ (wz ++ opus)))
  | _, _ => none

/-- C7: evaluation at the failing input. A decrypted voice payload holding
only the ping header byte 0x20 makes the varint reader throw, and the
exception escapes `decodeLegacyVoicePacketFromServer` (and hence the UDP
message handler, which installs no catch) instead of being a silent drop. -/
theorem claimC7_decode_throws_on_truncated_varint :
    decodeLegacyVoicePacketFromServer [byte 0x20] = .error "Unexpected EOF" := rfl

/-- C4 counterexample: decoding the client-form packet with the server-form
decoder misaligns the fields. Encoding target 0, sequence 0, payload [0x00],
isLastFrame false gives the packet 80 00 01 00, which decodes to sequence 1
with empty payload, not to the encoded tuple. -/
theorem claimC4_counterexample :
    encodeLegacyOpusPacketFromClient 0 0 (some [byte 0]) false
      = some [byte 0x80, byte 0x00, byte 0x01, byte 0x00] ∧
    decodeLegacyVoicePacketFromServer [byte 0x80, byte 0x00, byte 0x01, byte 0x00]
      = .ok (some (.opus 0 0 1 false [])) ∧
    decodeLegacyVoicePacketFromServer [byte 0x80, byte 0x00, byte 0x01, byte 0x00]
      ≠ .ok (some (.opus 0 0 0 false [byte 0])) := by
  refine ⟨rfl, rfl, fun h => ?_⟩
  rw [show decodeLegacyVoicePacketFromServer [byte 0x80, byte 0x00, byte 0x01, byte 0x00]
      = Except.ok (some (DecodedLegacyVoicePacket.opus 0 0 1 false [])) from rfl] at h
  simp at h

theorem lor8192_eq {x : Nat} (hx : x < 8192) : x ||| 8192 = 8192 + x := by
  rw [Nat.lor_comm]
  have h := mul_pow_lor_eq_add (a := 1) (k := 13) (b := x) (by omega)
  norm_num at h
  exact h

theorem sizeTermLast (s : Nat) (hs : s < 8192) :
    (s ||| 8192) &&& 8191 = s ∧ (s ||| 8192) &&& 8192 = 8192 := by
  rw [lor8192_eq hs]
  constructor
  · have h := Nat.and_pow_two_sub_one_eq_mod (8192 + s) 13
    norm_num at h
    rw [h]
    omega
  · have h := Nat.and_two_pow (8192 + s) 13
    have ht : (8192 + s).testBit 13 = true := by
      rw [Nat.testBit_to_div_mod]
      norm_num
      omega
    rw [ht] at h
    norm_num at h ⊢
    exact h

theorem sizeTermPlain (s : Nat) (hs : s < 8192) : s &&& 8191 = s ∧ s &&& 8192 = 0 := by
  constructor
  · have h := Nat.and_pow_two_sub_one_eq_mod s 13
    norm_num at h
    rw [h]
    omega
  · have h := Nat.and_two_pow s 13
    have ht : s.testBit 13 = false := Nat.testBit_lt_two_pow (by norm_num; omega)
    rw [ht] at h
    norm_num at h ⊢
    exact h

theorem jsAnd_natCast (m : Nat) (hm : m < 4294967296) (mask : Nat) :
    jsAnd (m : Int) mask = m &&& mask := by
  show (((m : Int) % 4294967296).toNat) &&& mask = m &&& mask
  rw [Int.emod_eq_of_lt (by omega) (by exact_mod_cast hm)]
  simp

theorem headerByteTests : ∀ t < 32,
    (((((4 &&& 0x07) <<< 5) ||| (t &&& 0x1f)) % 256) >>> 5 = 4) ∧
    (((((4 &&& 0x07) <<< 5) ||| (t &&& 0x1f)) % 256) &&& 0x1f = t) := by decide

theorem subarray_suffix (pre rest : List Byte) :
    subarray (pre ++ rest) pre.length (pre.length + rest.length) = rest := by
  unfold subarray
  rw [show pre.length + rest.length = (pre ++ rest).length by simp]
  rw [List.take_length, List.drop_left]

/-- Reconstruction of the server form of a client voice packet: the server
inserts the sender's session id as a varint right after the header byte. -/
def insertSessionId (sessionId : Nat) (pkt : List Byte) : Option (List Byte) :=
  (writeMumbleVarint (sessionId : Int)).map (fun ws => pkt.take 1 ++ (ws ++ pkt.drop 1))

theorem legacyVoiceServerDecode (target sessionId sequence stn : Nat)
    (opus ws wq wz : List Byte) (flag : Bool) (ht : target < 32)
    (hrs : readMumbleVarint ws 0 = some ((sessionId : Int), ws.length))
    (hrq : readMumbleVarint wq 0 = some ((sequence : Int), wq.length))
    (hrz : readMumbleVarint wz 0 = some ((stn : Int), wz.length))
    (hbound : stn < 16384) (hmask : stn &&& 8191 = opus.length)
    (hflag : stn &&& 8192 = if flag then 8192 else 0) :
    decodeLegacyVoicePacketFromServer
      (byte (((4 &&& 0x07) <<< 5) ||| (target &&& 0x1f)) :: (ws ++ (wq ++ (wz ++ opus))))
      = .ok (some (.opus target (sessionId : Int) (sequence : Int) flag opus)) := by
  have hH := headerByteTests target ht
  have r1 : readMumbleVarint
      (byte (((4 &&& 0x07) <<< 5) ||| (target &&& 0x1f)) :: (ws ++ (wq ++ (wz ++ opus)))) 1
      = some ((sessionId : Int), ws.length + 1) := by
    have hx := readMumbleVarint_ext ws (wq ++ (wz ++ opus)) 0 _ _ hrs
    have hsh := readMumbleVarint_shift
      [byte (((4 &&& 0x07) <<< 5) ||| (target &&& 0x1f))] (ws ++ (wq ++ (wz ++ opus)))
      0 _ _ hx
    rw [show ws.length + 1 = 1 + ws.length by omega]
    simpa using hsh
  have r2 : readMumbleVarint
      (byte (((4 &&& 0x07) <<< 5) ||| (target &&& 0x1f)) :: (ws ++ (wq ++ (wz ++ opus))))
      (ws.length + 1)
      = some ((sequence : Int), ws.length + 1 + wq.length) := by
    have hx := readMumbleVarint_ext wq (wz ++ opus) 0 _ _ hrq
    have hsh := readMumbleVarint_shift
      (byte (((4 &&& 0x07) <<< 5) ||| (target &&& 0x1f)) :: ws) (wq ++ (wz ++ opus))
      0 _ _ hx
    simp only [List.cons_append, List.length_cons, Nat.add_zero] at hsh
    exact hsh
  have r3 : readMumbleVarint
      (byte (((4 &&& 0x07) <<< 5) ||| (target &&& 0x1f)) :: (ws ++ (wq ++ (wz ++ opus))))
      (ws.length + 1 + wq.length)
      = some ((stn : Int), ws.length + 1 + wq.length + wz.length) := by
    have hx := readMumbleVarint_ext wz opus 0 _ _ hrz
    have hsh := readMumbleVarint_shift
      (byte (((4 &&& 0x07) <<< 5) ||| (target &&& 0x1f)) :: (ws ++ wq)) (wz ++ opus)
      0 _ _ hx
    simp only [List.cons_append, List.append_assoc, List.length_cons, List.length_append,
      Nat.add_zero] at hsh
    rw [show ws.length + wq.length + 1 = ws.length + 1 + wq.length by omega] at hsh
    exact hsh
  rw [decodeLegacyVoicePacketFromServer]
  rw [if_neg (by simp)]
  simp only [byteAt_zero, byte_val]
  rw [if_neg (by rw [hH.1]; norm_num)]
  rw [if_neg (by rw [hH.1]; simp)]
  simp only [r1, r2, r3]
  rw [jsAnd_natCast stn (by omega) 8192, jsAnd_natCast stn (by omega) 0x1fff]
  rw [show (0x1fff : Nat) = 8191 from rfl, hmask, hflag]
  rw [if_neg (by simp only [List.length_cons, List.length_append]; omega)]
  have hsub : subarray
      (byte (((4 &&& 0x07) <<< 5) ||| (target &&& 0x1f)) :: (ws ++ (wq ++ (wz ++ opus))))
      (ws.length + 1 + wq.length + wz.length)
      (ws.length + 1 + wq.length + wz.length + opus.length) = opus := by
    have h := subarray_suffix
      (byte (((4 &&& 0x07) <<< 5) ||| (target &&& 0x1f)) :: (ws ++ (wq ++ wz))) opus
    simp only [List.cons_append, List.append_assoc, List.length_cons, List.length_append]
      at h
    rw [show ws.length + 1 + wq.length + wz.length
        = ws.length + (wq.length + wz.length) + 1 by omega]
    rw [show ws.length + (wq.length + wz.length) + 1 + opus.length
        = ws.length + (wq.length + (wz.length + opus.length)) + 1 by omega]
    convert h using 2
    omega
  rw [hsub, hH.2]
  cases flag
  · simp
  · simp

/-- C4 (amended): the server-form decoder expects a sessionId varint that the
client-form encoder never writes, so the two compose only once the server
session id is inserted right after the header byte; decoding the packet so
completed recovers the full encoded tuple. -/
theorem claimC4_amended_voice_packet_roundtrip (target sessionId sequence : Nat)
    (opus : List Byte) (isLastFrame : Bool) (ht : target < 32) (hs : sessionId < 2 ^ 32)
    (hq : sequence < 2 ^ 30) (ho : opus.length ≤ 0x1fff) :
    ∃ enc srv,
      encodeLegacyOpusPacketFromClient target (sequence : Int) (some opus) isLastFrame
        = some enc ∧
      insertSessionId sessionId enc = some srv ∧
      decodeLegacyVoicePacketFromServer srv
        = .ok (some (.opus target (sessionId : Int) (sequence : Int) isLastFrame opus)) := by
  obtain ⟨ws, hws, hrs⟩ := writeMumbleVarint_roundtrip sessionId
    (lt_of_lt_of_le hs (by norm_num))
  obtain ⟨wq, hwq, hrq⟩ := writeMumbleVarint_roundtrip sequence
    (lt_of_lt_of_le hq (by norm_num))
  have hol : opus.length < 8192 := by omega
  cases isLastFrame
  · obtain ⟨wz, hwz, hrz⟩ := writeMumbleVarint_roundtrip opus.length
      (lt_of_lt_of_le (by omega : opus.length < 16384) (by norm_num))
    refine ⟨byte (((4 &&& 0x07) <<< 5) ||| (target &&& 0x1f)) :: (wq ++ (wz ++ opus)),
      byte (((4 &&& 0x07) <<< 5) ||| (target &&& 0x1f)) :: (ws ++ (wq ++ (wz ++ opus))),
      ?_, ?_, ?_⟩
    · rw [encodeLegacyOpusPacketFromClient]
      simp only [Option.getD_some]
      rw [if_neg (by omega)]
      rw [if_neg Bool.false_ne_true]
      rw [hwq, hwz]
    · rw [insertSessionId, hws]
      simp [List.take, List.drop]
    · exact legacyVoiceServerDecode target sessionId sequence opus.length opus ws wq wz
        false ht hrs hrq hrz (by omega) (sizeTermPlain _ hol).1
        (by simpa using (sizeTermPlain _ hol).2)
  · obtain ⟨wz, hwz, hrz⟩ := writeMumbleVarint_roundtrip (opus.length ||| (1 <<< 13))
      (by rw [show (1 <<< 13 : Nat) = 8192 from rfl, lor8192_eq hol]
          exact lt_of_lt_of_le (by omega : 8192 + opus.length < 16384 + 1) (by norm_num))
    refine ⟨byte (((4 &&& 0x07) <<< 5) ||| (target &&& 0x1f)) :: (wq ++ (wz ++ opus)),
      byte (((4 &&& 0x07) <<< 5) ||| (target &&& 0x1f)) :: (ws ++ (wq ++ (wz ++ opus))),
      ?_, ?_, ?_⟩
    · rw [encodeLegacyOpusPacketFromClient]
      simp only [Option.getD_some]
      rw [if_neg (by omega)]
      rw [if_pos trivial]
      rw [hwq, hwz]
    · rw [insertSessionId, hws]
      simp [List.take, List.drop]
    · refine legacyVoiceServerDecode target sessionId sequence (opus.length ||| (1 <<< 13))
        opus ws wq wz true ht hrs hrq hrz ?_ ?_ ?_
      · rw [show (1 <<< 13 : Nat) = 8192 from rfl, lor8192_eq hol]
        omega
      · exact (sizeTermLast _ hol).1
      · simpa using (sizeTermLast _ hol).2

/-- Witness for the amended C4 at concrete inputs. -/
theorem claimC4_amended_voice_packet_roundtrip_witness :
    (3 : Nat) < 32 ∧ (7 : Nat) < 2 ^ 32 ∧ (42 : Nat) < 2 ^ 30 ∧
      ([byte 0xAB, byte 0xCD] : List Byte).length ≤ 0x1fff ∧
    (∃ enc srv,
      encodeLegacyOpusPacketFromClient 3 ((42 : Nat) : Int) (some [byte 0xAB, byte 0xCD]) true
        = some enc ∧
      insertSessionId 7 enc = some srv ∧
      decodeLegacyVoicePacketFromServer srv
        = .ok (some (.opus 3 ((7 : Nat) : Int) ((42 : Nat) : Int) true
            [byte 0xAB, byte 0xCD]))) :=
  ⟨by norm_num, by norm_num, by norm_num, by norm_num,
    claimC4_amended_voice_packet_roundtrip 3 7 42 [byte 0xAB, byte 0xCD] true
      (by norm_num) (by norm_num) (by norm_num) (by norm_num)⟩

/-! ## OCB2-AES128 crypt state (`crypt-state-ocb2.ts`)

The AES-128-ECB primitive comes from `node:crypto` and is external to the
repository; it is modelled as explicit functions `aes key` (block encrypt)
and `aesInv key` (block decrypt), constrained by hypotheses where needed. -/

/-- Byte XOR, the elementwise operation of `xorInto`/`xorInPlace`. -/
def bxor (x y : Byte) : Byte :=
  ⟨x.val ^^^ y.val, Nat.xor_lt_two_pow (n := 8) x.isLt y.isLt⟩

/-- A 16-byte zero block, after `zeroBlock()`. -/
def zeroBlock : List Byte := List.replicate 16 (byte 0)

/-- Carry loop of the GF(2^128) doubling: processes bytes from index 15 down
to 0, each byte shifted left with the carry coming from the byte after it.
Returns the shifted block and the carry out of byte 0. -/
def s2loop : List Byte → List Byte × Nat
  | [] => ([], 0)
  | b :: rest =>
    let r := s2loop rest
    let nextCarry := if b.val &&& 0x80 ≠ 0 then 1 else 0
    (byte ((b.val <<< 1) &&& 0xff ||| r.2) :: r.1, nextCarry)

/-- GF(2^128) doubling on a 16-byte block, after `s2`. -/
def s2 (block : List Byte) : List Byte :=
  let r := s2loop block
  if r.2 ≠ 0 then r.1.set 15 (bxor (r.1.getD 15 (byte 0)) (byte 0x87)) else r.1

/-- GF(2^128) multiply-by-3, after `s3`: the block XOR its doubling. -/
def s3 (block : List Byte) : List Byte := List.zipWith bxor block (s2 block)

/-- Big-endian 64-bit byte encoding, after `writeBigUInt64BE`. -/
def be64 (n : Nat) : List Byte :=
  [byte (n >>> 56 &&& 0xff), byte (n >>> 48 &&& 0xff), byte (n >>> 40 &&& 0xff),
   byte (n >>> 32 &&& 0xff), byte (n >>> 24 &&& 0xff), byte (n >>> 16 &&& 0xff),
   byte (n >>> 8 &&& 0xff), byte (n &&& 0xff)]

/-- The final-block length block: a zero block with `remaining * 8` written
big-endian at offset 8. -/
def lenBlock (remaining : Nat) : List Byte := List.replicate 8 (byte 0) ++ be64 (remaining * 8)

/-- Output of the OCB2 encryption block loop. -/
structure OcbEncLoopOut where
  cipher : List Byte
  delta : List Byte
  checksum : List Byte
  success : Bool
  rest : List Byte

/-- Output of the OCB2 decryption block loop. -/
structure OcbDecLoopOut where
  plain : List Byte
  delta : List Byte
  checksum : List Byte
  rest : List Byte

/-- The `while (remaining > AES_BLOCK_SIZE)` loop of `ocbEncrypt`, including
the XEX* guard on the pre-final full block. The loop is bounded by an
explicit structural counter so that the definition reduces; every entry
point passes a counter at least the iteration count, making the zero
branch unreachable. -/
def ocbEncryptLoop (E : List Byte → List Byte) (modifyPlainOnXexStarAttack : Bool) :
    Nat → List Byte → List Byte → List Byte → OcbEncLoopOut
  | 0, delta, checksum, plain => ⟨[], delta, checksum, true, plain⟩
  | fuel + 1, delta, checksum, plain =>
    if plain.length > 16 then
      let zeroGuard := plain.length - 16 ≤ 16 &&
        ((plain.take 15).foldl (fun a b => a ||| b.val) 0 == 0)
      let flipABit := zeroGuard && modifyPlainOnXexStarAttack
      let failed := zeroGuard && !modifyPlainOnXexStarAttack
      let delta1 := s2 delta
      let plainBlock := plain.take 16
      let tmp0 := List.zipWith bxor delta1 plainBlock
      let tmp := if flipABit then tmp0.set 0 (bxor (tmp0.getD 0 (byte 0)) (byte 1)) else tmp0
      let outBlock := List.zipWith bxor delta1 (E tmp)
      let checksum1 := List.zipWith bxor checksum plainBlock
      let checksum2 := if flipABit then
          checksum1.set 0 (bxor (checksum1.getD 0 (byte 0)) (byte 1))
        else checksum1
      let r := ocbEncryptLoop E modifyPlainOnXexStarAttack fuel delta1 checksum2
        (plain.drop 16)
      ⟨outBlock ++ r.cipher, r.delta, r.checksum, r.success && !failed, r.rest⟩
    else ⟨[], delta, checksum, true, plain⟩

/-- The `while (remaining > AES_BLOCK_SIZE)` loop of `ocbDecrypt`. -/
def ocbDecryptLoop (E D : List Byte → List Byte) :
    Nat → List Byte → List Byte → List Byte → OcbDecLoopOut
  | 0, delta, checksum, encrypted => ⟨[], delta, checksum, encrypted⟩
  | fuel + 1, delta, checksum, encrypted =>
    if encrypted.length > 16 then
      let delta1 := s2 delta
      let encBlock := encrypted.take 16
      let tmp := List.zipWith bxor delta1 encBlock
      let outBlock := List.zipWith bxor delta1 (D tmp)
      let checksum1 := List.zipWith bxor checksum outBlock
      let r := ocbDecryptLoop E D fuel delta1 checksum1 (encrypted.drop 16)
      ⟨outBlock ++ r.plain, r.delta, r.checksum, r.rest⟩
    else ⟨[], delta, checksum, encrypted⟩

/-- Result record of `ocbEncrypt`. -/
structure OcbEncResult where
  encrypted : List Byte
  tag : List Byte
  success : Bool
deriving DecidableEq

/-- Result record of `ocbDecrypt`. -/
structure OcbDecResult where
  plain : List Byte
  tag : List Byte
  success : Bool
deriving DecidableEq

/-- OCB2 encryption, after `ocbEncrypt` in the source. `E` is the AES-ECB
block encryption under the call's key. -/
def ocbEncrypt (E : List Byte → List Byte) (modifyPlainOnXexStarAttack : Bool)
    (nonce plain : List Byte) : OcbEncResult :=
  let delta := E nonce
  let r := ocbEncryptLoop E modifyPlainOnXexStarAttack plain.length delta zeroBlock plain
  let delta1 := s2 r.delta
  let tmp := List.zipWith bxor (lenBlock r.rest.length) delta1
  let pad := E tmp
  let full := r.rest ++ pad.drop r.rest.length
  let checksum1 := List.zipWith bxor r.checksum full
  let cipherSeg := (List.zipWith bxor pad full).take r.rest.length
  let delta2 := s3 delta1
  let tag := E (List.zipWith bxor delta2 checksum1)
  ⟨r.cipher ++ cipherSeg, tag, r.success⟩

/-- OCB2 decryption, after `ocbDecrypt` in the source. `E` and `D` are the
AES-ECB block encryption and decryption under the call's key; `success` is
false exactly when the final-block XEX* detection fires. -/
def ocbDecrypt (E D : List Byte → List Byte) (nonce encrypted : List Byte) : OcbDecResult :=
  let delta := E nonce
  let r := ocbDecryptLoop E D encrypted.length delta zeroBlock encrypted
  let delta1 := s2 r.delta
  let tmp := List.zipWith bxor (lenBlock r.rest.length) delta1
  let pad := E tmp
  let full := List.zipWith bxor (r.rest ++ List.replicate (16 - r.rest.length) (byte 0)) pad
  let checksum1 := List.zipWith bxor r.checksum full
  let plainSeg := full.take r.rest.length
  let success := !(full.take 15 == delta1.take 15)
  let delta2 := s3 delta1
  let tag := E (List.zipWith bxor delta2 checksum1)
  ⟨r.plain ++ plainSeg, tag, success⟩

/-- Packet statistics, after `PacketStats`. -/
structure PacketStats where
  good : Nat
  late : Nat
  lost : Nat
  resync : Nat
deriving DecidableEq

/-- Initial all-zero statistics. -/
def PacketStats.zero : PacketStats := ⟨0, 0, 0, 0⟩

/-- State of `CryptStateOCB2`: raw key, both IVs, the 256-entry decrypt
history, the `_init` flag and both statistics records. -/
structure CryptStateOCB2 where
  rawKey : List Byte
  encryptIv : List Byte
  decryptIv : List Byte
  decryptHistory : List Byte
  init : Bool
  statsLocal : PacketStats
  statsRemote : PacketStats
deriving DecidableEq

/-- A fresh state, after the constructor: zero IVs and history, not
initialised. -/
def CryptStateOCB2.mk0 : CryptStateOCB2 :=
  ⟨[], List.replicate 16 (byte 0), List.replicate 16 (byte 0),
   List.replicate 256 (byte 0), false, PacketStats.zero, PacketStats.zero⟩

/-- `setKey`: validates the three 16-byte buffers, then installs them and
resets the history. -/
def CryptStateOCB2.setKey (st : CryptStateOCB2) (key clientNonce serverNonce : List Byte) :
    Bool × CryptStateOCB2 :=
  if key.length ≠ 16 ∨ clientNonce.length ≠ 16 ∨ serverNonce.length ≠ 16 then (false, st)
  else (true, { st with
    rawKey := key, encryptIv := clientNonce, decryptIv := serverNonce,
    decryptHistory := List.replicate 256 (byte 0), init := true })

/-- `setDecryptIV`: validates the length and installs the server nonce. -/
def CryptStateOCB2.setDecryptIV (st : CryptStateOCB2) (iv : List Byte) :
    Bool × CryptStateOCB2 :=
  if iv.length ≠ 16 then (false, st) else (true, { st with decryptIv := iv })

/-- `setEncryptIV`: validates the length and installs the client nonce. -/
def CryptStateOCB2.setEncryptIV (st : CryptStateOCB2) (iv : List Byte) :
    Bool × CryptStateOCB2 :=
  if iv.length ≠ 16 then (false, st) else (true, { st with encryptIv := iv })

/-- `getEncryptIV` returns a copy of the encrypt IV. -/
def CryptStateOCB2.getEncryptIV (st : CryptStateOCB2) : List Byte := st.encryptIv

/-- The `for` loop of `encrypt` incrementing the IV little-endian: bump the
lowest byte; on wrap to zero continue to the next byte. -/
def incrementIvLoop : List Byte → List Byte
  | [] => []
  | b :: rest =>
    let nb := byte ((b.val + 1) &&& 0xff)
    if nb.val ≠ 0 then nb :: rest else nb :: incrementIvLoop rest

/-- The borrow loop of the late-packet wraparound branch of `decrypt`:
decrement a byte little-endian starting at index 1; JS computes
`(prev - 1) & 0xff`, which on `prev = 0` wraps to `0xff` and continues. -/
def decrementIvLoop : List Byte → List Byte
  | [] => []
  | b :: rest =>
    let nb := byte ((b.val + 255) &&& 0xff)
    if b.val ≠ 0 then nb :: rest else nb :: decrementIvLoop rest

/-- `encrypt`: fails when not initialised, increments the encrypt IV, runs
`ocbEncrypt` with `modifyPlainOnXexStarAttack = true` and prepends
`[iv[0], tag[0], tag[1], tag[2]]` to the ciphertext. Returns the optional
packet together with the successor state. -/
def CryptStateOCB2.encrypt (aes : List Byte → List Byte → List Byte)
    (st : CryptStateOCB2) (plain : List Byte) : Option (List Byte) × CryptStateOCB2 :=
  if !st.init then (none, st) else
  let iv := incrementIvLoop st.encryptIv
  let st1 := { st with encryptIv := iv }
  let r := ocbEncrypt (aes st.rawKey) true iv plain
  if !r.success then (none, st1)
  else (some (iv.getD 0 (byte 0) :: r.tag.getD 0 (byte 0) :: r.tag.getD 1 (byte 0) ::
    r.tag.getD 2 (byte 0) :: r.encrypted), st1)

/-- The `else` (out-of-order) branch of `decrypt`'s IV handling: computes the
wrapped distance `diff` between the received IV byte and the expected one and
classifies the packet as late (with or without wraparound) or lost (with or
without wraparound), or rejects it. Returns the updated IV, whether the IV is
restored afterwards, and the late/lost statistics deltas. -/
def decryptIvOutOfOrder (decryptIv : List Byte) (ivByte : Nat) :
    Option (List Byte × Bool × Int × Int) :=
  let iv0 := byteAt decryptIv 0
  let diff0 : Int := (ivByte : Int) - (iv0 : Int)
  let diff : Int := if diff0 > 128 then diff0 - 256
    else if diff0 < -128 then diff0 + 256 else diff0
  if ivByte < iv0 ∧ diff > -30 ∧ diff < 0 then
    some (decryptIv.set 0 (byte ivByte), true, 1, -1)
  else if ivByte > iv0 ∧ diff > -30 ∧ diff < 0 then
    some ((match decryptIv with
      | [] => []
      | _ :: rest => byte ivByte :: decrementIvLoop rest), true, 1, -1)
  else if ivByte > iv0 ∧ diff > 0 then
    some (decryptIv.set 0 (byte ivByte), false, 0, (ivByte : Int) - (iv0 : Int) - 1)
  else if ivByte < iv0 ∧ diff > 0 then
    some ((match decryptIv with
      | [] => []
      | _ :: rest => byte ivByte :: incrementIvLoop rest), false, 0,
      256 - (iv0 : Int) + (ivByte : Int) - 1)
  else none

/-- The full IV step of `decrypt`: the in-order branch when the received IV
byte is the expected successor, otherwise `decryptIvOutOfOrder` followed by
the replay check against the decrypt history. -/
def decryptIvStep (decryptIv decryptHistory : List Byte) (ivByte : Nat) :
    Option (List Byte × Bool × Int × Int) :=
  let iv0 := byteAt decryptIv 0
  let step :=
    if (iv0 + 1) &&& 0xff = ivByte then
      if ivByte > iv0 then some (decryptIv.set 0 (byte ivByte), false, (0 : Int), (0 : Int))
      else if ivByte < iv0 then
        some ((match decryptIv with
          | [] => []
          | _ :: rest => byte ivByte :: incrementIvLoop rest), false, 0, 0)
      else none
    else decryptIvOutOfOrder decryptIv ivByte
  match step with
  | none => none
  | some (newIv, restore, late, lost) =>
    if ¬((iv0 + 1) &&& 0xff = ivByte) ∧
        byteAt decryptHistory (byteAt newIv 0) = byteAt newIv 1 then none
    else some (newIv, restore, late, lost)

/-- The statistics update of a successful `decrypt`: `good` always bumps;
`late`/`lost` move by the signed deltas, saturating at zero per the source's
guard `statsLocal.late > Math.abs(late)`. -/
def applyDecryptStats (s : PacketStats) (late lost : Int) : PacketStats :=
  let s1 := { s with good := s.good + 1 }
  let s2 := if late > 0 then { s1 with late := s1.late + late.toNat }
    else if s1.late > late.natAbs then { s1 with late := s1.late - late.natAbs } else s1
  if lost > 0 then { s2 with lost := s2.lost + lost.toNat }
  else if s2.lost > lost.natAbs then { s2 with lost := s2.lost - lost.natAbs } else s2

/-- `decrypt`: rejects when uninitialised or shorter than 4 bytes, steps the
decrypt IV (in-order, late, lost, or reject), runs `ocbDecrypt`, verifies the
first three tag bytes, and on any failure restores the saved IV so the state
is unchanged. On success it records the IV pair in the history, possibly
restores the IV (late packets), and updates local statistics. -/
def CryptStateOCB2.decrypt (aes aesInv : List Byte → List Byte → List Byte)
    (st : CryptStateOCB2) (source : List Byte) : Option (List Byte) × CryptStateOCB2 :=
  if !st.init then (none, st) else
  if source.length < 4 then (none, st) else
  let plainLength := source.length - 4
  let saveIv := st.decryptIv
  let ivByte := byteAt source 0
  match decryptIvStep st.decryptIv st.decryptHistory ivByte with
  | none => (none, st)
  | some (newIv, restore, late, lost) =>
    let r := ocbDecrypt (aes st.rawKey) (aesInv st.rawKey) newIv (source.drop 4)
    if !r.success ∨ byteAt r.tag 0 ≠ byteAt source 1 ∨ byteAt r.tag 1 ≠ byteAt source 2 ∨
        byteAt r.tag 2 ≠ byteAt source 3 then (none, st)
    else
      (some (r.plain.take plainLength),
       { st with
          decryptIv := if restore then saveIv else newIv,
          decryptHistory := st.decryptHistory.set (byteAt newIv 0) (newIv.getD 1 (byte 0)),
          statsLocal := applyDecryptStats st.statsLocal late lost })

/-! ### Byte and block algebra -/

theorem bxor_cancel_left (a x : Byte) : bxor a (bxor a x) = x := by
  apply Fin.ext
  show a.val ^^^ (a.val ^^^ x.val) = x.val
  exact Nat.xor_cancel_left _ _

theorem bxor_zero_left (x : Byte) : bxor (byte 0) x = x := by
  apply Fin.ext
  show 0 ^^^ x.val = x.val
  exact Nat.zero_xor _

theorem bxor_left_cancel (a b x : Byte) (h : bxor x a = bxor x b) : a = b := by
  have h2 := congrArg (bxor x) h
  rwa [bxor_cancel_left, bxor_cancel_left] at h2

theorem bxor_eq_self (x m : Byte) (h : bxor x m = x) : m.val = 0 := by
  have h2 : x.val ^^^ m.val = x.val ^^^ 0 := by
    have := congrArg Fin.val h
    simpa using this
  have := congrArg (fun t => x.val ^^^ t) (Nat.xor_cancel_left x.val m.val).symm
  simp only at this
  calc m.val = x.val ^^^ (x.val ^^^ m.val) := (Nat.xor_cancel_left _ _).symm
    _ = x.val ^^^ (x.val ^^^ 0) := by rw [h2]
    _ = 0 := Nat.xor_cancel_left _ _

theorem zipWith_bxor_cancel : ∀ (a x : List Byte),
    List.zipWith bxor a (List.zipWith bxor a x) = x.take a.length
  | [], _ => rfl
  | _ :: _, [] => rfl
  | a :: as, x :: xs => by
    simp only [List.zipWith_cons_cons, List.take_succ_cons, List.length_cons,
      bxor_cancel_left]
    rw [zipWith_bxor_cancel as xs]

theorem zip_bxor_zero_left : ∀ (n : Nat) (l : List Byte),
    List.zipWith bxor (List.replicate n (byte 0)) l = l.take n
  | 0, _ => rfl
  | _ + 1, [] => rfl
  | n + 1, x :: xs => by
    simp only [List.replicate_succ, List.zipWith_cons_cons, List.take_succ_cons, bxor_zero_left]
    rw [zip_bxor_zero_left n xs]

theorem bxor_right_cancel (a b x : Byte) (h : bxor a x = bxor b x) : a = b := by
  apply Fin.ext
  have hv : a.val ^^^ x.val = b.val ^^^ x.val := congrArg Fin.val h
  calc a.val = a.val ^^^ x.val ^^^ x.val := (Nat.xor_cancel_right x.val a.val).symm
    _ = b.val ^^^ x.val ^^^ x.val := by rw [hv]
    _ = b.val := Nat.xor_cancel_right x.val b.val

theorem zipWith_bxor_left_inj : ∀ (c1 c2 out : List Byte), c1.length = c2.length →
    c1.length ≤ out.length →
    List.zipWith bxor c1 out = List.zipWith bxor c2 out → c1 = c2
  | [], [], _, _, _, _ => rfl
  | [], _ :: _, _, hlen, _, _ => by simp at hlen
  | _ :: _, [], _, hlen, _, _ => by simp at hlen
  | _ :: _, _ :: _, [], _, hle, _ => by simp at hle
  | a :: as, b :: bs, o :: os, hlen, hle, heq => by
    simp only [List.zipWith_cons_cons, List.cons.injEq] at heq
    simp only [List.length_cons] at hlen hle
    have h1 : a = b := bxor_right_cancel a b o heq.1
    have h2 : as = bs :=
      zipWith_bxor_left_inj as bs os (by omega) (by omega) heq.2
    rw [h1, h2]

theorem zipWith_bxor_right_inj : ∀ (a x y : List Byte), x.length = y.length →
    x.length ≤ a.length →
    List.zipWith bxor a x = List.zipWith bxor a y → x = y
  | _, [], [], _, _, _ => rfl
  | _, [], _ :: _, hlen, _, _ => by simp at hlen
  | _, _ :: _, [], hlen, _, _ => by simp at hlen
  | [], _ :: _, _, _, hle, _ => by simp at hle
  | a :: as, x :: xs, y :: ys, hlen, hle, heq => by
    simp only [List.zipWith_cons_cons, List.cons.injEq] at heq
    simp only [List.length_cons] at hlen hle
    have h1 : x = y := bxor_left_cancel x y a heq.1
    have h2 : xs = ys :=
      zipWith_bxor_right_inj as xs ys (by omega) (by omega) heq.2
    rw [h1, h2]

theorem s2loop_length : ∀ l : List Byte, (s2loop l).1.length = l.length
  | [] => rfl
  | b :: rest => by
    simp only [s2loop, List.length_cons]
    rw [s2loop_length rest]

theorem s2_length (l : List Byte) : (s2 l).length = l.length := by
  simp only [s2]
  split
  · rw [List.length_set, s2loop_length]
  · exact s2loop_length l

theorem s3_length (l : List Byte) : (s3 l).length = l.length := by
  unfold s3
  rw [List.length_zipWith, s2_length]
  omega

theorem zeroBlock_length : zeroBlock.length = 16 := rfl

theorem lenBlock_length (n : Nat) : (lenBlock n).length = 16 := rfl

theorem take_set_of_le (l : List Byte) (j k : Nat) (v : Byte) (h : k ≤ j) :
    (l.set j v).take k = l.take k := by
  apply List.ext_getElem
  · simp [List.length_take, List.length_set]
  · intro i h1 h2
    have hi : i < k := by
      simp only [List.length_take] at h1
      omega
    rw [List.getElem_take, List.getElem_take, List.getElem_set_ne (by omega)]

theorem take_set_of_lt (l : List Byte) (j k : Nat) (v : Byte) (h : j < k) :
    (l.set j v).take k = (l.take k).set j v := by
  apply List.ext_getElem
  · simp [List.length_take, List.length_set]
  · intro i h1 h2
    have hi : i < k := by
      simp only [List.length_take, List.length_set] at h1
      omega
    by_cases hij : j = i
    · subst hij
      rw [List.getElem_take, List.getElem_set_self, List.getElem_set_self]
    · rw [List.getElem_take, List.getElem_set_ne hij, List.getElem_set_ne hij,
        List.getElem_take]

/-- Flip bit `i` of a byte sequence: XOR byte `i / 8` with `1 <<< (i % 8)`. -/
def flipBit (l : List Byte) (i : Nat) : List Byte :=
  l.set (i / 8) (bxor (l.getD (i / 8) (byte 0)) (byte (1 <<< (i % 8))))

theorem flipMask_ne_zero : ∀ r < 8, (byte (1 <<< r)).val ≠ 0 := by decide

theorem getD_set_self (l : List Byte) (k : Nat) (v d : Byte) (h : k < l.length) :
    (l.set k v).getD k d = v := by
  rw [List.getD_eq_getElem?_getD, List.getElem?_set_self h]
  rfl

theorem flipBit_length (l : List Byte) (i : Nat) : (flipBit l i).length = l.length :=
  List.length_set l _ _

theorem flipBit_ne (l : List Byte) (i : Nat) (h : i < 8 * l.length) : flipBit l i ≠ l := by
  intro heq
  have hj : i / 8 < l.length := by omega
  have h1 := congrArg (fun t => t.getD (i / 8) (byte 0)) heq
  simp only [flipBit] at h1
  rw [getD_set_self _ _ _ _ hj] at h1
  exact flipMask_ne_zero (i % 8) (Nat.mod_lt i (by omega)) (bxor_eq_self _ _ h1)

/-! ### Loop unfolding equations

Named forms of the per-iteration quantities of the two block loops, with
`rfl` unfolding lemmas, so proofs can rewrite one iteration at a time. -/

/-- The XEX* guard of the encrypt loop: the pre-final block is a full block
(at most 16 bytes follow) whose first 15 bytes are all zero. -/
def encGuard (plain : List Byte) : Bool :=
  plain.length - 16 ≤ 16 && ((plain.take 15).foldl (fun a b => a ||| b.val) 0 == 0)

/-- Whether the encrypt loop flips a plaintext bit this iteration. -/
def encFlip (modify : Bool) (plain : List Byte) : Bool := encGuard plain && modify

/-- The block fed to AES in one encrypt-loop iteration. -/
def encTmp (modify : Bool) (delta plain : List Byte) : List Byte :=
  let t0 := List.zipWith bxor (s2 delta) (plain.take 16)
  if encFlip modify plain then t0.set 0 (bxor (t0.getD 0 (byte 0)) (byte 1)) else t0

/-- The ciphertext block of one encrypt-loop iteration. -/
def encOut (E : List Byte → List Byte) (modify : Bool) (delta plain : List Byte) :
    List Byte :=
  List.zipWith bxor (s2 delta) (E (encTmp modify delta plain))

/-- The checksum after one encrypt-loop iteration. -/
def encCk (modify : Bool) (checksum plain : List Byte) : List Byte :=
  let c1 := List.zipWith bxor checksum (plain.take 16)
  if encFlip modify plain then c1.set 0 (bxor (c1.getD 0 (byte 0)) (byte 1)) else c1

theorem ocbEncryptLoop_zero (E : List Byte → List Byte) (modify : Bool)
    (delta checksum plain : List Byte) :
    ocbEncryptLoop E modify 0 delta checksum plain = ⟨[], delta, checksum, true, plain⟩ := rfl

theorem ocbEncryptLoop_succ_pos (E : List Byte → List Byte) (modify : Bool) (fuel : Nat)
    (delta checksum plain : List Byte) (hp : plain.length > 16) :
    ocbEncryptLoop E modify (fuel + 1) delta checksum plain =
      ⟨encOut E modify delta plain ++
        (ocbEncryptLoop E modify fuel (s2 delta) (encCk modify checksum plain)
          (plain.drop 16)).cipher,
       (ocbEncryptLoop E modify fuel (s2 delta) (encCk modify checksum plain)
          (plain.drop 16)).delta,
       (ocbEncryptLoop E modify fuel (s2 delta) (encCk modify checksum plain)
          (plain.drop 16)).checksum,
       (ocbEncryptLoop E modify fuel (s2 delta) (encCk modify checksum plain)
          (plain.drop 16)).success && !(encGuard plain && !modify),
       (ocbEncryptLoop E modify fuel (s2 delta) (encCk modify checksum plain)
          (plain.drop 16)).rest⟩ := by
  rw [ocbEncryptLoop, if_pos hp]
  rfl

theorem ocbEncryptLoop_succ_neg (E : List Byte → List Byte) (modify : Bool) (fuel : Nat)
    (delta checksum plain : List Byte) (hp : ¬plain.length > 16) :
    ocbEncryptLoop E modify (fuel + 1) delta checksum plain =
      ⟨[], delta, checksum, true, plain⟩ := by
  rw [ocbEncryptLoop, if_neg hp]

/-- The decrypted block of one decrypt-loop iteration. -/
def decOut (D : List Byte → List Byte) (delta encrypted : List Byte) : List Byte :=
  List.zipWith bxor (s2 delta) (D (List.zipWith bxor (s2 delta) (encrypted.take 16)))

theorem ocbDecryptLoop_zero (E D : List Byte → List Byte)
    (delta checksum encrypted : List Byte) :
    ocbDecryptLoop E D 0 delta checksum encrypted = ⟨[], delta, checksum, encrypted⟩ := rfl

theorem ocbDecryptLoop_succ_pos (E D : List Byte → List Byte) (fuel : Nat)
    (delta checksum encrypted : List Byte) (hp : encrypted.length > 16) :
    ocbDecryptLoop E D (fuel + 1) delta checksum encrypted =
      ⟨decOut D delta encrypted ++
        (ocbDecryptLoop E D fuel (s2 delta)
          (List.zipWith bxor checksum (decOut D delta encrypted))
          (encrypted.drop 16)).plain,
       (ocbDecryptLoop E D fuel (s2 delta)
          (List.zipWith bxor checksum (decOut D delta encrypted))
          (encrypted.drop 16)).delta,
       (ocbDecryptLoop E D fuel (s2 delta)
          (List.zipWith bxor checksum (decOut D delta encrypted))
          (encrypted.drop 16)).checksum,
       (ocbDecryptLoop E D fuel (s2 delta)
          (List.zipWith bxor checksum (decOut D delta encrypted))
          (encrypted.drop 16)).rest⟩ := by
  rw [ocbDecryptLoop, if_pos hp]
  rfl

theorem ocbDecryptLoop_succ_neg (E D : List Byte → List Byte) (fuel : Nat)
    (delta checksum encrypted : List Byte) (hp : ¬encrypted.length > 16) :
    ocbDecryptLoop E D (fuel + 1) delta checksum encrypted =
      ⟨[], delta, checksum, encrypted⟩ := by
  rw [ocbDecryptLoop, if_neg hp]

theorem encOut_length (E : List Byte → List Byte) (hE16 : ∀ b, (E b).length = 16)
    (modify : Bool) (delta plain : List Byte) (hd : delta.length = 16) :
    (encOut E modify delta plain).length = 16 := by
  unfold encOut
  rw [List.length_zipWith, s2_length, hd, hE16]
  rfl

theorem encCk_length (modify : Bool) (c plain : List Byte) (hc : c.length = 16)
    (hp : 16 ≤ plain.length) : (encCk modify c plain).length = 16 := by
  simp only [encCk]
  split
  · rw [List.length_set, List.length_zipWith, List.length_take, hc]
    omega
  · rw [List.length_zipWith, List.length_take, hc]
    omega

theorem decOut_length (D : List Byte → List Byte) (hD16 : ∀ b, (D b).length = 16)
    (delta enc : List Byte) (hd : delta.length = 16) :
    (decOut D delta enc).length = 16 := by
  unfold decOut
  rw [List.length_zipWith, s2_length, hd, hD16]
  rfl

theorem ocbEncryptLoop_modify_success (E : List Byte → List Byte) :
    ∀ (fuel : Nat) (delta checksum plain : List Byte),
    (ocbEncryptLoop E true fuel delta checksum plain).success = true := by
  intro fuel
  induction fuel with
  | zero => intro d c p; rw [ocbEncryptLoop_zero]
  | succ fuel ih =>
    intro d c p
    by_cases hp : p.length > 16
    · rw [ocbEncryptLoop_succ_pos E true fuel d c p hp]
      simp [ih]
    · rw [ocbEncryptLoop_succ_neg E true fuel d c p hp]

theorem ocbEncryptLoop_spec (E : List Byte → List Byte) (hE16 : ∀ b, (E b).length = 16)
    (modify : Bool) :
    ∀ (fuel : Nat) (delta checksum plain : List Byte), delta.length = 16 →
      plain.length ≤ 16 * fuel + 16 →
      (ocbEncryptLoop E modify fuel delta checksum plain).rest.length ≤ 16 ∧
      (ocbEncryptLoop E modify fuel delta checksum plain).cipher.length +
        (ocbEncryptLoop E modify fuel delta checksum plain).rest.length = plain.length ∧
      (ocbEncryptLoop E modify fuel delta checksum plain).delta.length = 16 ∧
      (ocbEncryptLoop E modify fuel delta checksum plain).rest =
        plain.drop (ocbEncryptLoop E modify fuel delta checksum plain).cipher.length ∧
      (checksum.length = 16 →
        (ocbEncryptLoop E modify fuel delta checksum plain).checksum.length = 16) := by
  intro fuel
  induction fuel with
  | zero =>
    intro d c p hd hlen
    rw [ocbEncryptLoop_zero]
    dsimp only
    refine ⟨by omega, by simp, hd, by simp, fun h => h⟩
  | succ fuel ih =>
    intro d c p hd hlen
    by_cases hp : p.length > 16
    · rw [ocbEncryptLoop_succ_pos E modify fuel d c p hp]
      dsimp only
      have hd2 : (s2 d).length = 16 := by rw [s2_length, hd]
      have hlen2 : (p.drop 16).length ≤ 16 * fuel + 16 := by
        rw [List.length_drop]
        omega
      obtain ⟨ih1, ih2, ih3, ih4, ih5⟩ := ih (s2 d) (encCk modify c p) (p.drop 16) hd2 hlen2
      have hout : (encOut E modify d p).length = 16 := encOut_length E hE16 modify d p hd
      refine ⟨ih1, ?_, ih3, ?_, ?_⟩
      · rw [List.length_append, hout]
        rw [List.length_drop] at ih2
        omega
      · rw [List.length_append, hout, ih4, List.drop_drop]
      · intro hc
        exact ih5 (encCk_length modify c p hc (by omega))
    · rw [ocbEncryptLoop_succ_neg E modify fuel d c p hp]
      dsimp only
      refine ⟨by omega, by simp, hd, by simp, fun h => h⟩

theorem ocbDecryptLoop_spec (E D : List Byte → List Byte)
    (hD16 : ∀ b, (D b).length = 16) :
    ∀ (fuel : Nat) (delta checksum enc : List Byte), delta.length = 16 →
      enc.length ≤ 16 * fuel + 16 →
      (ocbDecryptLoop E D fuel delta checksum enc).rest.length ≤ 16 ∧
      (ocbDecryptLoop E D fuel delta checksum enc).plain.length +
        (ocbDecryptLoop E D fuel delta checksum enc).rest.length = enc.length ∧
      (ocbDecryptLoop E D fuel delta checksum enc).delta.length = 16 ∧
      (ocbDecryptLoop E D fuel delta checksum enc).rest =
        enc.drop (ocbDecryptLoop E D fuel delta checksum enc).plain.length ∧
      (checksum.length = 16 →
        (ocbDecryptLoop E D fuel delta checksum enc).checksum.length = 16) := by
  intro fuel
  induction fuel with
  | zero =>
    intro d c e hd hlen
    rw [ocbDecryptLoop_zero]
    dsimp only
    refine ⟨by omega, by simp, hd, by simp, fun h => h⟩
  | succ fuel ih =>
    intro d c e hd hlen
    by_cases hp : e.length > 16
    · rw [ocbDecryptLoop_succ_pos E D fuel d c e hp]
      dsimp only
      have hd2 : (s2 d).length = 16 := by rw [s2_length, hd]
      have hlen2 : (e.drop 16).length ≤ 16 * fuel + 16 := by
        rw [List.length_drop]
        omega
      obtain ⟨ih1, ih2, ih3, ih4, ih5⟩ := ih (s2 d)
        (List.zipWith bxor c (decOut D d e)) (e.drop 16) hd2 hlen2
      have hout : (decOut D d e).length = 16 := decOut_length D hD16 d e hd
      refine ⟨ih1, ?_, ih3, ?_, ?_⟩
      · rw [List.length_append, hout]
        rw [List.length_drop] at ih2
        omega
      · rw [List.length_append, hout, ih4, List.drop_drop]
      · intro hc
        apply ih5
        rw [List.length_zipWith, hc, hout]
        rfl
    · rw [ocbDecryptLoop_succ_neg E D fuel d c e hp]
      dsimp only
      refine ⟨by omega, by simp, hd, by simp, fun h => h⟩

/-- Whether the encrypt loop's XEX* guard fires on any iteration over
`plain` (a property of the plaintext alone). -/
def xexEncGuardFires : Nat → List Byte → Bool
  | 0, _ => false
  | fuel + 1, plain =>
    if plain.length > 16 then encGuard plain || xexEncGuardFires fuel (plain.drop 16)
    else false

theorem ocbEncryptLoop_noGuard (E : List Byte → List Byte) (modify : Bool) :
    ∀ (fuel : Nat) (delta checksum plain : List Byte),
      xexEncGuardFires fuel plain = false →
      ocbEncryptLoop E modify fuel delta checksum plain =
        ocbEncryptLoop E false fuel delta checksum plain ∧
      (ocbEncryptLoop E modify fuel delta checksum plain).success = true := by
  intro fuel
  induction fuel with
  | zero =>
    intro d c p _
    rw [ocbEncryptLoop_zero, ocbEncryptLoop_zero]
    exact ⟨rfl, rfl⟩
  | succ fuel ih =>
    intro d c p hg
    by_cases hp : p.length > 16
    · rw [xexEncGuardFires, if_pos hp, Bool.or_eq_false_iff] at hg
      obtain ⟨hg1, hg2⟩ := hg
      have hflip : ∀ m : Bool, encFlip m p = false := by
        intro m
        unfold encFlip
        rw [hg1, Bool.false_and]
      have hck : encCk modify c p = encCk false c p := by
        unfold encCk
        rw [hflip modify, hflip false]
      have htmp : encTmp modify d p = encTmp false d p := by
        unfold encTmp
        rw [hflip modify, hflip false]
      have hout : encOut E modify d p = encOut E false d p := by
        unfold encOut
        rw [htmp]
      obtain ⟨ihEq, ihSucc⟩ := ih (s2 d) (encCk false c p) (p.drop 16) hg2
      rw [ocbEncryptLoop_succ_pos E modify fuel d c p hp,
        ocbEncryptLoop_succ_pos E false fuel d c p hp]
      rw [hck, hout, hg1]
      constructor
      · rw [ihEq]
        simp
      · dsimp only
        rw [ihSucc]
        simp
    · rw [ocbEncryptLoop_succ_neg E modify fuel d c p hp,
        ocbEncryptLoop_succ_neg E false fuel d c p hp]
      exact ⟨rfl, rfl⟩

theorem ocbLoop_roundtrip (E D : List Byte → List Byte)
    (hED : ∀ b, b.length = 16 → D (E b) = b) (hE16 : ∀ b, (E b).length = 16) :
    ∀ (fuel : Nat) (delta checksum plain tail : List Byte), delta.length = 16 →
      plain.length ≤ 16 * fuel + 16 →
      xexEncGuardFires fuel plain = false →
      tail.length = (ocbEncryptLoop E false fuel delta checksum plain).rest.length →
      (ocbDecryptLoop E D fuel delta checksum
          ((ocbEncryptLoop E false fuel delta checksum plain).cipher ++ tail)).plain =
        plain.take (ocbEncryptLoop E false fuel delta checksum plain).cipher.length ∧
      (ocbDecryptLoop E D fuel delta checksum
          ((ocbEncryptLoop E false fuel delta checksum plain).cipher ++ tail)).delta =
        (ocbEncryptLoop E false fuel delta checksum plain).delta ∧
      (ocbDecryptLoop E D fuel delta checksum
          ((ocbEncryptLoop E false fuel delta checksum plain).cipher ++ tail)).checksum =
        (ocbEncryptLoop E false fuel delta checksum plain).checksum ∧
      (ocbDecryptLoop E D fuel delta checksum
          ((ocbEncryptLoop E false fuel delta checksum plain).cipher ++ tail)).rest =
        tail := by
  intro fuel
  induction fuel with
  | zero =>
    intro d c p tl hd hlen hg htl
    rw [ocbEncryptLoop_zero] at htl ⊢
    dsimp only at htl ⊢
    rw [List.nil_append, ocbDecryptLoop_zero]
    exact ⟨by simp, rfl, rfl, rfl⟩
  | succ fuel ih =>
    intro d c p tl hd hlen hg htl
    by_cases hp : p.length > 16
    · rw [xexEncGuardFires, if_pos hp, Bool.or_eq_false_iff] at hg
      obtain ⟨hg1, hg2⟩ := hg
      have hd2 : (s2 d).length = 16 := by rw [s2_length, hd]
      have hlen2 : (p.drop 16).length ≤ 16 * fuel + 16 := by
        rw [List.length_drop]
        omega
      obtain ⟨sp1, sp2, sp3, sp4, sp5⟩ := ocbEncryptLoop_spec E hE16 false fuel
        (s2 d) (encCk false c p) (p.drop 16) hd2 hlen2
      rw [List.length_drop] at sp2
      rw [ocbEncryptLoop_succ_pos E false fuel d c p hp] at htl ⊢
      dsimp only at htl ⊢
      have hflip : encFlip false p = false := by
        unfold encFlip
        rw [Bool.and_false]
      have htmp16 : (encTmp false d p).length = 16 := by
        unfold encTmp
        rw [hflip, if_neg (by simp)]
        rw [List.length_zipWith, List.length_take, hd2]
        omega
      have houtlen : (encOut E false d p).length = 16 := encOut_length E hE16 false d p hd
      -- the decrypted first block is the first plaintext block
      have hdecOut : ∀ rest2 : List Byte,
          decOut D d (encOut E false d p ++ rest2) = p.take 16 := by
        intro rest2
        unfold decOut
        rw [List.take_left' houtlen]
        unfold encOut
        have hc1 : List.zipWith bxor (s2 d)
            (List.zipWith bxor (s2 d) (E (encTmp false d p))) =
            (E (encTmp false d p)).take 16 := by
          rw [zipWith_bxor_cancel, hd2]
        rw [hc1]
        rw [List.take_of_length_le (by rw [hE16])]
        rw [hED _ htmp16]
        unfold encTmp
        rw [hflip, if_neg (by simp)]
        rw [zipWith_bxor_cancel, hd2]
        rw [List.take_take]
        rfl
      -- dec input associativity
      rw [List.append_assoc]
      have hinplen : (encOut E false d p ++
          ((ocbEncryptLoop E false fuel (s2 d) (encCk false c p) (p.drop 16)).cipher ++ tl)).length > 16 := by
        rw [List.length_append, List.length_append, houtlen]
        omega
      rw [ocbDecryptLoop_succ_pos E D fuel d c _ hinplen]
      dsimp only
      rw [hdecOut]
      have hckeq : List.zipWith bxor c (p.take 16) = encCk false c p := by
        unfold encCk
        rw [hflip, if_neg (by simp)]
      rw [hckeq]
      have hdrop : (encOut E false d p ++
          ((ocbEncryptLoop E false fuel (s2 d) (encCk false c p) (p.drop 16)).cipher ++
            tl)).drop 16 =
          (ocbEncryptLoop E false fuel (s2 d) (encCk false c p) (p.drop 16)).cipher ++ tl :=
        List.drop_left' houtlen
      rw [hdrop]
      obtain ⟨ihP, ihD, ihC, ihR⟩ := ih (s2 d) (encCk false c p) (p.drop 16) tl
        hd2 hlen2 hg2 htl
      refine ⟨?_, ihD, ihC, ihR⟩
      rw [ihP, ← List.take_add, List.length_append, houtlen]
    · rw [ocbEncryptLoop_succ_neg E false fuel d c p hp] at htl ⊢
      dsimp only at htl ⊢
      rw [List.nil_append]
      rw [ocbDecryptLoop_succ_neg E D fuel d c tl (by omega)]
      exact ⟨by simp, rfl, rfl, rfl⟩

theorem bxor_xor_cancel (p s : Byte) : bxor (bxor p s) p = s := by
  apply Fin.ext
  show p.val ^^^ s.val ^^^ p.val = s.val
  rw [Nat.xor_comm p.val s.val]
  exact Nat.xor_cancel_right p.val s.val

theorem finalBlock_roundtrip : ∀ (seg pad : List Byte), seg.length ≤ pad.length →
    List.zipWith bxor
      ((List.zipWith bxor pad (seg ++ pad.drop seg.length)).take seg.length ++
        List.replicate (pad.length - seg.length) (byte 0)) pad =
      seg ++ pad.drop seg.length
  | [], pad, _ => by
    simp only [List.length_nil, List.nil_append, List.drop_zero, List.take_zero, Nat.sub_zero]
    exact (zip_bxor_zero_left pad.length pad).trans (List.take_length pad)
  | s :: seg, [], h => by
    simp at h
  | s :: seg, p :: pad, h => by
    simp only [List.length_cons, List.cons_append, List.drop_succ_cons, List.zipWith_cons_cons,
      List.take_succ_cons, Nat.succ_sub_succ]
    rw [bxor_xor_cancel]
    rw [finalBlock_roundtrip seg pad (by simpa using h)]

/-- The final-block pad `E(len ⊕ s2 Δ)` shared by encryption and decryption. -/
def ocbPad (E : List Byte → List Byte) (delta : List Byte) (n : Nat) : List Byte :=
  E (List.zipWith bxor (lenBlock n) (s2 delta))

/-- The tag `E(s3(s2 Δ) ⊕ checksum)` shared by encryption and decryption. -/
def ocbTag (E : List Byte → List Byte) (delta checksum : List Byte) : List Byte :=
  E (List.zipWith bxor (s3 (s2 delta)) checksum)

theorem ocbEncrypt_eq (E : List Byte → List Byte) (modify : Bool) (nonce plain : List Byte) :
    ocbEncrypt E modify nonce plain =
      ⟨(ocbEncryptLoop E modify plain.length (E nonce) zeroBlock plain).cipher ++
         (List.zipWith bxor (ocbPad E (ocbEncryptLoop E modify plain.length (E nonce) zeroBlock plain).delta (ocbEncryptLoop E modify plain.length (E nonce) zeroBlock plain).rest.length) ((ocbEncryptLoop E modify plain.length (E nonce) zeroBlock plain).rest ++ (ocbPad E (ocbEncryptLoop E modify plain.length (E nonce) zeroBlock plain).delta (ocbEncryptLoop E modify plain.length (E nonce) zeroBlock plain).rest.length).drop (ocbEncryptLoop E modify plain.length (E nonce) zeroBlock plain).rest.length)).take (ocbEncryptLoop E modify plain.length (E nonce) zeroBlock plain).rest.length,
       ocbTag E (ocbEncryptLoop E modify plain.length (E nonce) zeroBlock plain).delta
         (List.zipWith bxor (ocbEncryptLoop E modify plain.length (E nonce) zeroBlock plain).checksum ((ocbEncryptLoop E modify plain.length (E nonce) zeroBlock plain).rest ++ (ocbPad E (ocbEncryptLoop E modify plain.length (E nonce) zeroBlock plain).delta (ocbEncryptLoop E modify plain.length (E nonce) zeroBlock plain).rest.length).drop (ocbEncryptLoop E modify plain.length (E nonce) zeroBlock plain).rest.length)),
       (ocbEncryptLoop E modify plain.length (E nonce) zeroBlock plain).success⟩ := rfl

theorem ocbDecrypt_eq (E D : List Byte → List Byte) (nonce encrypted : List Byte) :
    ocbDecrypt E D nonce encrypted =
      ⟨(ocbDecryptLoop E D encrypted.length (E nonce) zeroBlock encrypted).plain ++ (List.zipWith bxor ((ocbDecryptLoop E D encrypted.length (E nonce) zeroBlock encrypted).rest ++ List.replicate (16 - (ocbDecryptLoop E D encrypted.length (E nonce) zeroBlock encrypted).rest.length) (byte 0)) (ocbPad E (ocbDecryptLoop E D encrypted.length (E nonce) zeroBlock encrypted).delta (ocbDecryptLoop E D encrypted.length (E nonce) zeroBlock encrypted).rest.length)).take (ocbDecryptLoop E D encrypted.length (E nonce) zeroBlock encrypted).rest.length,
       ocbTag E (ocbDecryptLoop E D encrypted.length (E nonce) zeroBlock encrypted).delta (List.zipWith bxor (ocbDecryptLoop E D encrypted.length (E nonce) zeroBlock encrypted).checksum (List.zipWith bxor ((ocbDecryptLoop E D encrypted.length (E nonce) zeroBlock encrypted).rest ++ List.replicate (16 - (ocbDecryptLoop E D encrypted.length (E nonce) zeroBlock encrypted).rest.length) (byte 0)) (ocbPad E (ocbDecryptLoop E D encrypted.length (E nonce) zeroBlock encrypted).delta (ocbDecryptLoop E D encrypted.length (E nonce) zeroBlock encrypted).rest.length))),
       !((List.zipWith bxor ((ocbDecryptLoop E D encrypted.length (E nonce) zeroBlock encrypted).rest ++ List.replicate (16 - (ocbDecryptLoop E D encrypted.length (E nonce) zeroBlock encrypted).rest.length) (byte 0)) (ocbPad E (ocbDecryptLoop E D encrypted.length (E nonce) zeroBlock encrypted).delta (ocbDecryptLoop E D encrypted.length (E nonce) zeroBlock encrypted).rest.length)).take 15 == (s2 (ocbDecryptLoop E D encrypted.length (E nonce) zeroBlock encrypted).delta).take 15)⟩ := rfl

/-- Whether the decrypt-side XEX* detection fires on the honest decryption of
the encryption of `plain` under nonce `nonce` (a property of `E`, the nonce
and the plaintext). -/
def xexDecCheckFires (E : List Byte → List Byte) (nonce plain : List Byte) : Bool :=
  ((ocbEncryptLoop E false plain.length (E nonce) zeroBlock plain).rest ++
      (ocbPad E (ocbEncryptLoop E false plain.length (E nonce) zeroBlock plain).delta
        (ocbEncryptLoop E false plain.length (E nonce) zeroBlock plain).rest.length).drop
        (ocbEncryptLoop E false plain.length (E nonce) zeroBlock plain).rest.length).take 15 ==
    (s2 (ocbEncryptLoop E false plain.length (E nonce) zeroBlock plain).delta).take 15

theorem ocb_roundtrip_core (E D : List Byte → List Byte)
    (hED : ∀ b, b.length = 16 → D (E b) = b) (hE16 : ∀ b, (E b).length = 16)
    (nonce plain : List Byte)
    (hg : xexEncGuardFires plain.length plain = false) :
    (ocbEncrypt E false nonce plain).success = true ∧
    (ocbEncrypt E false nonce plain).encrypted.length = plain.length ∧
    ocbDecrypt E D nonce (ocbEncrypt E false nonce plain).encrypted =
      ⟨plain, (ocbEncrypt E false nonce plain).tag, !xexDecCheckFires E nonce plain⟩ := by
  have hd0 : (E nonce).length = 16 := hE16 nonce
  have hlen : plain.length ≤ 16 * plain.length + 16 := by omega
  obtain ⟨sp1, sp2, sp3, sp4, sp5⟩ := ocbEncryptLoop_spec E hE16 false plain.length
    (E nonce) zeroBlock plain hd0 hlen
  have hsucc := (ocbEncryptLoop_noGuard E false plain.length (E nonce) zeroBlock plain hg).2
  have hpadlen : (ocbPad E (ocbEncryptLoop E false plain.length (E nonce) zeroBlock plain).delta (ocbEncryptLoop E false plain.length (E nonce) zeroBlock plain).rest.length).length = 16 := hE16 _
  have hfullE : ((ocbEncryptLoop E false plain.length (E nonce) zeroBlock plain).rest ++ (ocbPad E (ocbEncryptLoop E false plain.length (E nonce) zeroBlock plain).delta (ocbEncryptLoop E false plain.length (E nonce) zeroBlock plain).rest.length).drop (ocbEncryptLoop E false plain.length (E nonce) zeroBlock plain).rest.length).length = 16 := by
    rw [List.length_append, List.length_drop, hpadlen]
    omega
  have hseg : ((List.zipWith bxor (ocbPad E (ocbEncryptLoop E false plain.length (E nonce) zeroBlock plain).delta (ocbEncryptLoop E false plain.length (E nonce) zeroBlock plain).rest.length) ((ocbEncryptLoop E false plain.length (E nonce) zeroBlock plain).rest ++ (ocbPad E (ocbEncryptLoop E false plain.length (E nonce) zeroBlock plain).delta (ocbEncryptLoop E false plain.length (E nonce) zeroBlock plain).rest.length).drop (ocbEncryptLoop E false plain.length (E nonce) zeroBlock plain).rest.length)).take (ocbEncryptLoop E false plain.length (E nonce) zeroBlock plain).rest.length).length = (ocbEncryptLoop E false plain.length (E nonce) zeroBlock plain).rest.length := by
    rw [List.length_take, List.length_zipWith, hpadlen, hfullE]
    omega
  have henc : ((ocbEncryptLoop E false plain.length (E nonce) zeroBlock plain).cipher ++ ((List.zipWith bxor (ocbPad E (ocbEncryptLoop E false plain.length (E nonce) zeroBlock plain).delta (ocbEncryptLoop E false plain.length (E nonce) zeroBlock plain).rest.length) ((ocbEncryptLoop E false plain.length (E nonce) zeroBlock plain).rest ++ (ocbPad E (ocbEncryptLoop E false plain.length (E nonce) zeroBlock plain).delta (ocbEncryptLoop E false plain.length (E nonce) zeroBlock plain).rest.length).drop (ocbEncryptLoop E false plain.length (E nonce) zeroBlock plain).rest.length)).take (ocbEncryptLoop E false plain.length (E nonce) zeroBlock plain).rest.length)).length = plain.length := by
    rw [List.length_append, hseg]
    omega
  obtain ⟨rt1, rt2, rt3, rt4⟩ := ocbLoop_roundtrip E D hED hE16 plain.length
    (E nonce) zeroBlock plain ((List.zipWith bxor (ocbPad E (ocbEncryptLoop E false plain.length (E nonce) zeroBlock plain).delta (ocbEncryptLoop E false plain.length (E nonce) zeroBlock plain).rest.length) ((ocbEncryptLoop E false plain.length (E nonce) zeroBlock plain).rest ++ (ocbPad E (ocbEncryptLoop E false plain.length (E nonce) zeroBlock plain).delta (ocbEncryptLoop E false plain.length (E nonce) zeroBlock plain).rest.length).drop (ocbEncryptLoop E false plain.length (E nonce) zeroBlock plain).rest.length)).take (ocbEncryptLoop E false plain.length (E nonce) zeroBlock plain).rest.length) hd0 hlen hg hseg
  refine ⟨?_, ?_, ?_⟩
  · rw [ocbEncrypt_eq]
    exact hsucc
  · rw [ocbEncrypt_eq]
    dsimp only
    exact henc
  · rw [ocbEncrypt_eq]
    dsimp only
    rw [ocbDecrypt_eq, henc]
    rw [rt1, rt2, rt3, rt4, hseg]
    have hFB := finalBlock_roundtrip (ocbEncryptLoop E false plain.length (E nonce) zeroBlock plain).rest (ocbPad E (ocbEncryptLoop E false plain.length (E nonce) zeroBlock plain).delta (ocbEncryptLoop E false plain.length (E nonce) zeroBlock plain).rest.length) (by rw [hpadlen]; exact sp1)
    rw [hpadlen] at hFB
    rw [hFB]
    have hTL : ((ocbEncryptLoop E false plain.length (E nonce) zeroBlock plain).rest ++ (ocbPad E (ocbEncryptLoop E false plain.length (E nonce) zeroBlock plain).delta (ocbEncryptLoop E false plain.length (E nonce) zeroBlock plain).rest.length).drop (ocbEncryptLoop E false plain.length (E nonce) zeroBlock plain).rest.length).take (ocbEncryptLoop E false plain.length (E nonce) zeroBlock plain).rest.length = (ocbEncryptLoop E false plain.length (E nonce) zeroBlock plain).rest := List.take_left' rfl
    rw [hTL]
    rw [show xexDecCheckFires E nonce plain =
      (((ocbEncryptLoop E false plain.length (E nonce) zeroBlock plain).rest ++ (ocbPad E (ocbEncryptLoop E false plain.length (E nonce) zeroBlock plain).delta (ocbEncryptLoop E false plain.length (E nonce) zeroBlock plain).rest.length).drop (ocbEncryptLoop E false plain.length (E nonce) zeroBlock plain).rest.length).take 15 == (s2 (ocbEncryptLoop E false plain.length (E nonce) zeroBlock plain).delta).take 15) from rfl]
    rw [sp4, List.take_append_drop]

theorem getD_drop (l : List Byte) (n m : Nat) :
    (l.drop n).getD m (byte 0) = l.getD (n + m) (byte 0) := by
  rw [List.getD_eq_getElem?_getD, List.getD_eq_getElem?_getD, List.getElem?_drop]

theorem set_ne_of_ne (l : List Byte) (k : Nat) (v : Byte) (h : k < l.length)
    (hv : v ≠ l.getD k (byte 0)) : l.set k v ≠ l := by
  intro heq
  have h1 := congrArg (fun t => t.getD k (byte 0)) heq
  simp only at h1
  rw [getD_set_self _ _ _ _ h] at h1
  exact hv h1

theorem encBlock_inj (E D : List Byte → List Byte)
    (hED : ∀ b, b.length = 16 → D (E b) = b) (x y : List Byte)
    (hx : x.length = 16) (hy : y.length = 16) (hne : x ≠ y) : E x ≠ E y := by
  intro h
  exact hne (by rw [← hED x hx, ← hED y hy, h])

theorem decBlock_inj (E D : List Byte → List Byte)
    (hDE : ∀ b, b.length = 16 → E (D b) = b) (x y : List Byte)
    (hx : x.length = 16) (hy : y.length = 16) (hne : x ≠ y) : D x ≠ D y := by
  intro h
  exact hne (by rw [← hDE x hx, ← hDE y hy, h])

theorem ocbDecryptLoop_ck_inj (E D : List Byte → List Byte)
    (hD16 : ∀ b, (D b).length = 16) :
    ∀ (fuel : Nat) (delta buf c1 c2 : List Byte), delta.length = 16 →
      c1.length = 16 → c2.length = 16 →
      (ocbDecryptLoop E D fuel delta c1 buf).delta =
        (ocbDecryptLoop E D fuel delta c2 buf).delta ∧
      (ocbDecryptLoop E D fuel delta c1 buf).plain =
        (ocbDecryptLoop E D fuel delta c2 buf).plain ∧
      (ocbDecryptLoop E D fuel delta c1 buf).rest =
        (ocbDecryptLoop E D fuel delta c2 buf).rest ∧
      (c1 ≠ c2 →
        (ocbDecryptLoop E D fuel delta c1 buf).checksum ≠
          (ocbDecryptLoop E D fuel delta c2 buf).checksum) := by
  intro fuel
  induction fuel with
  | zero =>
    intro d buf c1 c2 hd h1 h2
    rw [ocbDecryptLoop_zero, ocbDecryptLoop_zero]
    exact ⟨rfl, rfl, rfl, fun h => h⟩
  | succ fuel ih =>
    intro d buf c1 c2 hd h1 h2
    by_cases hp : buf.length > 16
    · rw [ocbDecryptLoop_succ_pos E D fuel d c1 buf hp,
        ocbDecryptLoop_succ_pos E D fuel d c2 buf hp]
      dsimp only
      have hd2 : (s2 d).length = 16 := by rw [s2_length, hd]
      have hout : (decOut D d buf).length = 16 := decOut_length D hD16 d buf hd
      have hl1 : (List.zipWith bxor c1 (decOut D d buf)).length = 16 := by
        rw [List.length_zipWith, h1, hout]
        rfl
      have hl2 : (List.zipWith bxor c2 (decOut D d buf)).length = 16 := by
        rw [List.length_zipWith, h2, hout]
        rfl
      obtain ⟨ih1, ih2, ih3, ih4⟩ := ih (s2 d) (buf.drop 16)
        (List.zipWith bxor c1 (decOut D d buf)) (List.zipWith bxor c2 (decOut D d buf))
        hd2 hl1 hl2
      refine ⟨ih1, by rw [ih2], ih3, ?_⟩
      intro hne
      apply ih4
      intro heq
      exact hne (zipWith_bxor_left_inj c1 c2 (decOut D d buf) (by omega) (by omega) heq)
    · rw [ocbDecryptLoop_succ_neg E D fuel d c1 buf hp,
        ocbDecryptLoop_succ_neg E D fuel d c2 buf hp]
      exact ⟨rfl, rfl, rfl, fun h => h⟩

theorem getD_take (l : List Byte) (k m : Nat) (h : m < k) :
    (l.take k).getD m (byte 0) = l.getD m (byte 0) := by
  rw [List.getD_eq_getElem?_getD, List.getElem?_take, if_pos h, ← List.getD_eq_getElem?_getD]

theorem ocbDecryptLoop_flip_block (E D : List Byte → List Byte)
    (hDE : ∀ b, b.length = 16 → E (D b) = b) (hD16 : ∀ b, (D b).length = 16) :
    ∀ (fuel : Nat) (delta c buf : List Byte) (j : Nat) (v2 : Byte), delta.length = 16 →
      c.length = 16 →
      j < buf.length - (ocbDecryptLoop E D fuel delta c buf).rest.length →
      v2 ≠ buf.getD j (byte 0) →
      (ocbDecryptLoop E D fuel delta c (buf.set j v2)).delta =
        (ocbDecryptLoop E D fuel delta c buf).delta ∧
      (ocbDecryptLoop E D fuel delta c (buf.set j v2)).rest =
        (ocbDecryptLoop E D fuel delta c buf).rest ∧
      (ocbDecryptLoop E D fuel delta c (buf.set j v2)).checksum ≠
        (ocbDecryptLoop E D fuel delta c buf).checksum := by
  intro fuel
  induction fuel with
  | zero =>
    intro d c buf j v2 hd hc hj hv2
    rw [ocbDecryptLoop_zero] at hj
    dsimp only at hj
    omega
  | succ fuel ih =>
    intro d c buf j v2 hd hc hj hv2
    by_cases hp : buf.length > 16
    · have hp2 : (buf.set j v2).length > 16 := by rw [List.length_set]; exact hp
      rw [ocbDecryptLoop_succ_pos E D fuel d c buf hp] at hj
      dsimp only at hj
      rw [ocbDecryptLoop_succ_pos E D fuel d c buf hp,
        ocbDecryptLoop_succ_pos E D fuel d c (buf.set j v2) hp2]
      dsimp only
      have hd2 : (s2 d).length = 16 := by rw [s2_length, hd]
      have hout1 : (decOut D d buf).length = 16 := decOut_length D hD16 d buf hd
      have hck1 : (List.zipWith bxor c (decOut D d buf)).length = 16 := by
        rw [List.length_zipWith, hc, hout1]
        rfl
      by_cases hj16 : j < 16
      · have htake : (buf.set j v2).take 16 = (buf.take 16).set j v2 :=
          take_set_of_lt buf j 16 v2 hj16
        have hdrop : (buf.set j v2).drop 16 = buf.drop 16 := by
          rw [List.drop_set, if_pos hj16]
        have htl : (buf.take 16).length = 16 := by
          rw [List.length_take]
          omega
        have hbne : (buf.take 16).set j v2 ≠ buf.take 16 := by
          apply set_ne_of_ne _ _ _ (by omega)
          rw [getD_take buf 16 j hj16]
          exact hv2
        have houtne : decOut D d (buf.set j v2) ≠ decOut D d buf := by
          unfold decOut
          rw [htake]
          intro heq
          have htmplen1 : (List.zipWith bxor (s2 d) ((buf.take 16).set j v2)).length = 16 := by
            rw [List.length_zipWith, hd2, List.length_set, htl]
            rfl
          have htmplen2 : (List.zipWith bxor (s2 d) (buf.take 16)).length = 16 := by
            rw [List.length_zipWith, hd2, htl]
            rfl
          have h1 : D (List.zipWith bxor (s2 d) ((buf.take 16).set j v2)) =
              D (List.zipWith bxor (s2 d) (buf.take 16)) :=
            zipWith_bxor_right_inj (s2 d) _ _ (by rw [hD16, hD16])
              (by rw [hD16, hd2]) heq
          have h2 : List.zipWith bxor (s2 d) ((buf.take 16).set j v2) =
              List.zipWith bxor (s2 d) (buf.take 16) := by
            by_contra hne
            exact decBlock_inj E D hDE _ _ htmplen1 htmplen2 hne h1
          have h3 : (buf.take 16).set j v2 = buf.take 16 :=
            zipWith_bxor_right_inj (s2 d) _ _ (by rw [List.length_set])
              (by rw [List.length_set, htl, hd2]) h2
          exact hbne h3
        have hout2 : (decOut D d (buf.set j v2)).length = 16 :=
          decOut_length D hD16 d (buf.set j v2) hd
        have hck2 : (List.zipWith bxor c (decOut D d (buf.set j v2))).length = 16 := by
          rw [List.length_zipWith, hc, hout2]
          rfl
        have hckne : List.zipWith bxor c (decOut D d (buf.set j v2)) ≠
            List.zipWith bxor c (decOut D d buf) := by
          intro heq
          exact houtne (zipWith_bxor_right_inj c _ _ (by rw [hout1, hout2])
            (by rw [hout2, hc]) heq)
        rw [hdrop]
        obtain ⟨k1, k2, k3, k4⟩ := ocbDecryptLoop_ck_inj E D hD16 fuel (s2 d) (buf.drop 16)
          (List.zipWith bxor c (decOut D d (buf.set j v2)))
          (List.zipWith bxor c (decOut D d buf)) hd2 hck2 hck1
        exact ⟨k1, k3, k4 hckne⟩
      · have htake : (buf.set j v2).take 16 = buf.take 16 :=
          take_set_of_le buf j 16 v2 (by omega)
        have hdrop : (buf.set j v2).drop 16 = (buf.drop 16).set (j - 16) v2 := by
          rw [List.drop_set, if_neg (by omega)]
        have hdecEq : decOut D d (buf.set j v2) = decOut D d buf := by
          unfold decOut
          rw [htake]
        rw [hdecEq, hdrop]
        have hj2 : j - 16 < (buf.drop 16).length -
            (ocbDecryptLoop E D fuel (s2 d) (List.zipWith bxor c (decOut D d buf))
              (buf.drop 16)).rest.length := by
          rw [List.length_drop]
          omega
        have hv22 : v2 ≠ (buf.drop 16).getD (j - 16) (byte 0) := by
          rw [getD_drop, show 16 + (j - 16) = j from by omega]
          exact hv2
        obtain ⟨i1, i2, i3⟩ := ih (s2 d) (List.zipWith bxor c (decOut D d buf))
          (buf.drop 16) (j - 16) v2 hd2 hck1 hj2 hv22
        exact ⟨i1, i2, i3⟩
    · rw [ocbDecryptLoop_succ_neg E D fuel d c buf hp] at hj
      dsimp only at hj
      omega

theorem ocbDecryptLoop_flip_rest (E D : List Byte → List Byte)
    (hD16 : ∀ b, (D b).length = 16) :
    ∀ (fuel : Nat) (delta c buf : List Byte) (j : Nat) (v2 : Byte), delta.length = 16 →
      buf.length ≤ 16 * fuel + 16 →
      buf.length - (ocbDecryptLoop E D fuel delta c buf).rest.length ≤ j →
      j < buf.length →
      (ocbDecryptLoop E D fuel delta c (buf.set j v2)).delta =
        (ocbDecryptLoop E D fuel delta c buf).delta ∧
      (ocbDecryptLoop E D fuel delta c (buf.set j v2)).checksum =
        (ocbDecryptLoop E D fuel delta c buf).checksum ∧
      (ocbDecryptLoop E D fuel delta c (buf.set j v2)).plain =
        (ocbDecryptLoop E D fuel delta c buf).plain ∧
      (ocbDecryptLoop E D fuel delta c (buf.set j v2)).rest =
        (ocbDecryptLoop E D fuel delta c buf).rest.set
          (j - (buf.length - (ocbDecryptLoop E D fuel delta c buf).rest.length)) v2 := by
  intro fuel
  induction fuel with
  | zero =>
    intro d c buf j v2 hd hlen hj hjlt
    rw [ocbDecryptLoop_zero, ocbDecryptLoop_zero]
    dsimp only
    refine ⟨rfl, rfl, rfl, ?_⟩
    rw [show j - (buf.length - buf.length) = j from by omega]
  | succ fuel ih =>
    intro d c buf j v2 hd hlen hj hjlt
    by_cases hp : buf.length > 16
    · have hp2 : (buf.set j v2).length > 16 := by rw [List.length_set]; exact hp
      rw [ocbDecryptLoop_succ_pos E D fuel d c buf hp] at hj
      dsimp only at hj
      rw [ocbDecryptLoop_succ_pos E D fuel d c buf hp,
        ocbDecryptLoop_succ_pos E D fuel d c (buf.set j v2) hp2]
      dsimp only
      have hd2 : (s2 d).length = 16 := by rw [s2_length, hd]
      have hlen2 : (buf.drop 16).length ≤ 16 * fuel + 16 := by
        rw [List.length_drop]
        omega
      obtain ⟨sp1, sp2, sp3, sp4, sp5⟩ := ocbDecryptLoop_spec E D hD16 fuel (s2 d)
        (List.zipWith bxor c (decOut D d buf)) (buf.drop 16) hd2 hlen2
      rw [List.length_drop] at sp2
      have hj16 : 16 ≤ j := by omega
      have htake : (buf.set j v2).take 16 = buf.take 16 :=
        take_set_of_le buf j 16 v2 hj16
      have hdrop : (buf.set j v2).drop 16 = (buf.drop 16).set (j - 16) v2 := by
        rw [List.drop_set, if_neg (by omega)]
      have hdecEq : decOut D d (buf.set j v2) = decOut D d buf := by
        unfold decOut
        rw [htake]
      rw [hdecEq, hdrop]
      have hj2 : (buf.drop 16).length -
          (ocbDecryptLoop E D fuel (s2 d) (List.zipWith bxor c (decOut D d buf))
            (buf.drop 16)).rest.length ≤ j - 16 := by
        rw [List.length_drop]
        omega
      have hjlt2 : j - 16 < (buf.drop 16).length := by
        rw [List.length_drop]
        omega
      obtain ⟨i1, i2, i3, i4⟩ := ih (s2 d) (List.zipWith bxor c (decOut D d buf))
        (buf.drop 16) (j - 16) v2 hd2 hlen2 hj2 hjlt2
      refine ⟨i1, i2, by rw [i3], ?_⟩
      rw [i4, List.length_drop]
      congr 1
      omega
    · have hp2 : ¬(buf.set j v2).length > 16 := by rw [List.length_set]; exact hp
      rw [ocbDecryptLoop_succ_neg E D fuel d c buf hp] at hj
      dsimp only at hj
      rw [ocbDecryptLoop_succ_neg E D fuel d c buf hp,
        ocbDecryptLoop_succ_neg E D fuel d c (buf.set j v2) hp2]
      dsimp only
      refine ⟨rfl, rfl, rfl, ?_⟩
      rw [show j - (buf.length - buf.length) = j from by omega]

theorem getD_append_left (l1 l2 : List Byte) (n : Nat) (h : n < l1.length) :
    (l1 ++ l2).getD n (byte 0) = l1.getD n (byte 0) := by
  rw [List.getD_eq_getElem?_getD, List.getD_eq_getElem?_getD, List.getElem?_append_left h]

theorem ocbTag_inj (E D : List Byte → List Byte)
    (hED : ∀ b, b.length = 16 → D (E b) = b) (delta c1 c2 : List Byte)
    (hdl : delta.length = 16) (h1 : c1.length = 16) (h2 : c2.length = 16)
    (hne : c1 ≠ c2) : ocbTag E delta c1 ≠ ocbTag E delta c2 := by
  unfold ocbTag
  have hs3 : (s3 (s2 delta)).length = 16 := by rw [s3_length, s2_length, hdl]
  apply encBlock_inj E D hED _ _
    (by rw [List.length_zipWith, hs3, h1]; rfl)
    (by rw [List.length_zipWith, hs3, h2]; rfl)
  intro heq
  exact hne (zipWith_bxor_right_inj (s3 (s2 delta)) c1 c2 (by omega) (by omega) heq)

theorem ocbDecrypt_flip_tag_ne (E D : List Byte → List Byte)
    (hED : ∀ b, b.length = 16 → D (E b) = b)
    (hDE : ∀ b, b.length = 16 → E (D b) = b)
    (hE16 : ∀ b, (E b).length = 16) (hD16 : ∀ b, (D b).length = 16)
    (nonce enc : List Byte) (i : Nat) (hi : i < 8 * enc.length) :
    (ocbDecrypt E D nonce (flipBit enc i)).tag ≠ (ocbDecrypt E D nonce enc).tag := by
  unfold flipBit
  have hd0 : (E nonce).length = 16 := hE16 nonce
  have hlen : enc.length ≤ 16 * enc.length + 16 := by omega
  have hjlt : i / 8 < enc.length := by omega
  have hv2 : bxor (enc.getD (i / 8) (byte 0)) (byte (1 <<< (i % 8))) ≠
      enc.getD (i / 8) (byte 0) := by
    intro heq
    exact flipMask_ne_zero (i % 8) (Nat.mod_lt i (by omega)) (bxor_eq_self _ _ heq)
  obtain ⟨sp1, sp2, sp3, sp4, sp5⟩ := ocbDecryptLoop_spec E D hD16 enc.length
    (E nonce) zeroBlock enc hd0 hlen
  have hck16 : (ocbDecryptLoop E D enc.length (E nonce) zeroBlock enc).checksum.length = 16 :=
    sp5 zeroBlock_length
  have hfull16 : ((ocbDecryptLoop E D enc.length (E nonce) zeroBlock enc).rest ++
      List.replicate (16 - (ocbDecryptLoop E D enc.length (E nonce) zeroBlock enc).rest.length)
        (byte 0)).length = 16 := by
    rw [List.length_append, List.length_replicate]
    omega
  have hpad16 : (ocbPad E (ocbDecryptLoop E D enc.length (E nonce) zeroBlock enc).delta
      (ocbDecryptLoop E D enc.length (E nonce) zeroBlock enc).rest.length).length = 16 :=
    hE16 _
  have hfullD16 : (List.zipWith bxor
      ((ocbDecryptLoop E D enc.length (E nonce) zeroBlock enc).rest ++
        List.replicate (16 - (ocbDecryptLoop E D enc.length (E nonce) zeroBlock enc).rest.length)
          (byte 0))
      (ocbPad E (ocbDecryptLoop E D enc.length (E nonce) zeroBlock enc).delta
        (ocbDecryptLoop E D enc.length (E nonce) zeroBlock enc).rest.length)).length = 16 := by
    rw [List.length_zipWith, hfull16, hpad16]
    rfl
  rw [ocbDecrypt_eq E D nonce (enc.set (i / 8)
      (bxor (enc.getD (i / 8) (byte 0)) (byte (1 <<< (i % 8))))),
    ocbDecrypt_eq E D nonce enc]
  rw [List.length_set]
  dsimp only
  obtain ⟨sq1, sq2, sq3, sq4, sq5⟩ := ocbDecryptLoop_spec E D hD16 enc.length
    (E nonce) zeroBlock (enc.set (i / 8)
      (bxor (enc.getD (i / 8) (byte 0)) (byte (1 <<< (i % 8))))) hd0
    (by rw [List.length_set]; exact hlen)
  have hqck16 := sq5 zeroBlock_length
  by_cases hcase : i / 8 < enc.length -
      (ocbDecryptLoop E D enc.length (E nonce) zeroBlock enc).rest.length
  · obtain ⟨f1, f2, f3⟩ := ocbDecryptLoop_flip_block E D hDE hD16 enc.length
      (E nonce) zeroBlock enc (i / 8)
      (bxor (enc.getD (i / 8) (byte 0)) (byte (1 <<< (i % 8))))
      hd0 zeroBlock_length hcase hv2
    rw [f1, f2]
    apply ocbTag_inj E D hED _ _ _ sp3
      (by rw [List.length_zipWith, hfullD16]; omega)
      (by rw [List.length_zipWith, hfullD16]; omega)
    intro heq
    apply f3
    apply zipWith_bxor_left_inj _ _ _ ?_ ?_ heq
    · rw [hqck16, hck16]
    · rw [hqck16, hfullD16]
  · have hge : enc.length -
        (ocbDecryptLoop E D enc.length (E nonce) zeroBlock enc).rest.length ≤ i / 8 := by
      omega
    obtain ⟨f1, f2, f3, f4⟩ := ocbDecryptLoop_flip_rest E D hD16 enc.length
      (E nonce) zeroBlock enc (i / 8)
      (bxor (enc.getD (i / 8) (byte 0)) (byte (1 <<< (i % 8)))) hd0 hlen hge hjlt
    rw [f1, f2, f4, List.length_set]
    have hjj : i / 8 - (enc.length -
        (ocbDecryptLoop E D enc.length (E nonce) zeroBlock enc).rest.length) <
        (ocbDecryptLoop E D enc.length (E nonce) zeroBlock enc).rest.length := by
      omega
    have hsa : (ocbDecryptLoop E D enc.length (E nonce) zeroBlock enc).rest.set
          (i / 8 - (enc.length -
            (ocbDecryptLoop E D enc.length (E nonce) zeroBlock enc).rest.length))
          (bxor (enc.getD (i / 8) (byte 0)) (byte (1 <<< (i % 8)))) ++
        List.replicate (16 -
          (ocbDecryptLoop E D enc.length (E nonce) zeroBlock enc).rest.length) (byte 0) =
        ((ocbDecryptLoop E D enc.length (E nonce) zeroBlock enc).rest ++
          List.replicate (16 -
            (ocbDecryptLoop E D enc.length (E nonce) zeroBlock enc).rest.length) (byte 0)).set
          (i / 8 - (enc.length -
            (ocbDecryptLoop E D enc.length (E nonce) zeroBlock enc).rest.length))
          (bxor (enc.getD (i / 8) (byte 0)) (byte (1 <<< (i % 8)))) := by
      rw [List.set_append, if_pos hjj]
    rw [hsa]
    have hvne : bxor (enc.getD (i / 8) (byte 0)) (byte (1 <<< (i % 8))) ≠
        ((ocbDecryptLoop E D enc.length (E nonce) zeroBlock enc).rest ++
          List.replicate (16 -
            (ocbDecryptLoop E D enc.length (E nonce) zeroBlock enc).rest.length)
            (byte 0)).getD
          (i / 8 - (enc.length -
            (ocbDecryptLoop E D enc.length (E nonce) zeroBlock enc).rest.length)) (byte 0) := by
      have hrg : ∀ m : Nat,
          (ocbDecryptLoop E D enc.length (E nonce) zeroBlock enc).plain.length + m = i / 8 →
          (ocbDecryptLoop E D enc.length (E nonce) zeroBlock enc).rest.getD m (byte 0) =
            enc.getD (i / 8) (byte 0) := by
        intro m hm
        rw [sp4, getD_drop, hm]
      rw [getD_append_left _ _ _ hjj, hrg _ (by omega)]
      exact hv2
    have hfne : ((ocbDecryptLoop E D enc.length (E nonce) zeroBlock enc).rest ++
          List.replicate (16 -
            (ocbDecryptLoop E D enc.length (E nonce) zeroBlock enc).rest.length) (byte 0)).set
          (i / 8 - (enc.length -
            (ocbDecryptLoop E D enc.length (E nonce) zeroBlock enc).rest.length))
          (bxor (enc.getD (i / 8) (byte 0)) (byte (1 <<< (i % 8)))) ≠
        (ocbDecryptLoop E D enc.length (E nonce) zeroBlock enc).rest ++
          List.replicate (16 -
            (ocbDecryptLoop E D enc.length (E nonce) zeroBlock enc).rest.length) (byte 0) :=
      set_ne_of_ne _ _ _ (by rw [hfull16]; omega) hvne
    apply ocbTag_inj E D hED _ _ _ sp3
    · rw [List.length_zipWith, hck16, List.length_zipWith, List.length_set, hfull16, hpad16]
      rfl
    · rw [List.length_zipWith, hck16, hfullD16]
      rfl
    · intro heq
      apply hfne
      apply zipWith_bxor_left_inj _ _
        (ocbPad E (ocbDecryptLoop E D enc.length (E nonce) zeroBlock enc).delta
          (ocbDecryptLoop E D enc.length (E nonce) zeroBlock enc).rest.length)
        (by rw [List.length_set]) (by rw [List.length_set, hfull16, hpad16])
      apply zipWith_bxor_right_inj
        (ocbDecryptLoop E D enc.length (E nonce) zeroBlock enc).checksum _ _ ?_ ?_ heq
      · rw [List.length_zipWith, List.length_zipWith, List.length_set, hfull16, hpad16]
      · rw [List.length_zipWith, List.length_set, hfull16, hpad16, hck16]
        rfl

/-! ### A concrete block-cipher model for witnesses

`mockAesE`/`mockAesD` form a computable inverse pair on 16-byte blocks
(reverse composed with a constant XOR), standing in for AES-128-ECB in
closed instances. -/

def padTo16 (b : List Byte) : List Byte := b.take 16 ++ List.replicate (16 - b.length) (byte 0)

def mockAesE (b : List Byte) : List Byte :=
  ((padTo16 b).map (fun x => bxor x (byte 0x5a))).reverse

def mockAesD (b : List Byte) : List Byte :=
  (padTo16 b).reverse.map (fun x => bxor x (byte 0x5a))

theorem bxor_cancel_right (x c : Byte) : bxor (bxor x c) c = x := by
  apply Fin.ext
  show x.val ^^^ c.val ^^^ c.val = x.val
  exact Nat.xor_cancel_right c.val x.val

theorem padTo16_length (b : List Byte) : (padTo16 b).length = 16 := by
  unfold padTo16
  rw [List.length_append, List.length_take, List.length_replicate]
  omega

theorem padTo16_of_length (b : List Byte) (h : b.length = 16) : padTo16 b = b := by
  unfold padTo16
  rw [h]
  rw [← h, List.take_length]
  simp [h]

theorem mockAesE_length (b : List Byte) : (mockAesE b).length = 16 := by
  unfold mockAesE
  rw [List.length_reverse, List.length_map, padTo16_length]

theorem mockAesD_length (b : List Byte) : (mockAesD b).length = 16 := by
  unfold mockAesD
  rw [List.length_map, List.length_reverse, padTo16_length]

theorem map_bxor_bxor (l : List Byte) (c : Byte) :
    (l.map (fun x => bxor x c)).map (fun x => bxor x c) = l := by
  rw [List.map_map]
  have h : ((fun x => bxor x c) ∘ fun x => bxor x c) = id :=
    funext (fun x => bxor_cancel_right x c)
  rw [h, List.map_id]

theorem mockAes_DE (b : List Byte) (h : b.length = 16) : mockAesD (mockAesE b) = b := by
  unfold mockAesD
  rw [padTo16_of_length _ (mockAesE_length b)]
  unfold mockAesE
  rw [padTo16_of_length _ h, List.reverse_reverse, map_bxor_bxor]

theorem mockAes_ED (b : List Byte) (h : b.length = 16) : mockAesE (mockAesD b) = b := by
  unfold mockAesE
  rw [padTo16_of_length _ (mockAesD_length b)]
  unfold mockAesD
  rw [padTo16_of_length _ h, map_bxor_bxor, List.reverse_reverse]

theorem ocbPad_length (E : List Byte → List Byte) (hE16 : ∀ b, (E b).length = 16)
    (d : List Byte) (n : Nat) : (ocbPad E d n).length = 16 := hE16 _

theorem ocbEncrypt_length (E : List Byte → List Byte) (hE16 : ∀ b, (E b).length = 16)
    (modify : Bool) (nonce plain : List Byte) :
    (ocbEncrypt E modify nonce plain).encrypted.length = plain.length := by
  have hd0 : (E nonce).length = 16 := hE16 nonce
  have hlen : plain.length ≤ 16 * plain.length + 16 := by omega
  obtain ⟨sp1, sp2, _, _, _⟩ := ocbEncryptLoop_spec E hE16 modify plain.length
    (E nonce) zeroBlock plain hd0 hlen
  rw [ocbEncrypt_eq]
  dsimp only
  rw [List.length_append, List.length_take, List.length_zipWith,
    ocbPad_length E hE16, List.length_append, List.length_drop, ocbPad_length E hE16]
  omega

/-- C1 counterexample: with the client's `modifyPlainOnXexStarAttack = true`
mode, a 17-byte plaintext whose first 15 bytes are zero triggers the XEX*
guard, so encryption flips a plaintext bit; decrypting the resulting packet
under the same (inverse-pair) cipher succeeds with a matching tag but returns
the modified plaintext, not the original one. -/
theorem claimC1_counterexample :
    (ocbEncrypt mockAesE true (List.replicate 16 (byte 9))
        (List.replicate 15 (byte 0) ++ [byte 1, byte 7])).success = true ∧
    (ocbDecrypt mockAesE mockAesD (List.replicate 16 (byte 9))
        (ocbEncrypt mockAesE true (List.replicate 16 (byte 9))
          (List.replicate 15 (byte 0) ++ [byte 1, byte 7])).encrypted).tag =
      (ocbEncrypt mockAesE true (List.replicate 16 (byte 9))
        (List.replicate 15 (byte 0) ++ [byte 1, byte 7])).tag ∧
    (ocbDecrypt mockAesE mockAesD (List.replicate 16 (byte 9))
        (ocbEncrypt mockAesE true (List.replicate 16 (byte 9))
          (List.replicate 15 (byte 0) ++ [byte 1, byte 7])).encrypted).success = true ∧
    (ocbDecrypt mockAesE mockAesD (List.replicate 16 (byte 9))
        (ocbEncrypt mockAesE true (List.replicate 16 (byte 9))
          (List.replicate 15 (byte 0) ++ [byte 1, byte 7])).encrypted).plain ≠
      List.replicate 15 (byte 0) ++ [byte 1, byte 7] := by
  refine ⟨by decide, by decide, by decide, by decide⟩

/-- C1 (amended): for every inverse pair of 16-byte block ciphers and every
nonce and plaintext on which the encrypt-side XEX* guard does not fire and
the decrypt-side XEX* detection does not fire, `ocbDecrypt` composed with
`ocbEncrypt` returns the original plaintext with a matching tag and success,
and any single-bit flip in the ciphertext or in the tag makes the recomputed
tag disagree with the transmitted one. -/
theorem claimC1_amended_roundtrip_flip_reject (E D : List Byte → List Byte)
    (hED : ∀ b, b.length = 16 → D (E b) = b)
    (hDE : ∀ b, b.length = 16 → E (D b) = b)
    (hE16 : ∀ b, (E b).length = 16) (hD16 : ∀ b, (D b).length = 16)
    (modify : Bool) (nonce plain : List Byte)
    (hg : xexEncGuardFires plain.length plain = false)
    (hx : xexDecCheckFires E nonce plain = false) :
    (ocbEncrypt E modify nonce plain).success = true ∧
    ocbDecrypt E D nonce (ocbEncrypt E modify nonce plain).encrypted =
      ⟨plain, (ocbEncrypt E modify nonce plain).tag, true⟩ ∧
    (∀ i, i < 8 * (ocbEncrypt E modify nonce plain).encrypted.length →
      (ocbDecrypt E D nonce (flipBit (ocbEncrypt E modify nonce plain).encrypted i)).tag ≠
        (ocbEncrypt E modify nonce plain).tag) ∧
    (∀ i, i < 8 * (ocbEncrypt E modify nonce plain).tag.length →
      flipBit (ocbEncrypt E modify nonce plain).tag i ≠
        (ocbDecrypt E D nonce (ocbEncrypt E modify nonce plain).encrypted).tag) := by
  have hmodEq : ocbEncrypt E modify nonce plain = ocbEncrypt E false nonce plain := by
    rw [ocbEncrypt_eq, ocbEncrypt_eq,
      (ocbEncryptLoop_noGuard E modify plain.length (E nonce) zeroBlock plain hg).1]
  obtain ⟨hs, hl, hdec⟩ := ocb_roundtrip_core E D hED hE16 nonce plain hg
  rw [hmodEq]
  refine ⟨hs, ?_, ?_, ?_⟩
  · rw [hdec, hx]
    rfl
  · intro i hi
    have hne := ocbDecrypt_flip_tag_ne E D hED hDE hE16 hD16 nonce
      (ocbEncrypt E false nonce plain).encrypted i hi
    rw [hdec] at hne
    exact hne
  · intro i hi
    rw [hdec]
    exact flipBit_ne _ i hi

theorem claimC1_amended_roundtrip_flip_reject_witness :
    xexEncGuardFires ((List.range 20).map byte).length ((List.range 20).map byte) = false ∧
    xexDecCheckFires mockAesE (List.replicate 16 (byte 9)) ((List.range 20).map byte) = false ∧
    ocbDecrypt mockAesE mockAesD (List.replicate 16 (byte 9))
        (ocbEncrypt mockAesE true (List.replicate 16 (byte 9))
          ((List.range 20).map byte)).encrypted =
      ⟨(List.range 20).map byte,
       (ocbEncrypt mockAesE true (List.replicate 16 (byte 9)) ((List.range 20).map byte)).tag,
       true⟩ :=
  ⟨by decide, by decide,
   (claimC1_amended_roundtrip_flip_reject mockAesE mockAesD mockAes_DE mockAes_ED
     mockAesE_length mockAesD_length true (List.replicate 16 (byte 9))
     ((List.range 20).map byte) (by decide) (by decide)).2.1⟩

/-- C10: once the state is keyed (`_init` set by `setKey`), `encrypt` never
returns null: it bumps the encrypt IV and returns a packet 4 bytes longer
than the plaintext, because `ocbEncrypt` runs with
`modifyPlainOnXexStarAttack = true` and therefore always succeeds. -/
theorem claimC10_keyed_encrypt_total (aes : List Byte → List Byte → List Byte)
    (st : CryptStateOCB2) (plain : List Byte) (hinit : st.init = true)
    (hE16 : ∀ b, (aes st.rawKey b).length = 16) :
    ∃ out, CryptStateOCB2.encrypt aes st plain =
      (some out, { st with encryptIv := incrementIvLoop st.encryptIv }) ∧
      out.length = plain.length + 4 := by
  unfold CryptStateOCB2.encrypt
  rw [hinit]
  rw [if_neg (by decide)]
  have hsucc : (ocbEncrypt (aes st.rawKey) true (incrementIvLoop st.encryptIv) plain).success
      = true := by
    rw [ocbEncrypt_eq]
    exact ocbEncryptLoop_modify_success (aes st.rawKey) plain.length _ _ _
  dsimp only
  rw [hsucc]
  rw [if_neg (by decide)]
  refine ⟨_, rfl, ?_⟩
  rw [List.length_cons, List.length_cons, List.length_cons, List.length_cons,
    ocbEncrypt_length (aes st.rawKey) hE16]

theorem claimC10_keyed_encrypt_total_witness :
    ((CryptStateOCB2.mk0.setKey (List.replicate 16 (byte 1)) (List.replicate 16 (byte 2))
      (List.replicate 16 (byte 3))).2).init = true ∧
    ∃ out, CryptStateOCB2.encrypt (fun _ => mockAesE)
        ((CryptStateOCB2.mk0.setKey (List.replicate 16 (byte 1)) (List.replicate 16 (byte 2))
          (List.replicate 16 (byte 3))).2) [byte 7, byte 8] =
      (some out,
       { (CryptStateOCB2.mk0.setKey (List.replicate 16 (byte 1)) (List.replicate 16 (byte 2))
          (List.replicate 16 (byte 3))).2 with
         encryptIv := incrementIvLoop
           ((CryptStateOCB2.mk0.setKey (List.replicate 16 (byte 1)) (List.replicate 16 (byte 2))
             (List.replicate 16 (byte 3))).2).encryptIv }) ∧
      out.length = [byte 7, byte 8].length + 4 :=
  ⟨by decide,
   claimC10_keyed_encrypt_total (fun _ => mockAesE)
     ((CryptStateOCB2.mk0.setKey (List.replicate 16 (byte 1)) (List.replicate 16 (byte 2))
       (List.replicate 16 (byte 3))).2) [byte 7, byte 8] (by decide)
     (fun b => mockAesE_length b)⟩

/-- C6: whenever `decrypt` returns nothing — uninitialised state, short
packet, rejected IV delta, replay hit, XEX* detection, or tag mismatch —
the successor state equals the input state exactly (IVs, history and all
counters). -/
theorem claimC6_decrypt_failure_preserves_state
    (aes aesInv : List Byte → List Byte → List Byte) (st : CryptStateOCB2)
    (source : List Byte) (st2 : CryptStateOCB2)
    (h : CryptStateOCB2.decrypt aes aesInv st source = (none, st2)) : st2 = st := by
  unfold CryptStateOCB2.decrypt at h
  split at h
  · simp only [Prod.mk.injEq] at h
    exact h.2.symm
  · split at h
    · simp only [Prod.mk.injEq] at h
      exact h.2.symm
    · dsimp only at h
      split at h
      · simp only [Prod.mk.injEq] at h
        exact h.2.symm
      · split at h
        · simp only [Prod.mk.injEq] at h
          exact h.2.symm
        · simp only [Prod.mk.injEq] at h
          exact absurd h.1 (by simp)

set_option maxRecDepth 10000 in
theorem claimC6_decrypt_failure_preserves_state_witness :
    CryptStateOCB2.decrypt (fun _ => mockAesE) (fun _ => mockAesD)
      ((CryptStateOCB2.mk0.setKey (List.replicate 16 (byte 1)) (List.replicate 16 (byte 2))
        (List.replicate 16 (byte 3))).2) [byte 4, byte 0, byte 0, byte 0, byte 170] =
      (none, (CryptStateOCB2.mk0.setKey (List.replicate 16 (byte 1)) (List.replicate 16 (byte 2))
        (List.replicate 16 (byte 3))).2) ∧
    ((CryptStateOCB2.mk0.setKey (List.replicate 16 (byte 1)) (List.replicate 16 (byte 2))
        (List.replicate 16 (byte 3))).2) =
      ((CryptStateOCB2.mk0.setKey (List.replicate 16 (byte 1)) (List.replicate 16 (byte 2))
        (List.replicate 16 (byte 3))).2) :=
  ⟨by decide,
   claimC6_decrypt_failure_preserves_state (fun _ => mockAesE) (fun _ => mockAesD)
     ((CryptStateOCB2.mk0.setKey (List.replicate 16 (byte 1)) (List.replicate 16 (byte 2))
       (List.replicate 16 (byte 3))).2)
     [byte 4, byte 0, byte 0, byte 0, byte 170]
     ((CryptStateOCB2.mk0.setKey (List.replicate 16 (byte 1)) (List.replicate 16 (byte 2))
       (List.replicate 16 (byte 3))).2) (by decide)⟩

/-- C2 counterexample: the replay check against `decryptHistory` runs only in
the out-of-order branch. For a keyed state with `decryptIv = [4,7,0,…]` and
`decryptHistory[5] = 7`, the in-order packet with IV byte 5 computes the pair
`(5, 7)` that is already stored, yet `decrypt` accepts the packet. -/
theorem claimC2_counterexample :
    decryptIvStep (byte 4 :: byte 7 :: List.replicate 14 (byte 0))
        ((List.replicate 256 (byte 0)).set 5 (byte 7)) 5 =
      some (byte 5 :: byte 7 :: List.replicate 14 (byte 0), false, 0, 0) ∧
    byteAt ((List.replicate 256 (byte 0)).set 5 (byte 7))
        (byteAt (byte 5 :: byte 7 :: List.replicate 14 (byte 0)) 0) =
      byteAt (byte 5 :: byte 7 :: List.replicate 14 (byte 0)) 1 ∧
    (CryptStateOCB2.decrypt (fun _ => mockAesE) (fun _ => mockAesD)
        ⟨List.replicate 16 (byte 1), List.replicate 16 (byte 2),
         byte 4 :: byte 7 :: List.replicate 14 (byte 0),
         (List.replicate 256 (byte 0)).set 5 (byte 7), true,
         PacketStats.zero, PacketStats.zero⟩
        [byte 5, byte 241, byte 123, byte 105, byte 170]).1 = some [byte 70] := by
  refine ⟨by decide, by decide, by decide⟩

/-- C2 (amended): the replay rejection holds on the out-of-order path: for a
keyed state and a packet whose IV byte is not the in-order successor, if the
IV-delta classification accepts the packet but the stored history entry for
the updated IV's byte 0 equals its byte 1, then `decrypt` rejects the packet
and leaves the state unchanged. -/
theorem claimC2_amended_out_of_order_replay_reject
    (aes aesInv : List Byte → List Byte → List Byte) (st : CryptStateOCB2)
    (source : List Byte) (newIv : List Byte) (restore : Bool) (late lost : Int)
    (hinit : st.init = true) (hlen4 : ¬source.length < 4)
    (hfresh : ¬((byteAt st.decryptIv 0 + 1) &&& 0xff = byteAt source 0))
    (hoo : decryptIvOutOfOrder st.decryptIv (byteAt source 0) =
      some (newIv, restore, late, lost))
    (hhist : byteAt st.decryptHistory (byteAt newIv 0) = byteAt newIv 1) :
    CryptStateOCB2.decrypt aes aesInv st source = (none, st) := by
  have hstep : decryptIvStep st.decryptIv st.decryptHistory (byteAt source 0) = none := by
    unfold decryptIvStep
    dsimp only
    rw [if_neg hfresh, hoo]
    dsimp only
    rw [if_pos ⟨hfresh, hhist⟩]
  unfold CryptStateOCB2.decrypt
  rw [hinit]
  rw [if_neg (by decide)]
  rw [if_neg hlen4]
  dsimp only
  rw [hstep]

set_option maxRecDepth 10000 in
theorem claimC2_amended_out_of_order_replay_reject_witness :
    (⟨List.replicate 16 (byte 1), List.replicate 16 (byte 2),
      byte 3 :: List.replicate 15 (byte 0), List.replicate 256 (byte 0), true,
      PacketStats.zero, PacketStats.zero⟩ : CryptStateOCB2).init = true ∧
    CryptStateOCB2.decrypt (fun _ => mockAesE) (fun _ => mockAesD)
      ⟨List.replicate 16 (byte 1), List.replicate 16 (byte 2),
       byte 3 :: List.replicate 15 (byte 0), List.replicate 256 (byte 0), true,
       PacketStats.zero, PacketStats.zero⟩
      [byte 5, byte 0, byte 0, byte 0] =
      (none,
       ⟨List.replicate 16 (byte 1), List.replicate 16 (byte 2),
        byte 3 :: List.replicate 15 (byte 0), List.replicate 256 (byte 0), true,
        PacketStats.zero, PacketStats.zero⟩) :=
  ⟨by decide,
   claimC2_amended_out_of_order_replay_reject (fun _ => mockAesE) (fun _ => mockAesD)
     ⟨List.replicate 16 (byte 1), List.replicate 16 (byte 2),
      byte 3 :: List.replicate 15 (byte 0), List.replicate 256 (byte 0), true,
      PacketStats.zero, PacketStats.zero⟩
     [byte 5, byte 0, byte 0, byte 0]
     (byte 5 :: List.replicate 15 (byte 0)) false 0 1
     (by decide) (by decide) (by decide) (by decide) (by decide)⟩

/-! ## UDP voice client (`udp-voice-client.ts`)

State and handlers of `MumbleUdpVoiceClient`; timers and sockets are
external, so `_sendPing` takes the clock as a parameter and emitted events
are returned as a list. -/

/-- `CryptSetupMessage`: all three fields optional. -/
structure CryptSetupMessage where
  key : Option (List Byte)
  clientNonce : Option (List Byte)
  serverNonce : Option (List Byte)
deriving DecidableEq

/-- `canApplyFullKey`: all three fields present. -/
def canApplyFullKey (m : CryptSetupMessage) : Bool :=
  m.key.isSome && m.clientNonce.isSome && m.serverNonce.isSome

/-- Mutable state of `MumbleUdpVoiceClient`: crypt state, readiness and
closed flags, the pending-ping map (insertion-ordered key/value pairs, JS
`Map` semantics) and whether the ping interval timer exists. -/
structure UdpClientState where
  crypt : CryptStateOCB2
  udpReady : Bool
  closed : Bool
  pendingPings : List (Int × Int)
  pingTimerActive : Bool
deriving DecidableEq

/-- Events observable from the handlers: emitter events plus the TCP
`sendCryptSetup` reply. -/
inductive UdpClientEvent where
  | udpReady
  | udpRtt (rtt : Int)
  | voiceOpus (userId : Int) (target : Nat) (sequence : Int) (isLastFrame : Bool)
      (opus : List Byte)
  | sentCryptSetupReply (clientNonce : List Byte)
deriving DecidableEq

/-- JS `Map.set`: update in place if the key exists, else append. -/
def pingsSet (l : List (Int × Int)) (k v : Int) : List (Int × Int) :=
  if (l.find? (fun p => p.1 == k)).isSome then
    l.map (fun p => if p.1 == k then (k, v) else p)
  else l ++ [(k, v)]

/-- The `while (size > 10) delete first` eviction of `_sendPing`, bounded by
a structural counter that every caller passes as the list length. -/
def evictPingsLoop : Nat → List (Int × Int) → List (Int × Int)
  | 0, l => l
  | n + 1, l => if l.length > 10 then evictPingsLoop n l.tail else l

/-- `_sendPing`: encrypt `[0x20] ++ varint(now)` (bumping the encrypt IV),
record the pending ping and evict past 10 entries. The socket send is
external. A negative clock would make `writeMumbleVarint` throw; that path
keeps the state unchanged and cannot occur for a real clock. -/
def sendPing (aes : List Byte → List Byte → List Byte) (now : Int)
    (st : UdpClientState) : UdpClientState :=
  if !st.crypt.init || st.closed then st else
  match writeMumbleVarint now with
  | none => st
  | some w =>
    match CryptStateOCB2.encrypt aes st.crypt (byte 0x20 :: w) with
    | (none, crypt1) => { st with crypt := crypt1 }
    | (some _, crypt1) =>
      let pings1 := pingsSet st.pendingPings now now
      { st with
        crypt := crypt1,
        pendingPings := evictPingsLoop pings1.length pings1 }

/-- `_onCryptSetup`: full key → `setKey` and `_ensurePingTimer` (which sends
an immediate ping); serverNonce only → `setDecryptIV` plus a resync bump;
empty → reply with the current encrypt IV when keyed. -/
def onCryptSetup (aes : List Byte → List Byte → List Byte) (now : Int)
    (st : UdpClientState) (msg : CryptSetupMessage) :
    UdpClientState × List UdpClientEvent :=
  if canApplyFullKey msg then
    match st.crypt.setKey (msg.key.getD []) (msg.clientNonce.getD [])
        (msg.serverNonce.getD []) with
    | (false, crypt1) => ({ st with crypt := crypt1 }, [])
    | (true, crypt1) =>
      if st.pingTimerActive then ({ st with crypt := crypt1 }, [])
      else
        ({ sendPing aes now { st with crypt := crypt1 } with pingTimerActive := true }, [])
  else if msg.serverNonce.isSome then
    match st.crypt.setDecryptIV (msg.serverNonce.getD []) with
    | (_, crypt1) =>
      ({ st with crypt := { crypt1 with
          statsLocal := { crypt1.statsLocal with
            resync := crypt1.statsLocal.resync + 1 } } }, [])
  else
    if st.crypt.init then (st, [UdpClientEvent.sentCryptSetupReply st.crypt.getEncryptIV])
    else (st, [])

/-- Result of `_onUdpMessage`: successor state, emitted events, and the
message of an uncaught exception if the decoder threw. -/
structure UdpStepResult where
  state : UdpClientState
  events : List UdpClientEvent
  thrown : Option String
deriving DecidableEq

/-- `_onUdpMessage`: drop when closed or unkeyed; decrypt (decrypt failure
leaves the restored crypt state); decode; only after both succeed flip
`_udpReady` (emitting `udpReady` on the transition), then handle ping RTT
bookkeeping or emit the opus frame. -/
def onUdpMessage (aes aesInv : List Byte → List Byte → List Byte)
    (st : UdpClientState) (now : Int) (msg : List Byte) : UdpStepResult :=
  if st.closed then ⟨st, [], none⟩ else
  if !st.crypt.init then ⟨st, [], none⟩ else
  match CryptStateOCB2.decrypt aes aesInv st.crypt msg with
  | (none, crypt1) => ⟨{ st with crypt := crypt1 }, [], none⟩
  | (some plain, crypt1) =>
    match decodeLegacyVoicePacketFromServer plain with
    | Except.error e => ⟨{ st with crypt := crypt1 }, [], some e⟩
    | Except.ok none => ⟨{ st with crypt := crypt1 }, [], none⟩
    | Except.ok (some decoded) =>
      let st1 := { st with crypt := crypt1 }
      let st2 := if !st1.udpReady then { st1 with udpReady := true } else st1
      let ev1 := if !st1.udpReady then [UdpClientEvent.udpReady] else []
      match decoded with
      | DecodedLegacyVoicePacket.ping ts =>
        match st2.pendingPings.find? (fun p => p.1 == ts) with
        | some p =>
          ⟨{ st2 with pendingPings := st2.pendingPings.filter (fun q => !(q.1 == ts)) },
           ev1 ++ [UdpClientEvent.udpRtt (now - p.2)], none⟩
        | none => ⟨st2, ev1, none⟩
      | DecodedLegacyVoicePacket.opus target sessionId sequence isLast opusData =>
        ⟨st2, ev1 ++ [UdpClientEvent.voiceOpus sessionId target sequence isLast opusData],
         none⟩

/-- Whether a UDP datagram both decrypts and decodes to a voice packet under
the given crypt state — the condition under which `_onUdpMessage` reaches
the readiness flip. -/
def udpDecodeOk (aes aesInv : List Byte → List Byte → List Byte)
    (crypt : CryptStateOCB2) (msg : List Byte) : Bool :=
  match CryptStateOCB2.decrypt aes aesInv crypt msg with
  | (none, _) => false
  | (some plain, _) =>
    match decodeLegacyVoicePacketFromServer plain with
    | Except.ok (some _) => true
    | _ => false

theorem onUdpMessage_ready (aes aesInv : List Byte → List Byte → List Byte)
    (st : UdpClientState) (now : Int) (msg : List Byte)
    (hclosed : st.closed = false) (hinit : st.crypt.init = true) :
    (onUdpMessage aes aesInv st now msg).state.udpReady =
      (st.udpReady || udpDecodeOk aes aesInv st.crypt msg) ∧
    (UdpClientEvent.udpReady ∈ (onUdpMessage aes aesInv st now msg).events ↔
      st.udpReady = false ∧ udpDecodeOk aes aesInv st.crypt msg = true) := by
  unfold onUdpMessage udpDecodeOk
  rw [hclosed, hinit]
  rw [if_neg Bool.false_ne_true]
  rw [if_neg (by decide)]
  rcases hdec : CryptStateOCB2.decrypt aes aesInv st.crypt msg with ⟨_ | plain, c1⟩
  · dsimp only
    simp
  · dsimp only
    rcases hdecode : decodeLegacyVoicePacketFromServer plain with e | o
    · dsimp only
      simp
    · rcases o with _ | d
      · dsimp only
        simp
      · by_cases hr : st.udpReady
        · simp only [hr]
          cases d with
          | ping ts =>
            rcases hfind : st.pendingPings.find? (fun p => p.1 == ts) with _ | q
            · simp [hfind]
            · simp [hfind]
          | opus target sessionId sequence isLast opusData =>
            simp
        · simp only [Bool.not_eq_true] at hr
          simp only [hr]
          cases d with
          | ping ts =>
            rcases hfind : st.pendingPings.find? (fun p => p.1 == ts) with _ | q
            · simp [hfind]
            · simp [hfind]
          | opus target sessionId sequence isLast opusData =>
            simp

/-- C5 counterexample: a serverNonce-only CryptSetup received while the
client is UDP-ready installs the decrypt IV and bumps the resync counter,
but `_onCryptSetup` never clears `_udpReady`: the client stays UDP-ready,
contradicting the claimed return to the not-UDP-ready state. -/
theorem claimC5_counterexample :
    (onCryptSetup (fun _ => mockAesE) 0
        ⟨(CryptStateOCB2.mk0.setKey (List.replicate 16 (byte 1)) (List.replicate 16 (byte 2))
            (List.replicate 16 (byte 3))).2, true, false, [], true⟩
        ⟨none, none, some (List.replicate 16 (byte 8))⟩).1.crypt.decryptIv =
      List.replicate 16 (byte 8) ∧
    (onCryptSetup (fun _ => mockAesE) 0
        ⟨(CryptStateOCB2.mk0.setKey (List.replicate 16 (byte 1)) (List.replicate 16 (byte 2))
            (List.replicate 16 (byte 3))).2, true, false, [], true⟩
        ⟨none, none, some (List.replicate 16 (byte 8))⟩).1.crypt.statsLocal.resync = 1 ∧
    (onCryptSetup (fun _ => mockAesE) 0
        ⟨(CryptStateOCB2.mk0.setKey (List.replicate 16 (byte 1)) (List.replicate 16 (byte 2))
            (List.replicate 16 (byte 3))).2, true, false, [], true⟩
        ⟨none, none, some (List.replicate 16 (byte 8))⟩).1.udpReady = true := by
  refine ⟨by decide, by decide, by decide⟩

/-- C5 (amended): with the client open and keyed, `_onUdpMessage` makes the
client UDP-ready exactly when the datagram both decrypts and decodes (the
`udpReady` event fires exactly on the false-to-true transition), and a
serverNonce-only CryptSetup installs the 16-byte decrypt IV and increments
the local resync counter while leaving the readiness flag unchanged. -/
theorem claimC5_amended_readiness (aes aesInv : List Byte → List Byte → List Byte)
    (st : UdpClientState) (now : Int) (msg : List Byte) (msg2 : CryptSetupMessage)
    (sn : List Byte) (hclosed : st.closed = false) (hinit : st.crypt.init = true)
    (hnotfull : canApplyFullKey msg2 = false) (hsn : msg2.serverNonce = some sn) :
    (onUdpMessage aes aesInv st now msg).state.udpReady =
      (st.udpReady || udpDecodeOk aes aesInv st.crypt msg) ∧
    (UdpClientEvent.udpReady ∈ (onUdpMessage aes aesInv st now msg).events ↔
      st.udpReady = false ∧ udpDecodeOk aes aesInv st.crypt msg = true) ∧
    (onCryptSetup aes now st msg2).1.udpReady = st.udpReady ∧
    (onCryptSetup aes now st msg2).1.crypt.decryptIv =
      (if sn.length = 16 then sn else st.crypt.decryptIv) ∧
    (onCryptSetup aes now st msg2).1.crypt.statsLocal.resync =
      st.crypt.statsLocal.resync + 1 := by
  obtain ⟨h1, h2⟩ := onUdpMessage_ready aes aesInv st now msg hclosed hinit
  have hcs : ∀ r : Prop,
      ((onCryptSetup aes now st msg2).1.udpReady = st.udpReady ∧
        (onCryptSetup aes now st msg2).1.crypt.decryptIv =
          (if sn.length = 16 then sn else st.crypt.decryptIv) ∧
        (onCryptSetup aes now st msg2).1.crypt.statsLocal.resync =
          st.crypt.statsLocal.resync + 1) := by
    intro r
    unfold onCryptSetup
    rw [hnotfull]
    rw [if_neg Bool.false_ne_true]
    rw [hsn]
    rw [if_pos (show (some sn).isSome = true from rfl)]
    unfold CryptStateOCB2.setDecryptIV
    dsimp only
    rw [show (some sn).getD ([] : List Byte) = sn from rfl]
    by_cases hlen : sn.length = 16
    · rw [if_neg (by omega)]
      dsimp only
      exact ⟨rfl, by rw [if_pos hlen], rfl⟩
    · rw [if_pos (by omega)]
      dsimp only
      exact ⟨rfl, by rw [if_neg hlen], rfl⟩
  exact ⟨h1, h2, hcs True⟩

set_option maxRecDepth 10000 in
theorem claimC5_amended_readiness_witness :
    (⟨(CryptStateOCB2.mk0.setKey (List.replicate 16 (byte 1)) (List.replicate 16 (byte 2))
        (List.replicate 16 (byte 3))).2, false, false, [], true⟩ :
      UdpClientState).closed = false ∧
    (onUdpMessage (fun _ => mockAesE) (fun _ => mockAesD)
        ⟨(CryptStateOCB2.mk0.setKey (List.replicate 16 (byte 1)) (List.replicate 16 (byte 2))
            (List.replicate 16 (byte 3))).2, false, false, [], true⟩ 0 []).state.udpReady =
      ((false : Bool) || udpDecodeOk (fun _ => mockAesE) (fun _ => mockAesD)
        ((CryptStateOCB2.mk0.setKey (List.replicate 16 (byte 1)) (List.replicate 16 (byte 2))
          (List.replicate 16 (byte 3))).2) []) ∧
    (onCryptSetup (fun _ => mockAesE) 0
        ⟨(CryptStateOCB2.mk0.setKey (List.replicate 16 (byte 1)) (List.replicate 16 (byte 2))
            (List.replicate 16 (byte 3))).2, false, false, [], true⟩
        ⟨none, none, some (List.replicate 16 (byte 8))⟩).1.crypt.statsLocal.resync =
      ((CryptStateOCB2.mk0.setKey (List.replicate 16 (byte 1)) (List.replicate 16 (byte 2))
        (List.replicate 16 (byte 3))).2).statsLocal.resync + 1 :=
  ⟨rfl,
   (claimC5_amended_readiness (fun _ => mockAesE) (fun _ => mockAesD)
     ⟨(CryptStateOCB2.mk0.setKey (List.replicate 16 (byte 1)) (List.replicate 16 (byte 2))
         (List.replicate 16 (byte 3))).2, false, false, [], true⟩ 0 []
     ⟨none, none, some (List.replicate 16 (byte 8))⟩ (List.replicate 16 (byte 8))
     (by decide) (by decide) (by decide) (by decide)).1,
   (claimC5_amended_readiness (fun _ => mockAesE) (fun _ => mockAesD)
     ⟨(CryptStateOCB2.mk0.setKey (List.replicate 16 (byte 1)) (List.replicate 16 (byte 2))
         (List.replicate 16 (byte 3))).2, false, false, [], true⟩ 0 []
     ⟨none, none, some (List.replicate 16 (byte 8))⟩ (List.replicate 16 (byte 8))
     (by decide) (by decide) (by decide) (by decide)).2.2.2.2⟩

/-! ## Gateway session voice dedup (`mumble.ts`, `_emitVoice`)

The recent-frames map is a JS `Map` (insertion-ordered); the handler
returns the updated map and whether a `voiceOpus` event was emitted. -/

/-- The dedup key `userId:target:sequence`. -/
def voiceKey (userId : Int) (target : Nat) (sequence : Int) : String :=
  toString userId ++ ":" ++ toString target ++ ":" ++ toString sequence

/-- JS `Map.get` on an insertion-ordered association list. -/
def mapGet (m : List (String × Int)) (k : String) : Option Int :=
  (m.find? (fun p => p.1 == k)).map Prod.snd

/-- JS `Map.set`: update in place when present, else append. -/
def mapSet (m : List (String × Int)) (k : String) (v : Int) : List (String × Int) :=
  if (m.find? (fun p => p.1 == k)).isSome then
    m.map (fun p => if p.1 == k then (k, v) else p)
  else m ++ [(k, v)]

/-- The eviction loop: delete entries from the front while they are older
than 1500 ms, stopping at the first fresh entry. -/
def evictStale (now : Int) : List (String × Int) → List (String × Int)
  | [] => []
  | (k, ts) :: rest =>
    if now - ts ≤ 1500 then (k, ts) :: rest else evictStale now rest

/-- The non-dropped tail of `_emitVoice`: record the frame, evict when the
map exceeds 2048 entries, hard-clear when it still exceeds 4096, emit. -/
def emitVoiceCore (now : Int) (m : List (String × Int)) (key : String) :
    List (String × Int) × Bool :=
  let m1 := mapSet m key now
  let m2 := if m1.length > 2048 then
      let m1e := evictStale now m1
      if m1e.length > 4096 then [] else m1e
    else m1
  (m2, true)

/-- `_emitVoice`: drop (without touching the map) when the same key was
recorded less than 1000 ms ago, else record and emit. -/
def emitVoice (now : Int) (m : List (String × Int)) (userId : Int) (target : Nat)
    (sequence : Int) : List (String × Int) × Bool :=
  match mapGet m (voiceKey userId target sequence) with
  | some p => if now - p < 1000 then (m, false)
      else emitVoiceCore now m (voiceKey userId target sequence)
  | none => emitVoiceCore now m (voiceKey userId target sequence)

set_option maxRecDepth 1000000 in
theorem c8_find_none : ((voiceKey 10000 0 0, (0 : Int)) ::
    (List.range 4095).map (fun i => (voiceKey (Int.ofNat i) 0 0, (0 : Int)))).find?
      (fun p => p.1 == voiceKey 9999 0 0) = none := by decide

theorem c8_len : (((voiceKey 10000 0 0, (0 : Int)) ::
    (List.range 4095).map (fun i => (voiceKey (Int.ofNat i) 0 0, (0 : Int)))) ++
    [(voiceKey 9999 0 0, (0 : Int))]).length = 4097 := by
  rw [List.length_append, List.length_cons, List.length_map, List.length_range]
  simp

theorem evictStale_cons_fresh (now : Int) (k : String) (ts : Int)
    (rest : List (String × Int)) (h : now - ts ≤ 1500) :
    evictStale now ((k, ts) :: rest) = (k, ts) :: rest := by
  simp only [evictStale]
  rw [if_pos h]

theorem c8_evict : evictStale 0 (((voiceKey 10000 0 0, (0 : Int)) ::
    (List.range 4095).map (fun i => (voiceKey (Int.ofNat i) 0 0, (0 : Int)))) ++
    [(voiceKey 9999 0 0, 0)]) =
    ((voiceKey 10000 0 0, (0 : Int)) ::
      (List.range 4095).map (fun i => (voiceKey (Int.ofNat i) 0 0, (0 : Int)))) ++
      [(voiceKey 9999 0 0, 0)] := by
  rw [List.cons_append]
  exact evictStale_cons_fresh 0 (voiceKey 10000 0 0) 0 _ (by decide)

/-- C8 counterexample: with 4096 fresh entries already recorded, the first
copy of a new frame pushes the map to 4097 entries, the eviction loop stops
at the first fresh entry, and the `size > 4096` hard clear wipes the whole
dedup window — so a second copy of the same frame 500 ms later is emitted
again (two `voiceOpus` events within the 1000 ms window). -/
theorem claimC8_counterexample :
    emitVoice 0 ((voiceKey 10000 0 0, (0 : Int)) ::
        (List.range 4095).map (fun i => (voiceKey (Int.ofNat i) 0 0, (0 : Int))))
        9999 0 0 = ([], true) ∧
    (500 : Int) - 0 < 1000 ∧
    emitVoice 500 [] 9999 0 0 = ([(voiceKey 9999 0 0, 500)], true) := by
  refine ⟨?_, by decide, by decide⟩
  have hget : mapGet ((voiceKey 10000 0 0, (0 : Int)) ::
      (List.range 4095).map (fun i => (voiceKey (Int.ofNat i) 0 0, (0 : Int))))
      (voiceKey 9999 0 0) = none := by
    unfold mapGet
    rw [c8_find_none]
    rfl
  have hm1 : mapSet ((voiceKey 10000 0 0, (0 : Int)) ::
      (List.range 4095).map (fun i => (voiceKey (Int.ofNat i) 0 0, (0 : Int))))
      (voiceKey 9999 0 0) 0 =
      ((voiceKey 10000 0 0, (0 : Int)) ::
        (List.range 4095).map (fun i => (voiceKey (Int.ofNat i) 0 0, (0 : Int)))) ++
        [(voiceKey 9999 0 0, 0)] := by
    unfold mapSet
    rw [c8_find_none]
    rfl
  unfold emitVoice
  rw [hget]
  unfold emitVoiceCore
  dsimp only
  rw [hm1, c8_len]
  rw [if_pos (by decide)]
  rw [c8_evict, c8_len]
  rw [if_pos (by decide)]

theorem emitVoice_eq (now : Int) (m : List (String × Int)) (userId : Int)
    (target : Nat) (sequence : Int) :
    emitVoice now m userId target sequence =
      (match mapGet m (voiceKey userId target sequence) with
       | some p => if now - p < 1000 then (m, false)
           else emitVoiceCore now m (voiceKey userId target sequence)
       | none => emitVoiceCore now m (voiceKey userId target sequence)) := rfl

theorem mapGet_mapSet_self : ∀ (m : List (String × Int)) (k : String) (v : Int),
    mapGet (mapSet m k v) k = some v := by
  intro m
  induction m with
  | nil =>
    intro k v
    unfold mapSet mapGet
    simp [List.find?]
  | cons p rest ih =>
    intro k v
    unfold mapSet mapGet
    by_cases hpk : (p.1 == k) = true
    · rw [List.find?_cons_of_pos (p := fun q : String × Int => q.1 == k) _ hpk]
      rw [if_pos (show (some p).isSome = true from rfl)]
      rw [List.map_cons, if_pos hpk]
      rw [List.find?_cons_of_pos (p := fun q : String × Int => q.1 == k) _ (by simp)]
      rfl
    · rw [List.find?_cons_of_neg (p := fun q : String × Int => q.1 == k) _ hpk]
      have hrest := ih k v
      unfold mapSet mapGet at hrest
      by_cases hf : (rest.find? (fun q => q.1 == k)).isSome = true
      · rw [if_pos hf]
        rw [if_pos hf] at hrest
        rw [List.map_cons, if_neg hpk]
        rw [List.find?_cons_of_neg (p := fun q : String × Int => q.1 == k) _ hpk]
        exact hrest
      · rw [if_neg hf]
        rw [if_neg hf] at hrest
        rw [List.cons_append]
        rw [List.find?_cons_of_neg (p := fun q : String × Int => q.1 == k) _ hpk]
        exact hrest

theorem mapGet_evictStale : ∀ (now : Int) (m : List (String × Int)) (k : String) (v : Int),
    mapGet m k = some v → now - v ≤ 1500 →
    mapGet (evictStale now m) k = some v := by
  intro now m
  induction m with
  | nil =>
    intro k v hget _
    simp [mapGet, List.find?] at hget
  | cons p rest ih =>
    intro k v hget hfresh
    obtain ⟨k0, t0⟩ := p
    unfold evictStale
    by_cases ht : now - t0 ≤ 1500
    · rw [if_pos ht]
      exact hget
    · rw [if_neg ht]
      unfold mapGet at hget
      by_cases hpk : (((k0, t0) : String × Int).1 == k) = true
      · rw [List.find?_cons_of_pos (p := fun q : String × Int => q.1 == k) _ hpk] at hget
        simp at hget
        omega
      · rw [List.find?_cons_of_neg (p := fun q : String × Int => q.1 == k) _ hpk] at hget
        exact ih k v hget hfresh

theorem evictStale_length : ∀ (now : Int) (m : List (String × Int)),
    (evictStale now m).length ≤ m.length := by
  intro now m
  induction m with
  | nil => exact Nat.le_refl 0
  | cons p rest ih =>
    obtain ⟨k0, t0⟩ := p
    unfold evictStale
    by_cases ht : now - t0 ≤ 1500
    · rw [if_pos ht]
    · rw [if_neg ht]
      calc (evictStale now rest).length ≤ rest.length := ih
        _ ≤ (( k0, t0) :: rest).length := by simp

/-- C8 (amended): a frame not yet recorded is emitted; provided the map
holds at most 4096 entries right after the insertion (so the overflow hard
clear cannot wipe the window), a second copy of the same frame less than
1000 ms after the first arrival is dropped without touching the map, and a
copy arriving 1000 ms or more after the first arrival is emitted (the
dropped duplicate does not extend the window). -/
theorem claimC8_amended_voice_dedup (m0 : List (String × Int)) (u : Int) (tg : Nat)
    (sq : Int) (t1 t2 t3 : Int)
    (hnotin : mapGet m0 (voiceKey u tg sq) = none)
    (hsize : (mapSet m0 (voiceKey u tg sq) t1).length ≤ 4096)
    (hlt : t2 - t1 < 1000) (hge : t3 - t1 ≥ 1000) :
    (emitVoice t1 m0 u tg sq).2 = true ∧
    (emitVoice t2 (emitVoice t1 m0 u tg sq).1 u tg sq).2 = false ∧
    (emitVoice t2 (emitVoice t1 m0 u tg sq).1 u tg sq).1 = (emitVoice t1 m0 u tg sq).1 ∧
    (emitVoice t3 (emitVoice t1 m0 u tg sq).1 u tg sq).2 = true := by
  have hm1 : mapGet (emitVoice t1 m0 u tg sq).1 (voiceKey u tg sq) = some t1 ∧
      (emitVoice t1 m0 u tg sq).2 = true := by
    unfold emitVoice
    rw [hnotin]
    unfold emitVoiceCore
    dsimp only
    by_cases hbig : (mapSet m0 (voiceKey u tg sq) t1).length > 2048
    · rw [if_pos hbig]
      have hevle := evictStale_length t1 (mapSet m0 (voiceKey u tg sq) t1)
      rw [if_neg (by omega)]
      exact ⟨mapGet_evictStale t1 _ _ _ (mapGet_mapSet_self m0 _ t1) (by omega), rfl⟩
    · rw [if_neg hbig]
      exact ⟨mapGet_mapSet_self m0 _ t1, rfl⟩
  refine ⟨hm1.2, ?_, ?_, ?_⟩
  · rw [emitVoice_eq t2, hm1.1]
    dsimp only
    rw [if_pos hlt]
  · rw [emitVoice_eq t2, hm1.1]
    dsimp only
    rw [if_pos hlt]
  · rw [emitVoice_eq t3, hm1.1]
    dsimp only
    rw [if_neg (by omega)]
    unfold emitVoiceCore
    dsimp only

theorem claimC8_amended_voice_dedup_witness :
    mapGet [] (voiceKey 7 1 42) = none ∧
    (emitVoice 100 [] 7 1 42).2 = true ∧
    (emitVoice 600 (emitVoice 100 [] 7 1 42).1 7 1 42).2 = false ∧
    (emitVoice 1100 (emitVoice 100 [] 7 1 42).1 7 1 42).2 = true :=
  ⟨by decide,
   (claimC8_amended_voice_dedup [] 7 1 42 100 600 1100 (by decide) (by decide)
     (by decide) (by decide)).1,
   (claimC8_amended_voice_dedup [] 7 1 42 100 600 1100 (by decide) (by decide)
     (by decide) (by decide)).2.1,
   (claimC8_amended_voice_dedup [] 7 1 42 100 600 1100 (by decide) (by decide)
     (by decide) (by decide)).2.2.2⟩

/-! ## TCP client channel/user registry (`mumble-protocol/client.ts`)

The `channels` and `users` JS Maps are insertion-ordered association
lists keyed by id; the four `_handleMessage` cases that touch them are
modelled as registry transformers. -/

/-- JS `Map.get` on a Nat-keyed association list. -/
def amapGet {α : Type} (m : List (Nat × α)) (k : Nat) : Option α :=
  (m.find? (fun p => p.1 == k)).map Prod.snd

/-- JS `Map.set`: update in place when present, else append. -/
def amapSet {α : Type} (m : List (Nat × α)) (k : Nat) (v : α) : List (Nat × α) :=
  if (m.find? (fun p => p.1 == k)).isSome then
    m.map (fun p => if p.1 == k then (k, v) else p)
  else m ++ [(k, v)]

/-- JS `Map.delete`. -/
def amapDelete {α : Type} (m : List (Nat × α)) (k : Nat) : List (Nat × α) :=
  m.filter (fun p => !(p.1 == k))

/-- `new Set(l)`: deduplicate preserving first-occurrence order. -/
def dedupNat (l : List Nat) : List Nat :=
  l.foldl (fun acc x => if acc.contains x then acc else acc ++ [x]) []

/-- `Set.add` over a list of ids. -/
def setAddAll (s : List Nat) (xs : List Nat) : List Nat :=
  xs.foldl (fun acc x => if acc.contains x then acc else acc ++ [x]) s

/-- `Set.delete` over a list of ids. -/
def setRemoveAll (s : List Nat) (xs : List Nat) : List Nat :=
  xs.foldl (fun acc x => acc.filter (fun y => !(y == x))) s

/-- Stored channel record; optional fields are absent when `none`. -/
structure ChannelState where
  id : Nat
  name : String
  parentId : Option Nat
  position : Option Int
  description : Option String
  links : Option (List Nat)
deriving DecidableEq

/-- Stored user record; optional flags are absent when `none`. -/
structure UserState where
  id : Nat
  name : String
  channelId : Nat
  mute : Option Bool
  deaf : Option Bool
  suppress : Option Bool
  selfMute : Option Bool
  selfDeaf : Option Bool
deriving DecidableEq

/-- Decoded `ChannelState` protobuf message. -/
structure ChannelStateMsg where
  channelId : Option Nat
  name : Option String
  parent : Option Nat
  position : Option Int
  description : Option String
  links : List Nat
  linksAdd : List Nat
  linksRemove : List Nat
deriving DecidableEq

/-- Decoded `UserState` protobuf message. -/
structure UserStateMsg where
  session : Option Nat
  name : Option String
  channelId : Option Nat
  mute : Option Bool
  deaf : Option Bool
  suppress : Option Bool
  selfMute : Option Bool
  selfDeaf : Option Bool
deriving DecidableEq

/-- The two registries of `MumbleTcpClient`. -/
structure MumbleRegistry where
  channels : List (Nat × ChannelState)
  users : List (Nat × UserState)
deriving DecidableEq

/-- The `ChannelState` case: merge the message over the previous record
(link full-replace, delta, or keep) and upsert. -/
def handleChannelState (reg : MumbleRegistry) (ch : ChannelStateMsg) : MumbleRegistry :=
  match ch.channelId with
  | none => reg
  | some cid =>
    let prev := amapGet reg.channels cid
    let linksPrev := (prev.bind (fun p => p.links)).getD []
    let links : Option (List Nat) :=
      if ch.links.length ≠ 0 then some ch.links
      else if ch.linksAdd.length ≠ 0 ∨ ch.linksRemove.length ≠ 0 then
        some (setRemoveAll (setAddAll (dedupNat linksPrev) ch.linksAdd) ch.linksRemove)
      else prev.bind (fun p => p.links)
    let next : ChannelState :=
      { id := cid,
        name := ch.name.getD ((prev.map (fun p => p.name)).getD ""),
        parentId := if cid = 0 then none
          else ch.parent.orElse (fun _ => prev.bind (fun p => p.parentId)),
        position := ch.position.orElse (fun _ => prev.bind (fun p => p.position)),
        description := ch.description.orElse (fun _ => prev.bind (fun p => p.description)),
        links := match links with
          | some l => if l.length ≠ 0 then some l else none
          | none => none }
    { reg with channels := amapSet reg.channels cid next }

/-- The `ChannelRemove` case: delete the channel, nothing else. -/
def handleChannelRemove (reg : MumbleRegistry) (cid : Nat) : MumbleRegistry :=
  { reg with channels := amapDelete reg.channels cid }

/-- The `UserState` case: merge over the previous record (missing
`channel_id` means unchanged, defaulting to root 0) and upsert. The
channel id is not validated against the channels map. -/
def handleUserState (reg : MumbleRegistry) (u : UserStateMsg) : MumbleRegistry :=
  match u.session with
  | none => reg
  | some sid =>
    let prev := amapGet reg.users sid
    let next : UserState :=
      { id := sid,
        name := u.name.getD ((prev.map (fun p => p.name)).getD ""),
        channelId := u.channelId.getD ((prev.map (fun p => p.channelId)).getD 0),
        mute := u.mute.orElse (fun _ => prev.bind (fun p => p.mute)),
        deaf := u.deaf.orElse (fun _ => prev.bind (fun p => p.deaf)),
        suppress := u.suppress.orElse (fun _ => prev.bind (fun p => p.suppress)),
        selfMute := u.selfMute.orElse (fun _ => prev.bind (fun p => p.selfMute)),
        selfDeaf := u.selfDeaf.orElse (fun _ => prev.bind (fun p => p.selfDeaf)) }
    { reg with users := amapSet reg.users sid next }

/-- The `UserRemove` case: delete the user. -/
def handleUserRemove (reg : MumbleRegistry) (sid : Nat) : MumbleRegistry :=
  { reg with users := amapDelete reg.users sid }

/-- The registry invariant of the claim: every user's channel id is root or
a present channel. -/
def registryOk (reg : MumbleRegistry) : Bool :=
  reg.users.all (fun p => p.2.channelId == 0 || (amapGet reg.channels p.2.channelId).isSome)

theorem find?_append_isSome {α : Type} (l1 l2 : List α) (q : α → Bool)
    (h : (l1.find? q).isSome = true) : ((l1 ++ l2).find? q).isSome = true := by
  induction l1 with
  | nil => simp [List.find?] at h
  | cons a rest ih =>
    by_cases hq : q a
    · rw [List.cons_append, List.find?_cons_of_pos _ hq]
      rfl
    · rw [List.find?_cons_of_neg _ hq] at h
      rw [List.cons_append, List.find?_cons_of_neg _ hq]
      exact ih h

theorem amapSet_key_eq {α : Type} (k : Nat) (v : α) (p : Nat × α) :
    ((if p.1 == k then (k, v) else p) : Nat × α).1 = p.1 := by
  by_cases h : (p.1 == k) = true
  · rw [if_pos h]
    have h2 : p.1 = k := by simpa using h
    exact h2.symm
  · rw [if_neg h]

theorem find?_map_key_isSome {α : Type} (m : List (Nat × α)) (k c : Nat) (v : α)
    (h : (m.find? (fun p => p.1 == c)).isSome = true) :
    ((m.map (fun p => if p.1 == k then (k, v) else p)).find?
      (fun p => p.1 == c)).isSome = true := by
  induction m with
  | nil => simp [List.find?] at h
  | cons a rest ih =>
    rw [List.map_cons]
    by_cases hq : a.1 == c
    · rw [List.find?_cons_of_pos (p := fun q : Nat × α => q.1 == c) _
        (by
          show ((if (a.1 == k) = true then ((k, v) : Nat × α) else a).1 == c) = true
          rw [amapSet_key_eq]
          exact hq)]
      rfl
    · rw [List.find?_cons_of_neg (p := fun q : Nat × α => q.1 == c) _ hq] at h
      rw [List.find?_cons_of_neg (p := fun q : Nat × α => q.1 == c) _
        (by
          show ¬((if (a.1 == k) = true then ((k, v) : Nat × α) else a).1 == c) = true
          rw [amapSet_key_eq]
          exact hq)]
      exact ih h

theorem isSome_omap {α β : Type} (f : α → β) (o : Option α) :
    (o.map f).isSome = o.isSome := by
  cases o <;> rfl

theorem amapGet_amapSet_isSome {α : Type} (m : List (Nat × α)) (k c : Nat) (v : α)
    (h : (amapGet m c).isSome = true) : (amapGet (amapSet m k v) c).isSome = true := by
  unfold amapGet at h ⊢
  rw [isSome_omap] at h ⊢
  unfold amapSet
  by_cases hf : (m.find? (fun p => p.1 == k)).isSome
  · rw [if_pos hf]
    exact find?_map_key_isSome m k c v h
  · rw [if_neg hf]
    exact find?_append_isSome m [(k, v)] _ h

theorem amapGet_amapDelete_isSome {α : Type} (m : List (Nat × α)) (k c : Nat)
    (hne : c ≠ k) (h : (amapGet m c).isSome = true) :
    (amapGet (amapDelete m k) c).isSome = true := by
  unfold amapGet at h ⊢
  rw [isSome_omap] at h ⊢
  unfold amapDelete
  induction m with
  | nil => simp [List.find?] at h
  | cons a rest ih =>
    by_cases hq : a.1 == c
    · have hak : (!(a.1 == k)) = true := by
        have hc : a.1 = c := by simpa using hq
        simp [hc, hne]
      rw [List.filter_cons_of_pos (p := fun q : Nat × α => !(q.1 == k)) hak]
      rw [List.find?_cons_of_pos (p := fun q : Nat × α => q.1 == c) _ hq]
      rfl
    · rw [List.find?_cons_of_neg (p := fun q : Nat × α => q.1 == c) _ hq] at h
      by_cases hak : (!(a.1 == k)) = true
      · rw [List.filter_cons_of_pos (p := fun q : Nat × α => !(q.1 == k)) hak]
        rw [List.find?_cons_of_neg (p := fun q : Nat × α => q.1 == c) _ hq]
        exact ih h
      · rw [List.filter_cons_of_neg (p := fun q : Nat × α => !(q.1 == k))
          (by simpa using hak)]
        exact ih h

theorem mem_amapSet {α : Type} (m : List (Nat × α)) (k : Nat) (v : α) (p : Nat × α)
    (hp : p ∈ amapSet m k v) : p ∈ m ∨ p = (k, v) := by
  unfold amapSet at hp
  split at hp
  · obtain ⟨q, hq, hfq⟩ := List.mem_map.mp hp
    by_cases hqk : q.1 == k
    · right
      rw [← hfq, if_pos hqk]
    · left
      rw [← hfq, if_neg hqk]
      exact hq
  · rcases List.mem_append.mp hp with h1 | h1
    · left
      exact h1
    · right
      simpa using h1

theorem amapGet_mem {α : Type} (m : List (Nat × α)) (k : Nat) (v : α)
    (h : amapGet m k = some v) : ∃ p, p ∈ m ∧ p.2 = v := by
  unfold amapGet at h
  rcases hf : m.find? (fun p => p.1 == k) with _ | q
  · rw [hf] at h
    simp at h
  · rw [hf] at h
    simp at h
    exact ⟨q, List.mem_of_find?_eq_some hf, h⟩

/-- C9 counterexample: the `UserState` handler copies the message's
`channel_id` into the registry without checking the channels map, so a
`UserState` for session 1 with channel 5 arriving on an empty registry
leaves a user pointing at a channel that is not present (and not root). -/
theorem claimC9_counterexample :
    registryOk ⟨[], []⟩ = true ∧
    registryOk (handleUserState ⟨[], []⟩
      ⟨some 1, none, some 5, none, none, none, none, none⟩) = false := by
  refine ⟨by decide, by decide⟩

/-- C9 (amended): the registry invariant — every user's channel id is root
or a present channel — is preserved by each of the four handlers provided
the messages are server-consistent: `ChannelRemove` only removes channels no
user occupies, and `UserState` only names channels that exist (or root).
`ChannelState` and `UserRemove` preserve it unconditionally. -/
theorem claimC9_amended_registry_invariant (reg : MumbleRegistry)
    (hinv : registryOk reg = true) :
    (∀ ch : ChannelStateMsg, registryOk (handleChannelState reg ch) = true) ∧
    (∀ cid : Nat, (∀ p ∈ reg.users, p.2.channelId ≠ cid) →
      registryOk (handleChannelRemove reg cid) = true) ∧
    (∀ u : UserStateMsg, (∀ c, u.channelId = some c →
        c = 0 ∨ (amapGet reg.channels c).isSome = true) →
      registryOk (handleUserState reg u) = true) ∧
    (∀ sid : Nat, registryOk (handleUserRemove reg sid) = true) := by
  rw [registryOk, List.all_eq_true] at hinv
  refine ⟨?_, ?_, ?_, ?_⟩
  · intro ch
    unfold handleChannelState
    cases hcid : ch.channelId with
    | none =>
      rw [registryOk, List.all_eq_true]
      exact hinv
    | some cid =>
      dsimp only
      rw [registryOk, List.all_eq_true]
      intro p hp
      dsimp only at hp ⊢
      have h0 := hinv p hp
      simp only [Bool.or_eq_true] at h0 ⊢
      rcases h0 with h1 | h1
      · exact Or.inl h1
      · exact Or.inr (amapGet_amapSet_isSome reg.channels cid p.2.channelId _ h1)
  · intro cid hnone
    unfold handleChannelRemove
    rw [registryOk, List.all_eq_true]
    intro p hp
    dsimp only at hp ⊢
    have h0 := hinv p hp
    simp only [Bool.or_eq_true] at h0 ⊢
    rcases h0 with h1 | h1
    · exact Or.inl h1
    · exact Or.inr (amapGet_amapDelete_isSome reg.channels cid p.2.channelId
        (hnone p hp) h1)
  · intro u hval
    unfold handleUserState
    cases hs : u.session with
    | none =>
      rw [registryOk, List.all_eq_true]
      exact hinv
    | some sid =>
      dsimp only
      rw [registryOk, List.all_eq_true]
      intro p hp
      dsimp only at hp ⊢
      rcases mem_amapSet _ _ _ _ hp with hmem | heq
      · exact hinv p hmem
      · rw [heq]
        simp only [Bool.or_eq_true]
        cases hc : u.channelId with
        | some c =>
          rcases hval c hc with h0 | h0
          · simp [hc, h0]
          · simp [hc, h0]
        | none =>
          cases hprev : amapGet reg.users sid with
          | none => simp [hc, hprev]
          | some q =>
            obtain ⟨p0, hp0mem, hp0v⟩ := amapGet_mem _ _ _ hprev
            have h0 := hinv p0 hp0mem
            rw [hp0v] at h0
            simp only [Bool.or_eq_true] at h0
            simp only [hc, hprev, Option.getD_none, Option.map_some, Option.getD_some]
            exact h0
  · intro sid
    unfold handleUserRemove
    rw [registryOk, List.all_eq_true]
    intro p hp
    dsimp only at hp ⊢
    exact hinv p (List.mem_of_mem_filter hp)

theorem claimC9_amended_registry_invariant_witness :
    registryOk ⟨[(1, ⟨1, "", none, none, none, none⟩)], []⟩ = true ∧
    registryOk (handleUserState ⟨[(1, ⟨1, "", none, none, none, none⟩)], []⟩
      ⟨some 3, none, some 1, none, none, none, none, none⟩) = true :=
  ⟨by decide,
   (claimC9_amended_registry_invariant ⟨[(1, ⟨1, "", none, none, none, none⟩)], []⟩
     (by decide)).2.2.1 ⟨some 3, none, some 1, none, none, none, none, none⟩
     (fun c hc => by
       have hc2 : (1 : Nat) = c := Option.some.inj hc
       subst hc2
       exact Or.inr (by decide))⟩
